import Mathlib

/-!
# LedgerMaster: valid and published ledger tracking, publishing, backfill

A shallow embedding of `src/app/ledger/impl/LedgerMaster.cpp`.

* Ledger hashes (`uint256`) are natural numbers, the zero hash is `0`.
* Ledger sequences, close times and sign times are `std::uint32_t` in the
  source; they are natural numbers here and every source expression that can
  leave the 32-bit range is reduced with `wrap32`.
* The mutex-protected members of `LedgerMaster` form the record
  `LedgerMaster`; every operation is a function from state to state.
* Calls into collaborators that return a value are fields of `Env`; calls
  into collaborators made for their effect are appended to `events`.
* `assert` is compiled out (release build).
* `setValidated` and `setFull` act on the shared ledger object; here the flags
  are fields of the ledger value and the flagged value is what gets stored.
* A method that can throw returns an `Outcome`: its value and state, or the
  state at the throw. Loops that need not end take fuel.
-/

namespace ripple

/-- Ledger hash, `uint256` in the source. -/
abbrev Hash := Nat

/-- Serialized payload, `Blob` in the source. -/
abbrev Blob := List Nat

/-- Reduction of an unsigned 32-bit result. -/
def wrap32 (n : Nat) : Nat := n % 4294967296

/-- The constant `MAX_LEDGER_GAP` of the source. -/
def MAX_LEDGER_GAP : Nat := 100

/-- The fields of `LedgerInfo` that `LedgerMaster.cpp` reads. -/
structure LedgerInfo where
  seq : Nat
  hash : Hash
  parentHash : Hash
  closeTime : Nat
deriving DecidableEq, Repr

/-- A ledger object: its header and its two once-settable flags. -/
structure Ledger where
  info : LedgerInfo
  validated : Bool
  full : Bool
deriving DecidableEq, Repr

/-- The method `Ledger::setValidated`. -/
def Ledger.setValidated (l : Ledger) : Ledger := { l with validated := true }

/-- The method `Ledger::setFull`. -/
def Ledger.setFull (l : Ledger) : Ledger := { l with full := true }

/-- Modelled from the spec: the range tracker `RangeSet` (its header and
implementation are not among the sources). The spec describes it as the set of
ledger sequences known to be present, mutated by monotonic add and by point
removal. It is represented by its membership test. -/
structure RangeSet where
  has : Nat → Bool

/-- Membership, `RangeSet::hasValue`. -/
def RangeSet.hasValue (r : RangeSet) (v : Nat) : Bool := r.has v

/-- Mark one sequence present, `RangeSet::setValue`. -/
def RangeSet.setValue (r : RangeSet) (v : Nat) : RangeSet :=
  ⟨fun x => x == v || r.has x⟩

/-- Mark the closed interval from `minV` to `maxV` present, `RangeSet::setRange`. -/
def RangeSet.setRange (r : RangeSet) (minV maxV : Nat) : RangeSet :=
  ⟨fun x => (decide (minV ≤ x) && decide (x ≤ maxV)) || r.has x⟩

/-- Remove one sequence, `RangeSet::clearValue`. -/
def RangeSet.clearValue (r : RangeSet) (v : Nat) : RangeSet :=
  ⟨fun x => !(x == v) && r.has x⟩

/-- Modelled from the spec: the ledger cache `LedgerHistory` (not among the
sources), a store answering `byHash` and `bySeq` and accepting `insert`;
eviction is internal to the collaborator and not represented. -/
structure LedgerHistory where
  ledgers : List Ledger

/-- Lookup by hash, `LedgerHistory::getLedgerByHash`. -/
def LedgerHistory.getLedgerByHash (h : LedgerHistory) (hash : Hash) : Option Ledger :=
  h.ledgers.find? (fun l => l.info.hash == hash)

/-- Lookup by sequence, `LedgerHistory::getLedgerBySeq`. -/
def LedgerHistory.getLedgerBySeq (h : LedgerHistory) (index : Nat) : Option Ledger :=
  h.ledgers.find? (fun l => l.info.seq == index)

/-- Insertion, `LedgerHistory::insert`: the new entry is found first by later lookups. -/
def LedgerHistory.insert (h : LedgerHistory) (l : Ledger) : LedgerHistory :=
  ⟨l :: h.ledgers⟩

/-- Reason codes passed to `InboundLedgers::acquire`. -/
inductive AcquireReason where
  | fcGENERIC
  | fcHISTORY
deriving DecidableEq, Repr

/-- An object of a fetch-pack reply, `protocol::TMIndexedObject`: the sequence
of the ledger it belongs to, its node hash and its data. -/
structure FPObject where
  ledgerSeq : Nat
  hash : Hash
  data : Blob
deriving DecidableEq, Repr

/-- The resource fees `makeFetchPack` charges a peer. -/
inductive Fee where
  | feeRequestNoReply
  | feeInvalidRequest
deriving DecidableEq, Repr

/-- An active peer as `getFetchPack` reads it: an identity, its answer to
`hasRange`, and the value its `getScore(true)` returns when asked. -/
structure Peer where
  id : Nat
  hasRange : Nat → Nat → Bool
  score : Int

/-- An entry of the array `sfTableEntries` as `isAuthorityValid` reads it: the
table name held in `sfTableName`, and the answer of `STEntry::hasAuthority` for
an account and a set of roles. -/
structure TableEntry where
  tableName : String
  hasAuthority : Nat → Nat → Bool

/-- Calls into collaborators that are made for their effect. -/
inductive Event where
  | updateLocalTx (l : Ledger)
  | onLedgerClosed (l : Ledger)
  | validatedLedger (l : Ledger)
  | doValidatedLedger (l : Ledger)
  | setAmendmentBlocked
  | pendSaveValidated (l : Ledger) (isSynchronous isCurrent : Bool)
  | orderBookSetup (l : Ledger)
  | setRemoteFee (fee : Nat)
  | addJobAdvance
  | checkSanity (seq : Nat)
  | acquire (hash : Hash) (seq : Nat) (reason : AcquireReason)
  | pubLedger (l : Ledger)
  | checkSyncTableTxs (l : Ledger)
  | builtLedger (l : Ledger)
  | charge (fee : Fee)
  | sendReply (objects : List FPObject)
  | sendFetchPackRequest (peer : Nat) (ledgerhash : Hash)
  | addJobTryFill (l : Ledger)
  | addJobUpdatePaths
  | tryTableSync
  | clearNeedNetworkLedger
  | updateAll (lastLedger : Ledger)
deriving DecidableEq, Repr

/-- A trusted validation as `consensusBuilt` reads it: `getLedgerHash()` and
`getFieldU32(sfLedgerSequence)`, which is 0 when the sequence is not known. -/
structure Validation where
  ledgerHash : Hash
  ledgerSeq : Nat
deriving DecidableEq, Repr

/-- The local class `valSeq` of `consensusBuilt`: validation count and ledger
sequence of one ledger hash. -/
structure valSeq where
  valCount_ : Nat
  ledgerSeq_ : Nat
deriving DecidableEq, Repr

/-- Answers of the collaborators during one operation, and the configuration
constants of the node. -/
structure Env where
  /-- The member `standalone_`. -/
  standalone : Bool
  /-- The value of `app_.validators().quorum()`. -/
  quorum : Nat
  /-- The member `ledger_fetch_size_`. -/
  ledger_fetch_size : Int
  /-- The call `app_.getValidations().numTrustedForLedger(hash)`. -/
  numTrustedForLedger : Hash → Nat
  /-- The call `app_.getValidations().getTrustedValidationTimes(hash)`. -/
  getTrustedValidationTimes : Hash → List Nat
  /-- The call `app_.getValidations().fees(hash, base)`. -/
  fees : Hash → Nat → List Nat
  /-- The call `app_.getFeeTrack().getLoadBase()`. -/
  getLoadBase : Nat
  /-- The call `app_.getOPs().isAmendmentBlocked()`. -/
  isAmendmentBlocked : Bool
  /-- The call `app_.getAmendmentTable().hasUnsupportedEnabled()` made after
  `doValidatedLedger(l)`. -/
  hasUnsupportedEnabled : Ledger → Bool
  /-- The result of `app_.getInboundLedgers().acquire(hash, seq, reason)`. -/
  acquire : Hash → Nat → Option Ledger
  /-- The function `hashOfSeq(ledger, seq, journal)`; `none` is a thrown
  exception, `some none` is an absent hash. -/
  hashOfSeq : Ledger → Nat → Option (Option Hash)
  /-- The function `getHashByIndex(index, app)` of the SQL ledger index; zero
  when the index has no row. -/
  getHashByIndex : Nat → Hash
  /-- The rows of the SQL ledger index read by `getHashesByIndex`: ledger hash
  and parent hash by sequence. -/
  hashIndex : Nat → Option (Hash × Hash)
  /-- The answer of `app_.isShutdown()` when `tryFill` polls it while its walk
  is at the given sequence. -/
  isShutdown : Nat → Bool
  /-- The digest `sha512Half` of a payload. -/
  sha512Half : Blob → Hash
  /-- The call `app_.getValidations().currentTrusted()`. -/
  currentTrusted : List Validation
  /-- The order in which `for (auto& v : count)` visits the entries of the
  `hash_map` built by `consensusBuilt`; the container fixes no order. -/
  hashMapOrder : List (Hash × valSeq) → List (Hash × valSeq)
  /-- The value of `UptimeTimer::getInstance().getElapsedSeconds()` at the
  successive polls of `makeFetchPack`: poll 0 is the staleness test, poll
  `k + 1` the loop condition after `k + 1` turns. -/
  elapsedSeconds : Nat → Nat
  /-- The call `app_.getFeeTrack().isLoadedLocal()`. -/
  isLoadedLocal : Bool
  /-- The call `app_.timeKeeper().closeTime()`, in seconds since the epoch. -/
  closeTime : Nat
  /-- Whether `wPeer.lock()` yields the peer. -/
  peerAlive : Bool
  /-- The call `open()` on a ledger. -/
  isOpen : Ledger → Bool
  /-- The member `fetch_depth_`. -/
  fetch_depth_ : Nat
  /-- The field `info().txHash` of a ledger, read by `makeFetchPack` only and
  kept apart from `LedgerInfo`. -/
  txHash : Ledger → Hash
  /-- The header data `makeFetchPack` serializes for a ledger: the ledger
  prefix followed by `addRaw(info)`. -/
  serializeHeader : Ledger → Blob
  /-- The nodes that `wantLedger->stateMap().getFetchPack(&haveLedger->stateMap(),
  true, max, ...)` hands to its callback, for the want ledger, the have ledger
  and `max`; `none` is a thrown exception. -/
  stateFetchPack : Ledger → Ledger → Nat → Option (List (Hash × Blob))
  /-- The nodes that `wantLedger->txMap().getFetchPack(nullptr, true, max, ...)`
  hands to its callback; `none` is a thrown exception. -/
  txFetchPack : Ledger → Nat → Option (List (Hash × Blob))
  /-- The function `getCandidateLedger(index)`, declared outside the sources. -/
  getCandidateLedger : Nat → Nat
  /-- The call `app_.overlay().getActivePeers()`. -/
  activePeers : List Peer
  /-- The call `app_.getInboundLedgers().isFailure(hash)`. -/
  isFailure : Hash → Bool
  /-- The call `app_.getJobQueue().getJobCount(jtPUBOLDLEDGER)`. -/
  jobCountPubOld : Int
  /-- The member `ledger_history_`. -/
  ledger_history_ : Nat
  /-- The call `app_.getSHAMapStore().getCanDelete()`. -/
  getCanDelete : Nat
  /-- Whether `addJob(jtUPDATE_PF, ...)` accepts the job, as `newPFWork` tests. -/
  addJobUpdatePF : Bool
  /-- Whether `addJob(jtADVANCE, "advanceLedger", ...)` accepts the job;
  `tryAdvance` does not look at this result. -/
  addJobAdvanceLedger : Bool
  /-- The call `isStopping()`. -/
  isStopping : Bool
  /-- The data of the node that `app_.getNodeStore().fetch(hash)` returns;
  `none` when there is no node. -/
  nodeStoreFetch : Hash → Option Blob
  /-- The value `SerialIter::get32` decodes from the four bytes it consumes
  (the class is not among the sources). -/
  decode32 : Blob → Nat
  /-- The constant `HashPrefix::ledgerMaster`. -/
  ledgerMasterPrefix : Nat
  /-- The call `app_.getOPs().isNeedNetworkLedger()`. -/
  isNeedNetworkLedger : Bool
  /-- The call `app_.openLedger().current()`. -/
  openLedgerCurrent : Ledger
  /-- The entries `ledger->read(keylet::table(ownerID))` holds in
  `sfTableEntries`; `none` when the ledger has no such object. -/
  readTables : Ledger → Nat → Option (List TableEntry)
  /-- The call `app_.pendingSaves().getSnapshot()`: the entries of the map in
  the order of iteration, which is ascending in the sequence. -/
  pendingSaves : List (Nat × Bool)

/-- The members of `LedgerMaster` that the embedded operations read or write,
and the log of effect calls. -/
structure LedgerMaster where
  mValidLedger : Option Ledger
  mValidLedgerSeq : Nat
  mValidLedgerSign : Nat
  mPubLedger : Option Ledger
  mPubLedgerSeq : Nat
  mPubLedgerClose : Nat
  mClosedLedger : Option Ledger
  mLastValidLedger : Hash × Nat
  mLastValidateHash : Hash
  mLastValidateSeq : Nat
  mBuildingLedgerSeq : Nat
  mCompleteLedgers : RangeSet
  mLedgerHistory : LedgerHistory
  fetch_packs_ : List (Hash × Blob)
  mAdvanceWork : Bool
  mAdvanceThread : Bool
  mFillInProgress : Nat
  mHistLedger : Option Ledger
  fetch_seq_ : Nat
  mPathFindThread : Int
  mPathLedger : Option Ledger
  mPathFindNewRequest : Bool
  events : List Event

/-- The state of a freshly constructed `LedgerMaster`: no valid ledger, no
published ledger, empty range tracker and caches. -/
def LedgerMaster.init : LedgerMaster where
  mValidLedger := none
  mValidLedgerSeq := 0
  mValidLedgerSign := 0
  mPubLedger := none
  mPubLedgerSeq := 0
  mPubLedgerClose := 0
  mClosedLedger := none
  mLastValidLedger := (0, 0)
  mLastValidateHash := 0
  mLastValidateSeq := 0
  mBuildingLedgerSeq := 0
  mCompleteLedgers := ⟨fun _ => false⟩
  mLedgerHistory := ⟨[]⟩
  fetch_packs_ := []
  mAdvanceWork := false
  mAdvanceThread := false
  mFillInProgress := 0
  mHistLedger := none
  fetch_seq_ := 0
  mPathFindThread := 0
  mPathLedger := none
  mPathFindNewRequest := false
  events := []

/-- Append effect calls to the log. -/
def LedgerMaster.emit (s : LedgerMaster) (es : List Event) : LedgerMaster :=
  { s with events := s.events ++ es }

/-- The sign time computed inside `LedgerMaster::setValidLedger` from the
collected `times`: the sample median when the samples are non-empty and meet
quorum, else the close time of the ledger. -/
def signTimeOf (times : List Nat) (quorum : Nat) (closeTime : Nat) : Nat :=
  if !times.isEmpty && decide (times.length ≥ quorum) then
    let sorted := times.insertionSort (· ≤ ·)
    let t0 := sorted.getD ((times.length - 1) / 2) 0
    let t1 := sorted.getD (times.length / 2) 0
    t0 + (t1 - t0) / 2
  else
    closeTime

/-- The method `LedgerMaster::setValidLedger`. -/
def setValidLedger (env : Env) (s : LedgerMaster) (l : Ledger) : LedgerMaster :=
  let times : List Nat :=
    if !env.standalone then env.getTrustedValidationTimes l.info.hash else []
  let signTime := signTimeOf times env.quorum l.info.closeTime
  let s1 := { s with mValidLedger := some l
                     mValidLedgerSign := signTime
                     mValidLedgerSeq := l.info.seq }
  let s2 := s1.emit [.updateLocalTx l, .onLedgerClosed l, .validatedLedger l,
                     .doValidatedLedger l]
  if !env.isAmendmentBlocked && env.hasUnsupportedEnabled l then
    s2.emit [.setAmendmentBlocked]
  else
    s2

/-- The method `LedgerMaster::setPubLedger`. -/
def setPubLedger (s : LedgerMaster) (l : Ledger) : LedgerMaster :=
  { s with mPubLedger := some l
           mPubLedgerClose := l.info.closeTime
           mPubLedgerSeq := l.info.seq }

/-- The method `LedgerMaster::getNeededValidations`. -/
def getNeededValidations (env : Env) : Nat :=
  if env.standalone then 0 else env.quorum

/-- The method `LedgerMaster::tryAdvance`. -/
def tryAdvance (s : LedgerMaster) : LedgerMaster :=
  let s1 := { s with mAdvanceWork := true }
  if !s1.mAdvanceThread && s1.mValidLedger.isSome then
    { s1 with mAdvanceThread := true }.emit [.addJobAdvance]
  else
    s1

/-- The fee forwarded by `checkAccept`: the element at index `n / 2` of the
sorted samples, or `base` when there is no sample. -/
def medianFee (fees : List Nat) (base : Nat) : Nat :=
  if !fees.isEmpty then
    (fees.insertionSort (· ≤ ·)).getD (fees.length / 2) 0
  else
    base

/-- The method `LedgerMaster::checkAccept(std::shared_ptr<Ledger const> const&)`. -/
def checkAccept (env : Env) (s : LedgerMaster) (ledger : Ledger) : LedgerMaster :=
  if ledger.info.seq ≤ s.mValidLedgerSeq then s
  else if ledger.info.seq ≤ s.mValidLedgerSeq then s
  else
    let minVal := getNeededValidations env
    let tvc := env.numTrustedForLedger ledger.info.hash
    if tvc < minVal then s
    else
      let s1 := { s with mLastValidateHash := ledger.info.hash
                         mLastValidateSeq := ledger.info.seq }
      let ledger1 := ledger.setValidated.setFull
      let s2 := setValidLedger env s1 ledger1
      let s3 :=
        if s2.mPubLedger.isNone then
          ((setPubLedger (s2.emit [.pendSaveValidated ledger1 true true]) ledger1).emit
            [.orderBookSetup ledger1])
        else s2
      let base := env.getLoadBase
      let fees := env.fees ledger.info.hash base ++ env.fees ledger.info.parentHash base
      let fee := medianFee fees base
      tryAdvance (s3.emit [.setRemoteFee fee])

/-- The tail of `checkAccept(hash, seq)` after its `seq != 0` block: resolve
the ledger from the cache or by acquisition and defer to the ledger form. -/
def checkAcceptHash.resolve (env : Env) (s : LedgerMaster) (hash : Hash) (seq : Nat)
    (valCount : Nat) : LedgerMaster :=
  match s.mLedgerHistory.getLedgerByHash hash with
  | some ledger => checkAccept env s ledger
  | none =>
    let s1 :=
      if seq ≠ 0 ∧ s.mValidLedgerSeq = 0 then
        if valCount ≥ env.quorum then s.emit [.checkSanity seq] else s
      else s
    let s2 := s1.emit [.acquire hash 0 .fcGENERIC]
    match env.acquire hash 0 with
    | some ledger => checkAccept env s2 ledger
    | none => s2

/-- The method `LedgerMaster::checkAccept(uint256 const&, std::uint32_t)`. -/
def checkAcceptHash (env : Env) (s : LedgerMaster) (hash : Hash) (seq : Nat) :
    LedgerMaster :=
  if seq ≠ 0 then
    if seq < s.mValidLedgerSeq then s
    else
      let valCount := env.numTrustedForLedger hash
      let s1 : LedgerMaster :=
        if valCount ≥ env.quorum then
          if seq > s.mLastValidLedger.2 then { s with mLastValidLedger := (hash, seq) }
          else s
        else s
      if seq = s1.mValidLedgerSeq then s1
      else if seq = s1.mBuildingLedgerSeq then s1
      else checkAcceptHash.resolve env s1 hash seq valCount
  else
    checkAcceptHash.resolve env s hash seq 0

/-- The method `LedgerMaster::setBuildingLedger`. -/
def setBuildingLedger (s : LedgerMaster) (i : Nat) : LedgerMaster :=
  { s with mBuildingLedgerSeq := i }

/-- The method `LedgerMaster::getLedgerByHash`. -/
def getLedgerByHash (s : LedgerMaster) (hash : Hash) : Option Ledger :=
  match s.mLedgerHistory.getLedgerByHash hash with
  | some ret => some ret
  | none =>
    match s.mClosedLedger with
    | some ret => if ret.info.hash = hash then some ret else none
    | none => none

/-- The method `valSeq::mergeValidation`. -/
def valSeq.mergeValidation (v : valSeq) (seq : Nat) : valSeq :=
  { valCount_ := v.valCount_ + 1
    ledgerSeq_ := if v.ledgerSeq_ = 0 then seq else v.ledgerSeq_ }

/-- One turn of the counting loop of `consensusBuilt`:
`count[v->getLedgerHash()].mergeValidation(v->getFieldU32(sfLedgerSequence))`,
with the `hash_map` as a list of its entries; `operator[]` makes a fresh entry
for a hash not yet present. -/
def countMerge : List (Hash × valSeq) → Validation → List (Hash × valSeq)
  | [], v => [(v.ledgerHash, (valSeq.mk 0 0).mergeValidation v.ledgerSeq)]
  | (h, vs) :: rest, v =>
    if h = v.ledgerHash then (h, vs.mergeValidation v.ledgerSeq) :: rest
    else (h, vs) :: countMerge rest v

/-- The counting loop of `consensusBuilt` over the trusted validations. -/
def countValidations (val : List Validation) : List (Hash × valSeq) :=
  val.foldl countMerge []

/-- The sequence `consensusBuilt` uses for an entry of its map: the recorded
one, or when that is still 0 the sequence of the ledger `getLedgerByHash`
finds for the hash, or 0. -/
def groupSeq (s : LedgerMaster) (g : Hash × valSeq) : Nat :=
  if g.2.ledgerSeq_ = 0 then
    match getLedgerByHash s g.1 with
    | some ledger => ledger.info.seq
    | none => 0
  else g.2.ledgerSeq_

/-- The selection loop of `consensusBuilt` over the entries of the map, with
the locals `maxSeq` and `maxLedger`. -/
def consensusBuilt.scan (s : LedgerMaster) (neededValidations : Nat) :
    List (Hash × valSeq) → Nat × Hash → Nat × Hash
  | [], acc => acc
  | g :: rest, (maxSeq, maxLedger) =>
    if g.2.valCount_ > neededValidations then
      if groupSeq s g > maxSeq then consensusBuilt.scan s neededValidations rest (groupSeq s g, g.1)
      else consensusBuilt.scan s neededValidations rest (maxSeq, maxLedger)
    else consensusBuilt.scan s neededValidations rest (maxSeq, maxLedger)

/-- The locals `maxSeq` and `maxLedger` of `consensusBuilt` after its selection
loop, run in state `s` for the built ledger. -/
def consensusBuilt.pick (env : Env) (s : LedgerMaster) (ledger : Ledger) : Nat × Hash :=
  consensusBuilt.scan s (getNeededValidations env)
    (env.hashMapOrder (countValidations env.currentTrusted))
    (s.mValidLedgerSeq, ledger.info.hash)

/-- The method `LedgerMaster::consensusBuilt`. -/
def consensusBuilt (env : Env) (s : LedgerMaster) (ledger : Ledger) : LedgerMaster :=
  let s1 := setBuildingLedger s 0
  if env.standalone then s1
  else
    let s2 := s1.emit [.builtLedger ledger]
    if ledger.info.seq ≤ s2.mValidLedgerSeq then s2
    else
      let s3 := checkAccept env s2 ledger
      if ledger.info.seq ≤ s3.mValidLedgerSeq then s3
      else
        let picked := consensusBuilt.pick env s3 ledger
        if picked.1 > s3.mValidLedgerSeq then checkAcceptHash env s3 picked.2 picked.1
        else s3

/-- The method `LedgerMaster::haveLedger(std::uint32_t)`. -/
def haveLedger (s : LedgerMaster) (seq : Nat) : Bool :=
  s.mCompleteLedgers.hasValue seq

/-- The method `LedgerMaster::clearLedger`. -/
def clearLedger (s : LedgerMaster) (seq : Nat) : LedgerMaster :=
  { s with mCompleteLedgers := s.mCompleteLedgers.clearValue seq }

/-- The method `LedgerMaster::getLedgerBySeq`; the state is returned because the
last path calls `clearLedger`. -/
def getLedgerBySeq (env : Env) (s : LedgerMaster) (index : Nat) :
    Option Ledger × LedgerMaster :=
  let fromCaches : Option Ledger × LedgerMaster :=
    match s.mLedgerHistory.getLedgerBySeq index with
    | some ret => (some ret, s)
    | none =>
      match s.mClosedLedger with
      | some ret =>
        if ret.info.seq = index then (some ret, s) else (none, clearLedger s index)
      | none => (none, clearLedger s index)
  if index ≤ s.mValidLedgerSeq then
    match s.mValidLedger with
    | some valid =>
      if valid.info.seq = index then (some valid, s)
      else
        match env.hashOfSeq valid index with
        | some (some hash) => (s.mLedgerHistory.getLedgerByHash hash, s)
        | some none => fromCaches
        | none => fromCaches
    | none => fromCaches
  else fromCaches

/-- The loop of `LedgerMaster::fixMismatch`, entered with the loop variable
`lSeq`; it runs while `lSeq > 0` and decrements. -/
def fixMismatchLoop (env : Env) (ledger : Ledger) : Nat → LedgerMaster → LedgerMaster
  | 0, s => s
  | lSeq + 1, s =>
    if haveLedger s (lSeq + 1) then
      match env.hashOfSeq ledger (lSeq + 1) with
      | none => clearLedger s (lSeq + 1)
      | some none => fixMismatchLoop env ledger lSeq (clearLedger s (lSeq + 1))
      | some (some hash) =>
        match getLedgerBySeq env s (lSeq + 1) with
        | (some otherLedger, s1) =>
          if otherLedger.info.hash = hash then s1
          else fixMismatchLoop env ledger lSeq (clearLedger s1 (lSeq + 1))
        | (none, s1) => fixMismatchLoop env ledger lSeq (clearLedger s1 (lSeq + 1))
    else fixMismatchLoop env ledger lSeq s

/-- The method `LedgerMaster::fixMismatch`; the scan starts at
`ledger.info().seq - 1` in 32-bit arithmetic. -/
def fixMismatch (env : Env) (s : LedgerMaster) (ledger : Ledger) : LedgerMaster :=
  fixMismatchLoop env ledger (wrap32 (ledger.info.seq + 4294967295)) s

/-- The first part of `LedgerMaster::setFullLedger`, before it takes `m_mutex`:
the cache insertion, the check of the SQL index entry of the previous sequence
(`ledger.info().seq - 1` in 32-bit arithmetic), the pending save and the range
tracker update; `ledger` is the ledger already flagged. -/
def setFullLedger.record (env : Env) (s : LedgerMaster) (ledger : Ledger)
    (isSynchronous isCurrent : Bool) : LedgerMaster :=
  let prevSeq := wrap32 (ledger.info.seq + 4294967295)
  let s1 := if isCurrent then { s with mLedgerHistory := s.mLedgerHistory.insert ledger } else s
  let prevHash := env.getHashByIndex prevSeq
  let s2 :=
    if prevHash ≠ 0 ∧ prevHash ≠ ledger.info.parentHash then clearLedger s1 prevSeq else s1
  let s3 := s2.emit [.pendSaveValidated ledger isSynchronous isCurrent]
  { s3 with mCompleteLedgers := s3.mCompleteLedgers.setValue ledger.info.seq }

/-- The two pointer updates of `LedgerMaster::setFullLedger` under `m_mutex`. -/
def setFullLedger.pointers (env : Env) (s : LedgerMaster) (ledger : Ledger) : LedgerMaster :=
  let s5 := if ledger.info.seq > s.mValidLedgerSeq then setValidLedger env s ledger else s
  if s5.mPubLedger.isNone then (setPubLedger s5 ledger).emit [.orderBookSetup ledger]
  else s5

/-- The method `LedgerMaster::setFullLedger`: flag the ledger, record it, set
the pointers, then check the previous ledger. -/
def setFullLedger (env : Env) (s : LedgerMaster) (ledger0 : Ledger)
    (isSynchronous isCurrent : Bool) : LedgerMaster :=
  let ledger := ledger0.setValidated.setFull
  let prevSeq := wrap32 (ledger.info.seq + 4294967295)
  let s4 := setFullLedger.record env s ledger isSynchronous isCurrent
  let s6 := setFullLedger.pointers env s4 ledger
  if ledger.info.seq ≠ 0 ∧ haveLedger s6 prevSeq = true then
    match getLedgerBySeq env s6 prevSeq with
    | (some prevLedger, s7) =>
      if prevLedger.info.hash ≠ ledger.info.parentHash then fixMismatch env s7 ledger else s7
    | (none, s7) => fixMismatch env s7 ledger
  else s6

/-- The `for` loop of `LedgerMaster::findNewLedgersToPublish` over
`seq = pubSeq .. valSeq`, with loop state `seq`, `pubSeq`, `acqCount`, the
result vector `ret` and the effect log. One unit of `fuel` is one test of the
loop condition; `none` is fuel exhausted. A thrown `hashOfSeq` leaves the loop
with the ledgers collected so far. -/
def findLoop (env : Env) (hist : LedgerHistory) (valLedger : Ledger) (valSeq : Nat) :
    Nat → Nat → Nat → Int → List Ledger → List Event → Option (List Ledger × List Event)
  | 0, _, _, _, _, _ => none
  | fuel + 1, seq, pubSeq, acqCount, ret, evs =>
    if seq ≤ valSeq then
      match env.hashOfSeq valLedger seq with
      | none => some (ret, evs)
      | some hashOpt =>
        let hash : Hash := hashOpt.getD 0
        let ledger : Option Ledger :=
          if seq = valSeq then some valLedger
          else if hash = 0 then none
          else hist.getLedgerByHash hash
        let tryAcquire : Bool := ledger.isNone && decide (acqCount + 1 < env.ledger_fetch_size)
        let acqCount1 : Int := if ledger.isNone then acqCount + 1 else acqCount
        let ledger1 : Option Ledger := if tryAcquire then env.acquire hash seq else ledger
        let evs1 : List Event :=
          if tryAcquire then evs ++ [.acquire hash seq .fcGENERIC] else evs
        match ledger1 with
        | some l =>
          if l.info.seq = pubSeq then
            findLoop env hist valLedger valSeq fuel (wrap32 (seq + 1)) (wrap32 (pubSeq + 1))
              acqCount1 (ret ++ [l.setValidated]) evs1
          else
            findLoop env hist valLedger valSeq fuel (wrap32 (seq + 1)) pubSeq acqCount1 ret evs1
        | none =>
          findLoop env hist valLedger valSeq fuel (wrap32 (seq + 1)) pubSeq acqCount1 ret evs1
    else some (ret, evs)

/-- The method `LedgerMaster::findNewLedgersToPublish`: the ledgers to publish
and the state it leaves. `fuel` bounds the `for` loop, see `findLoop`. -/
def findNewLedgersToPublish (fuel : Nat) (env : Env) (s : LedgerMaster) :
    Option (List Ledger × LedgerMaster) :=
  match s.mValidLedger with
  | none => some ([], s)
  | some valLedger =>
    if s.mPubLedger.isNone then some ([valLedger], s)
    else if s.mValidLedgerSeq > wrap32 (s.mPubLedgerSeq + MAX_LEDGER_GAP) then
      some ([valLedger], (setPubLedger s valLedger).emit [.orderBookSetup valLedger])
    else if s.mValidLedgerSeq ≤ s.mPubLedgerSeq then some ([], s)
    else
      let pubSeq := wrap32 (s.mPubLedgerSeq + 1)
      let valSeq := valLedger.info.seq
      match findLoop env s.mLedgerHistory valLedger valSeq fuel pubSeq pubSeq 0 [] s.events with
      | some (ret, evs) => some (ret, { s with events := evs })
      | none => none

/-- One pass of the `for (auto ledger : pubLedgers)` loop of
`LedgerMaster::doAdvance`: one publish event. `setFullLedger` flags the shared
ledger object, so the flagged ledger is what the published pointer and the
notifications receive. -/
def publishOne (env : Env) (s : LedgerMaster) (ledger : Ledger) : LedgerMaster :=
  let s1 := setFullLedger env s ledger true true
  let ledger1 := ledger.setValidated.setFull
  let s2 := setPubLedger s1 ledger1
  s2.emit [.pubLedger ledger1, .checkSyncTableTxs ledger1]

/-- The `for (auto ledger : pubLedgers)` loop of `LedgerMaster::doAdvance`. -/
def publishLedgers (env : Env) (s : LedgerMaster) (pubLedgers : List Ledger) : LedgerMaster :=
  pubLedgers.foldl (publishOne env) s

/-- One turn of the `do ... while` of `LedgerMaster::doAdvance` up to the end of
its publish loop: `findNewLedgersToPublish` followed by the publish loop over
what it returned. When the returned list is empty the turn takes the history
branch, which publishes nothing and is not followed here. -/
def advancePublish (fuel : Nat) (env : Env) (s : LedgerMaster) : Option LedgerMaster :=
  match findNewLedgersToPublish fuel env { s with mAdvanceWork := false } with
  | some (pubLedgers, s1) => some (publishLedgers env s1 pubLedgers)
  | none => none

/-- The sequences handed to `pubLedger`, in the order of the effect log. -/
def publishedSeqs (evs : List Event) : List Nat :=
  evs.filterMap (fun e => match e with
    | .pubLedger l => some l.info.seq
    | _ => none)

/-- Modelled from the spec: `TaggedCache::canonicalize` on the fetch-pack cache
(the cache class is not among the sources): packs are cached under their key;
a key already present keeps its entry. -/
def fetchPacksCanonicalize (c : List (Hash × Blob)) (hash : Hash) (data : Blob) :
    List (Hash × Blob) :=
  if (c.lookup hash).isSome then c else (hash, data) :: c

/-- Modelled from the spec: `TaggedCache::retrieve`, the entry under the key. -/
def fetchPacksRetrieve (c : List (Hash × Blob)) (hash : Hash) : Option Blob :=
  c.lookup hash

/-- Modelled from the spec: `TaggedCache::del`, the cache entry is deleted. -/
def fetchPacksDel (c : List (Hash × Blob)) (hash : Hash) : List (Hash × Blob) :=
  c.filter (fun e => !(e.1 == hash))

/-- The method `LedgerMaster::addFetchPack`. -/
def addFetchPack (s : LedgerMaster) (hash : Hash) (data : Blob) : LedgerMaster :=
  { s with fetch_packs_ := fetchPacksCanonicalize s.fetch_packs_ hash data }

/-- The method `LedgerMaster::getFetchPack(uint256 const&)`. -/
def getFetchPack (env : Env) (s : LedgerMaster) (hash : Hash) :
    Option Blob × LedgerMaster :=
  match fetchPacksRetrieve s.fetch_packs_ hash with
  | some data =>
    let s1 := { s with fetch_packs_ := fetchPacksDel s.fetch_packs_ hash }
    if hash = env.sha512Half data then (some data, s1) else (none, s1)
  | none => (none, s)

/-- Modelled from the spec: `getHashesByIndex(minSeq, maxSeq, app)` (declared
outside the sources), the batched lookup of the rows of the SQL ledger index
whose sequence lies in the window. -/
def getHashesByIndex (env : Env) (minSeq maxSeq : Nat) : Nat → Option (Hash × Hash) :=
  fun seq => if minSeq ≤ seq ∧ seq ≤ maxSeq then env.hashIndex seq else none

/-- The job handed to `tryFill`: the answer of `job.shouldCancel()` when the
loop condition is tested with the walk at the given sequence. -/
structure Job where
  shouldCancel : Nat → Bool

/-- How the `while` loop of `tryFill` is left: by falling out of the loop or by
a `break`, with the locals `minHas` and `maxHas` and the range tracker; or by
the `return` taken on shutdown. -/
inductive FillExit where
  | finished (minHas maxHas : Nat) (complete : RangeSet)
  | shutdown (complete : RangeSet)

/-- The `while (!job.shouldCancel() && seq > 0)` loop of `LedgerMaster::tryFill`,
entered with the locals `seq`, `prevHash`, `ledgerHashes`, `minHas`, `maxHas`
and the current range tracker. -/
def tryFillLoop (env : Env) (job : Job) :
    Nat → Hash → (Nat → Option (Hash × Hash)) → Nat → Nat → RangeSet → FillExit
  | 0, _, _, minHas, maxHas, complete => .finished minHas maxHas complete
  | seq + 1, prevHash, ledgerHashes, minHas, maxHas, complete =>
    if job.shouldCancel (seq + 1) then .finished minHas maxHas complete
    else if complete.hasValue seq then .finished (seq + 1) maxHas complete
    else
      match ledgerHashes seq with
      | some it =>
        if it.1 ≠ prevHash then .finished (seq + 1) maxHas complete
        else tryFillLoop env job seq it.2 ledgerHashes (seq + 1) maxHas complete
      | none =>
        if env.isShutdown seq then .shutdown complete
        else
          let complete1 := complete.setRange (seq + 1) maxHas
          let ledgerHashes1 := getHashesByIndex env (if seq < 500 then 0 else seq - 499) seq
          match ledgerHashes1 seq with
          | none => .finished (seq + 1) (seq + 1) complete1
          | some it =>
            if it.1 ≠ prevHash then .finished (seq + 1) (seq + 1) complete1
            else tryFillLoop env job seq it.2 ledgerHashes1 (seq + 1) (seq + 1) complete1

/-- The method `LedgerMaster::tryFill`. -/
def tryFill (env : Env) (job : Job) (s : LedgerMaster) (ledger : Ledger) : LedgerMaster :=
  match tryFillLoop env job ledger.info.seq ledger.info.parentHash (fun _ => none)
      ledger.info.seq ledger.info.seq s.mCompleteLedgers with
  | .shutdown complete => { s with mCompleteLedgers := complete }
  | .finished minHas maxHas complete =>
    tryAdvance { s with mCompleteLedgers := complete.setRange minHas maxHas
                        mFillInProgress := 0 }

/-- The parent hash recorded for sequence `t` of the chain below `ledger`: the
parent hash of `ledger` itself at its own sequence, the parent hash of the
indexed row below it. -/
def parentHashRecorded (env : Env) (ledger : Ledger) (t : Nat) : Option Hash :=
  if t = ledger.info.seq then some ledger.info.parentHash
  else (env.hashIndex t).map Prod.snd

/-- A call of one of the two forms of `checkAccept`, with the collaborator
answers it sees. -/
inductive AcceptCall where
  | byHash (env : Env) (hash : Hash) (seq : Nat)
  | byLedger (env : Env) (ledger : Ledger)

/-- Run one `checkAccept` call. -/
def AcceptCall.run (s : LedgerMaster) : AcceptCall → LedgerMaster
  | .byHash env hash seq => checkAcceptHash env s hash seq
  | .byLedger env ledger => checkAccept env s ledger

/-- The values of `mValidLedgerSeq` after each call of a sequence of
`checkAccept` calls. -/
def validSeqTrace (s : LedgerMaster) : List AcceptCall → List Nat
  | [] => []
  | c :: cs => (c.run s).mValidLedgerSeq :: validSeqTrace (c.run s) cs

/-- States reachable from the initial state by `checkAccept` (both forms),
`setFullLedger`, `findNewLedgersToPublish` and the publish loop of `doAdvance`,
each with arbitrary arguments and collaborator answers. -/
inductive Reachable : LedgerMaster → Prop where
  | init : Reachable LedgerMaster.init
  | checkAccept (env : Env) (s : LedgerMaster) (ledger : Ledger) :
      Reachable s → Reachable (checkAccept env s ledger)
  | checkAcceptHash (env : Env) (s : LedgerMaster) (hash : Hash) (seq : Nat) :
      Reachable s → Reachable (checkAcceptHash env s hash seq)
  | setFullLedger (env : Env) (s : LedgerMaster) (ledger : Ledger)
      (isSynchronous isCurrent : Bool) :
      Reachable s → Reachable (setFullLedger env s ledger isSynchronous isCurrent)
  | findNewLedgersToPublish (fuel : Nat) (env : Env) (s s1 : LedgerMaster)
      (ret : List Ledger) :
      Reachable s → findNewLedgersToPublish fuel env s = some (ret, s1) → Reachable s1
  | publishLedgers (env : Env) (s : LedgerMaster) (pubLedgers : List Ledger) :
      Reachable s → Reachable (publishLedgers env s pubLedgers)

/-- A collaborator environment for closed examples: a networked node with
quorum 1, no validations, no fee samples, an empty SQL index, no acquirable
ledger, no known chain hash, and the sum of the bytes as digest. -/
def baseEnv : Env where
  standalone := false
  quorum := 1
  ledger_fetch_size := 0
  numTrustedForLedger := fun _ => 0
  getTrustedValidationTimes := fun _ => []
  fees := fun _ _ => []
  getLoadBase := 256
  isAmendmentBlocked := false
  hasUnsupportedEnabled := fun _ => false
  acquire := fun _ _ => none
  hashOfSeq := fun _ _ => some none
  getHashByIndex := fun _ => 0
  hashIndex := fun _ => none
  isShutdown := fun _ => false
  sha512Half := fun d => d.sum
  currentTrusted := []
  hashMapOrder := fun g => g
  elapsedSeconds := fun _ => 0
  isLoadedLocal := false
  closeTime := 0
  peerAlive := true
  isOpen := fun _ => false
  fetch_depth_ := 0
  txHash := fun _ => 0
  serializeHeader := fun _ => []
  stateFetchPack := fun _ _ _ => some []
  txFetchPack := fun _ _ => some []
  getCandidateLedger := fun index => (index + 255) / 256 * 256
  activePeers := []
  isFailure := fun _ => false
  jobCountPubOld := 0
  ledger_history_ := 256
  getCanDelete := 0
  addJobUpdatePF := true
  addJobAdvanceLedger := true
  isStopping := false
  nodeStoreFetch := fun _ => none
  decode32 := fun bytes => bytes.foldl (fun acc b => acc * 256 + b) 0
  ledgerMasterPrefix := 1280791040
  isNeedNetworkLedger := false
  openLedgerCurrent := ⟨⟨0, 0, 0, 0⟩, false, false⟩
  readTables := fun _ _ => none
  pendingSaves := []

/-- A ledger with the given sequence, hash, parent hash and close time, not yet
flagged. -/
def mkLedger (seq : Nat) (hash parentHash : Hash) (closeTime : Nat) : Ledger :=
  ⟨⟨seq, hash, parentHash, closeTime⟩, false, false⟩

/-- A standalone node whose validation tracker nevertheless holds the two
signing times 10 and 20 for every hash, with quorum 2. -/
def standaloneTimesEnv : Env :=
  { baseEnv with standalone := true
                 quorum := 2
                 getTrustedValidationTimes := fun _ => [10, 20] }

/-- The second state differs from the first in the range tracker at most. -/
def OnlyComplete (s t : LedgerMaster) : Prop :=
  ∃ c : RangeSet, t = { s with mCompleteLedgers := c }

/-- The relation between the valid and the published pointer: the published
sequence does not exceed the valid sequence, and `mValidLedgerSeq` is the
sequence of the ledger the valid pointer holds. -/
def PointerInv (s : LedgerMaster) : Prop :=
  s.mPubLedgerSeq ≤ s.mValidLedgerSeq ∧
    ∀ l : Ledger, s.mValidLedger = some l → s.mValidLedgerSeq = l.info.seq

/-- A state for closed examples: the initial state with the given published
and valid ledgers installed in their pointers. -/
def stateAt (pub valid : Ledger) : LedgerMaster :=
  { LedgerMaster.init with mValidLedger := some valid
                           mValidLedgerSeq := valid.info.seq
                           mValidLedgerSign := valid.info.closeTime
                           mPubLedger := some pub
                           mPubLedgerSeq := pub.info.seq
                           mPubLedgerClose := pub.info.closeTime }

/-- A collaborator environment for closed examples in which every ledger can
be had: the chain hash of sequence `n` is `n + 1000`, and acquisition returns
the ledger of that hash and sequence; up to 9 acquisitions per pass. -/
def chainEnv : Env :=
  { baseEnv with ledger_fetch_size := 10
                 hashOfSeq := fun _ seq => some (some (seq + 1000))
                 acquire := fun hash seq => some (mkLedger seq hash (hash - 1) 0) }

/-- A collaborator environment for closed examples in which every hash has one
trusted validation, which meets the quorum of 1. -/
def acceptEnv : Env :=
  { baseEnv with numTrustedForLedger := fun _ => 1 }

/-- A collaborator environment for closed examples with a full SQL index: the
row of sequence `v` holds the hash `v + 5000` and the parent hash `v + 4999`. -/
def fillEnv : Env :=
  { baseEnv with hashIndex := fun v => some (v + 5000, v + 4999) }

/-- A state for closed examples whose range tracker holds sequence 950 only. -/
def fillState : LedgerMaster :=
  { LedgerMaster.init with mCompleteLedgers := ⟨fun v => v == 950⟩ }

/-- What the walk of `tryFill` keeps true of the range tracker `c` and the
local `maxHas`, relative to the tracker `T` at entry and the start sequence
`n`: away from `maxHas`, `c` is `T` with the sequences above `maxHas` up to `n`
added. -/
def FillInv (T : RangeSet) (n : Nat) (c : RangeSet) (maxHas : Nat) : Prop :=
  maxHas ≤ n ∧ ∀ v, v ≠ maxHas →
    c.hasValue v = (T.hasValue v || (decide (maxHas < v) && decide (v ≤ n)))

/-- One step of a run of the publishing machinery: a `checkAccept` call of
either form, or one turn of the Advance loop that reaches its publish loop. -/
inductive RunStep where
  | accept (c : AcceptCall)
  | advance (fuel : Nat) (env : Env)

/-- Run the steps in order; `none` when a turn runs out of fuel. -/
def runSteps : LedgerMaster → List RunStep → Option LedgerMaster
  | s, [] => some s
  | s, .accept c :: rest => runSteps (c.run s) rest
  | s, .advance fuel env :: rest =>
    match advancePublish fuel env s with
    | some t => runSteps t rest
    | none => none

/-- At the start of every Advance turn of the run the valid sequence is more
than 100 below the top of the 32-bit range. -/
def belowWrap : LedgerMaster → List RunStep → Prop
  | _, [] => True
  | s, .accept c :: rest => belowWrap (c.run s) rest
  | s, .advance fuel env :: rest =>
    s.mValidLedgerSeq + 100 < 4294967295 ∧
      match advancePublish fuel env s with
      | some t => belowWrap t rest
      | none => True

/-- The relation between the effect log and the published pointer: the pointer
invariant, the sequences handed to `pubLedger` so far strictly increase, and
each of them is at most the published sequence of a published ledger. -/
def PubInv (s : LedgerMaster) : Prop :=
  PointerInv s ∧ (publishedSeqs s.events).Pairwise (· < ·) ∧
    ∀ q ∈ publishedSeqs s.events, s.mPubLedger.isSome = true ∧ q ≤ s.mPubLedgerSeq

/-- The fees handed to `setRemoteFee`, in the order of the effect log. -/
def remoteFees (evs : List Event) : List Nat :=
  evs.filterMap (fun e => match e with
    | .setRemoteFee fee => some fee
    | _ => none)

/-- A valid ledger, once set, has a sequence of at least 1. -/
def ValidPos (s : LedgerMaster) : Prop :=
  ∀ l : Ledger, s.mValidLedger = some l → 1 ≤ s.mValidLedgerSeq

/-- The seam test of `fixMismatch` at a sequence: the accepted chain gives a
hash for it and the ledger `getLedgerBySeq` finds there has that hash. -/
def seamAt (env : Env) (s : LedgerMaster) (ledger : Ledger) (seq : Nat) : Bool :=
  match env.hashOfSeq ledger seq with
  | some (some hash) =>
    match (getLedgerBySeq env s seq).1 with
    | some otherLedger => decide (otherLedger.info.hash = hash)
    | none => false
  | _ => false

/-- A state for closed examples: the range tracker holds 495 to 500, and the
ledger cache holds ledger 495 with hash 1495 and the ledgers 496 to 500 with
the hashes 9496 to 9500. -/
def mismatchState : LedgerMaster :=
  { LedgerMaster.init with
      mCompleteLedgers := ⟨fun v => decide (495 ≤ v) && decide (v ≤ 500)⟩
      mLedgerHistory := ⟨[mkLedger 495 1495 1494 0, mkLedger 496 9496 9495 0,
        mkLedger 497 9497 9496 0, mkLedger 498 9498 9497 0, mkLedger 499 9499 9498 0,
        mkLedger 500 9500 9499 0]⟩ }

/-- A collaborator environment for closed examples: the accepted chain gives
the hash `v + 1000` for every sequence `v`. -/
def mismatchEnv : Env :=
  { baseEnv with hashOfSeq := fun _ v => some (some (v + 1000)) }

/-- A collaborator environment for closed examples: as `mismatchEnv`, but
computing the chain hash of sequence 498 throws. -/
def mismatchErrorEnv : Env :=
  { baseEnv with hashOfSeq := fun _ v => if v = 498 then none else some (some (v + 1000)) }

/-- A collaborator environment for closed examples: quorum 1, two trusted
validations for hash 201 at sequence 9, two for hash 202 (one naming sequence
12, one naming none) and one for hash 203 at sequence 20. -/
def scanEnv : Env :=
  { baseEnv with
      currentTrusted := [⟨201, 9⟩, ⟨202, 0⟩, ⟨203, 20⟩, ⟨201, 9⟩, ⟨202, 12⟩] }

/-- The method `LedgerMaster::getValidatedLedgerAge`, in seconds: two weeks
when no sign time is recorded, else the close-time clock minus the sign time,
not below zero. -/
def getValidatedLedgerAge (env : Env) (s : LedgerMaster) : Nat :=
  if s.mValidLedgerSign = 0 then 1209600
  else env.closeTime - s.mValidLedgerSign

/-- The method `LedgerMaster::getEarliestFetch`; `none` when there is no closed
ledger to read the sequence from. -/
def getEarliestFetch (env : Env) (s : LedgerMaster) : Option Nat :=
  match s.mClosedLedger with
  | none => none
  | some c =>
    some (if c.info.seq > env.fetch_depth_ then c.info.seq - env.fetch_depth_ else 0)

/-- The objects one turn of the reply loop of `makeFetchPack` appends for a
want ledger: its header, the state-tree nodes it has over the have ledger (at
most 16384 asked), and its transaction-tree nodes (at most 512 asked) when its
transaction hash is non-zero. `none` when a tree walk throws. -/
def makeFetchPack.contribution (env : Env) (haveLedger wantLedger : Ledger) :
    Option (List FPObject) :=
  let lSeq := wantLedger.info.seq
  let header : FPObject := ⟨lSeq, wantLedger.info.hash, env.serializeHeader wantLedger⟩
  match env.stateFetchPack wantLedger haveLedger 16384 with
  | none => none
  | some nodes =>
    let withState := header :: nodes.map (fun n => (⟨lSeq, n.1, n.2⟩ : FPObject))
    if env.txHash wantLedger ≠ 0 then
      match env.txFetchPack wantLedger 512 with
      | none => none
      | some txs => some (withState ++ txs.map (fun n => (⟨lSeq, n.1, n.2⟩ : FPObject)))
    else some withState

/-- The do-while loop of `LedgerMaster::makeFetchPack`, entered with the have
ledger, the want ledger and the objects of the reply so far; `turn` counts the
turns already made. The outer `none` is fuel running out, the inner `none` an
exception thrown while building. -/
def makeFetchPack.loop (env : Env) (s : LedgerMaster) (uUptime : Nat) :
    Nat → Nat → Ledger → Ledger → List FPObject → Option (Option (List FPObject))
  | 0, _, _, _, _ => none
  | fuel + 1, turn, haveLedger, wantLedger, objects =>
    match makeFetchPack.contribution env haveLedger wantLedger with
    | none => some none
    | some added =>
      let objects1 := objects ++ added
      if objects1.length ≥ 512 then some (some objects1)
      else
        match getLedgerByHash s wantLedger.info.parentHash with
        | none => some (some objects1)
        | some next =>
          if env.elapsedSeconds (turn + 1) ≤ wrap32 (uUptime + 1) then
            makeFetchPack.loop env s uUptime fuel (turn + 1) wantLedger next objects1
          else some (some objects1)

/-- The method `LedgerMaster::makeFetchPack` for a request naming
`haveLedgerHash`, received at uptime `uUptime`. `peer->charge` and `peer->send`
are recorded as events. `none` when the loop runs out of fuel or the closed
ledger read by `getEarliestFetch` is absent. -/
def makeFetchPack (fuel : Nat) (env : Env) (s : LedgerMaster) (haveLedgerHash : Hash)
    (uUptime : Nat) : Option LedgerMaster :=
  if env.elapsedSeconds 0 > wrap32 (uUptime + 1) then some s
  else if env.isLoadedLocal || decide (getValidatedLedgerAge env s > 40) then some s
  else if !env.peerAlive then some s
  else
    match getLedgerByHash s haveLedgerHash with
    | none => some (s.emit [.charge .feeRequestNoReply])
    | some haveLedger =>
      if env.isOpen haveLedger then some (s.emit [.charge .feeInvalidRequest])
      else
        match getEarliestFetch env s with
        | none => none
        | some e =>
          if haveLedger.info.seq < e then some (s.emit [.charge .feeInvalidRequest])
          else
            match getLedgerByHash s haveLedger.info.parentHash with
            | none => some (s.emit [.charge .feeRequestNoReply])
            | some wantLedger =>
              match makeFetchPack.loop env s uUptime fuel 0 haveLedger wantLedger [] with
              | none => none
              | some none => some s
              | some (some objects) => some (s.emit [.sendReply objects])

/-- The replies sent so far, oldest first. -/
def repliesSent (es : List Event) : List (List FPObject) :=
  es.filterMap (fun e => match e with
    | .sendReply objects => some objects
    | _ => none)

/-- The charges made so far, oldest first. -/
def chargesMade (es : List Event) : List Fee :=
  es.filterMap (fun e => match e with
    | .charge fee => some fee
    | _ => none)

/-- The four refusals of a fetch-pack request as the specification lists them:
the have ledger is unknown, is open, lies below `getEarliestFetch()`, or has an
unknown parent. The value is whether any of them holds, given the earliest
fetchable sequence. -/
def fetchPackRefused (env : Env) (s : LedgerMaster) (haveLedgerHash : Hash)
    (earliest : Nat) : Bool :=
  match getLedgerByHash s haveLedgerHash with
  | none => true
  | some haveLedger =>
    env.isOpen haveLedger
      || decide (haveLedger.info.seq < earliest)
      || (getLedgerByHash s haveLedger.info.parentHash).isNone

/-- A node holding two consecutive closed ledgers (sequences 9 and 10), the
later one also its closed ledger, validated at sign time 100. -/
def serveState : LedgerMaster :=
  { LedgerMaster.init with
      mLedgerHistory := ⟨[mkLedger 10 110 109 0, mkLedger 9 109 108 0]⟩
      mClosedLedger := some (mkLedger 10 110 109 0)
      mValidLedgerSign := 100 }

/-- An idle responder whose close-time clock reads 100. -/
def serveEnv : Env :=
  { baseEnv with closeTime := 100 }

/-- The idle responder of `serveEnv` whose state-tree walk hands back 600
nodes for every pair of ledgers. -/
def bigStateEnv : Env :=
  { serveEnv with stateFetchPack := fun _ _ _ => some (List.replicate 600 (0, [])) }

/-- The result of a method that may throw: a value with the state it leaves,
or the state at the point where the exception was thrown. -/
inductive Outcome (α : Type) where
  | ok (value : α) (state : LedgerMaster)
  | threw (state : LedgerMaster)

/-- The state an outcome leaves. -/
def Outcome.state {α : Type} : Outcome α → LedgerMaster
  | .ok _ s => s
  | .threw s => s

/-- The attempt of `walkHashBySeq` to acquire the better reference ledger and
read the hash from it. -/
def walkHashBySeq.acquire (env : Env) (s : LedgerMaster) (index : Nat)
    (refHash : Hash) (refIndex : Nat) : Outcome (Option Hash) :=
  let s1 := s.emit [.acquire refHash refIndex .fcGENERIC]
  match env.acquire refHash refIndex with
  | some ledger =>
    match env.hashOfSeq ledger index with
    | none => .threw s1
    | some ledgerHash => .ok ledgerHash s1
  | none => .ok none s1

/-- The method `LedgerMaster::walkHashBySeq(index, referenceLedger)`. A throw
of `hashOfSeq` on the cached better reference ledger is caught there and leads
to the acquisition attempt; every other throw leaves the method. -/
def walkHashBySeq (env : Env) (s : LedgerMaster) (index : Nat)
    (referenceLedger : Option Ledger) : Outcome (Option Hash) :=
  match referenceLedger with
  | none => .ok none s
  | some ref =>
    if ref.info.seq < index then .ok none s
    else
      match env.hashOfSeq ref index with
      | none => .threw s
      | some (some ledgerHash) => .ok (some ledgerHash) s
      | some none =>
        let refIndex := env.getCandidateLedger index
        match env.hashOfSeq ref refIndex with
        | none => .threw s
        | some none => .ok none s
        | some (some refHash) =>
          match s.mLedgerHistory.getLedgerByHash refHash with
          | some ledger =>
            match env.hashOfSeq ledger index with
            | some ledgerHash => .ok ledgerHash s
            | none => walkHashBySeq.acquire env s index refHash refIndex
          | none => walkHashBySeq.acquire env s index refHash refIndex

/-- The method `LedgerMaster::getLedgerHashForHistory`. -/
def getLedgerHashForHistory (env : Env) (s : LedgerMaster) (index : Nat) :
    Outcome (Option Hash) :=
  let viaValid (t : LedgerMaster) := walkHashBySeq env t index t.mValidLedger
  match s.mHistLedger with
  | some hist =>
    if hist.info.seq ≥ index then
      match env.hashOfSeq hist index with
      | none => .threw s
      | some (some ret) => .ok (some ret) s
      | some none =>
        match walkHashBySeq env s index (some hist) with
        | .threw t => .threw t
        | .ok (some ret) t => .ok (some ret) t
        | .ok none t => viaValid t
    else viaValid s
  | none => viaValid s

/-- The peer selection loop of `getFetchPack(missingHash, missingIndex)`, with
the target and the best score so far. -/
def selectPeer (missingIndex : Nat) : List Peer → Option Peer → Int → Option Peer
  | [], target, _ => target
  | peer :: rest, target, maxScore =>
    if peer.hasRange missingIndex (wrap32 (missingIndex + 1)) then
      if target.isNone || decide (peer.score > maxScore) then
        selectPeer missingIndex rest (some peer) peer.score
      else selectPeer missingIndex rest target maxScore
    else selectPeer missingIndex rest target maxScore

set_option linter.unusedVariables false in
/-- The overload `LedgerMaster::getFetchPack(LedgerHash missingHash,
LedgerIndex missingIndex)`, which asks a peer for a fetch pack. -/
def getFetchPackRequest (env : Env) (s : LedgerMaster) (missingHash : Hash)
    (missingIndex : Nat) : Outcome Unit :=
  match getLedgerHashForHistory env s (wrap32 (missingIndex + 1)) with
  | .threw t => .threw t
  | .ok none t => .ok () t
  | .ok (some haveHash) t =>
    match selectPeer missingIndex env.activePeers none 0 with
    | some target => .ok () (t.emit [.sendFetchPackRequest target.id haveHash])
    | none => .ok () t

/-- The fetch-pack requests sent so far: peer and ledger hash named, oldest
first. -/
def requestsSent (es : List Event) : List (Nat × Hash) :=
  es.filterMap (fun e => match e with
    | .sendFetchPackRequest peer ledgerhash => some (peer, ledgerhash)
    | _ => none)

/-- Ledgers of sequence `v` have hash `1000 + v` along the chain that every
ledger records, and one peer holds every range. -/
def requestEnv : Env :=
  { baseEnv with
      hashOfSeq := fun _ v => some (some (1000 + v))
      activePeers := [⟨1, fun _ _ => true, 5⟩] }

/-- A node whose valid ledger is the ledger of sequence 20. -/
def requestState : LedgerMaster :=
  { LedgerMaster.init with
      mValidLedger := some (mkLedger 20 1020 1019 0)
      mValidLedgerSeq := 20 }

/-- The method `RangeSet::prevMissing` (the class is not among the sources):
the largest sequence below `v` that is not in the set; `none` stands for
`RangeSet::absent`, returned when every sequence below `v` is in the set. -/
def RangeSet.prevMissing (r : RangeSet) : Nat → Option Nat
  | 0 => none
  | v + 1 => if r.hasValue v then r.prevMissing v else some v

/-- The method `LedgerMaster::shouldAcquire`. -/
def shouldAcquire (currentLedger ledgerHistory ledgerHistoryIndex candidateLedger : Nat) :
    Bool :=
  decide (candidateLedger ≥ currentLedger)
    || (decide (ledgerHistoryIndex > 0) && decide (candidateLedger > ledgerHistoryIndex))
    || decide (wrap32 (currentLedger + 4294967296 - candidateLedger) ≤ ledgerHistory)

/-- The method `LedgerMaster::shouldFetchPack`. -/
def shouldFetchPack (s : LedgerMaster) (seq : Nat) : Bool :=
  decide (s.fetch_seq_ ≠ seq)

/-- The method `LedgerMaster::newPFWork`: the value returned and the state. -/
def newPFWork (env : Env) (s : LedgerMaster) : Bool × LedgerMaster :=
  let s1 :=
    if s.mPathFindThread < 2 then
      if env.addJobUpdatePF then
        { s with mPathFindThread := s.mPathFindThread + 1 }.emit [.addJobUpdatePaths]
      else s
    else s
  (decide (s1.mPathFindThread > 0) && !env.isStopping, s1)

/-- The prefetch loop of `LedgerMaster::doAdvance`, run when the missing ledger
was not obtained: `n` turns are left and the loop variable is `i`. A throw is
caught around the loop and ends it. -/
def doAdvance.prefetch (env : Env) (missing : Nat) : Nat → Nat → LedgerMaster → LedgerMaster
  | 0, _, s => s
  | n + 1, i, s =>
    let seq := wrap32 (missing + 4294967296 - i % 4294967296)
    if seq = 0 then doAdvance.prefetch env missing n (i + 1) s
    else
      match getLedgerHashForHistory env s seq with
      | .threw t => t
      | .ok none t => doAdvance.prefetch env missing n (i + 1) t
      | .ok (some hash2) t =>
        doAdvance.prefetch env missing n (i + 1) (t.emit [.acquire hash2 seq .fcHISTORY])

/-- The part of `LedgerMaster::doAdvance` that looks for the ledger of the
history hash: the ledger cache, then the acquisition service unless it reports
a failure for the hash, then a fetch-pack request. -/
def doAdvance.resolve (env : Env) (s : LedgerMaster) (hash : Hash) (missing : Nat) :
    Outcome (Option Ledger) :=
  match getLedgerByHash s hash with
  | some ledger => .ok (some ledger) s
  | none =>
    if !env.isFailure hash then
      let s1 := s.emit [.acquire hash missing .fcHISTORY]
      match env.acquire hash missing with
      | some ledger => .ok (some ledger) s1
      | none =>
        if decide (missing > 32600) && shouldFetchPack s1 missing then
          match getFetchPackRequest env { s1 with fetch_seq_ := missing } hash missing with
          | .ok _ s2 => .ok none s2
          | .threw s2 => .threw s2
        else .ok none s1
    else .ok none s

/-- The block of `LedgerMaster::doAdvance` that acquires history for the
sequence `missing`; the value is `progress`. -/
def doAdvance.history (env : Env) (s : LedgerMaster) (missing : Nat) : Outcome Bool :=
  match getLedgerHashForHistory env s missing with
  | .threw t => .threw t
  | .ok none t => .ok true (clearLedger t (wrap32 (missing + 1)))
  | .ok (some hash) t =>
    match doAdvance.resolve env t hash missing with
    | .threw t1 => .threw t1
    | .ok (some ledger) t1 =>
      let seq := ledger.info.seq
      let t2 := setFullLedger env t1 ledger false false
      let ledger1 := ledger.setValidated.setFull
      let t3 := { t2 with mHistLedger := some ledger1 }
      if t3.mFillInProgress = 0
          ∧ env.getHashByIndex (wrap32 (seq + 4294967295)) = ledger.info.parentHash then
        .ok true ({ t3 with mFillInProgress := seq }.emit [.addJobTryFill ledger1])
      else .ok true t3
    | .ok none t1 =>
      .ok false (doAdvance.prefetch env missing env.ledger_fetch_size.toNat 0 t1)

/-- One turn of the `do ... while` of `LedgerMaster::doAdvance`; the value is
`progress`. `none` when `findNewLedgersToPublish` runs out of fuel or the
published pointer read at `mPubLedger->info().seq` is empty. -/
def doAdvance.turn (fuel : Nat) (env : Env) (s : LedgerMaster) : Option (Outcome Bool) :=
  match findNewLedgersToPublish fuel env { s with mAdvanceWork := false } with
  | none => none
  | some (pubLedgers, s1) =>
    if pubLedgers.isEmpty then
      if !env.standalone && !env.isLoadedLocal && decide (env.jobCountPubOld < 10)
          && decide (s1.mValidLedgerSeq = s1.mPubLedgerSeq)
          && decide (getValidatedLedgerAge env s1 < 60) then
        match s1.mPubLedger with
        | none => none
        | some pub =>
          match s1.mCompleteLedgers.prevMissing pub.info.seq with
          | none => some (.ok false s1)
          | some missing =>
            if decide (missing > 0)
                && shouldAcquire s1.mValidLedgerSeq env.ledger_history_ env.getCanDelete missing
                && (decide (s1.mFillInProgress = 0)
                    || decide (missing > s1.mFillInProgress)) then
              match doAdvance.history env s1 missing with
              | .threw t => some (.threw t)
              | .ok progress t =>
                some (.ok (progress || decide (t.mValidLedgerSeq ≠ t.mPubLedgerSeq)) t)
            else some (.ok false s1)
      else some (.ok false { s1 with mHistLedger := none })
    else
      let s2 := publishLedgers env s1 pubLedgers
      let s3 := s2.emit [.tryTableSync, .clearNeedNetworkLedger]
      let r := newPFWork env s3
      some (.ok r.1 r.2)

/-- The method `LedgerMaster::doAdvance`. Each turn of its loop sees the
collaborator answers of the next element of `envs`; `none` when the list is
used up while work is pending, or a turn gives `none`. -/
def doAdvance (fuel : Nat) : List Env → LedgerMaster → Option (Outcome Unit)
  | [], _ => none
  | env :: rest, s =>
    match doAdvance.turn fuel env s with
    | none => none
    | some (.threw t) => some (.threw t)
    | some (.ok progress t) =>
      let t1 := if progress then { t with mAdvanceWork := true } else t
      if t1.mAdvanceWork then doAdvance fuel rest t1 else some (.ok () t1)

/-- The method `LedgerMaster::advanceThread`: an Advance pass, whose exception
is caught, and the reset of `mAdvanceThread`. -/
def advanceThread (fuel : Nat) (envs : List Env) (s : LedgerMaster) : Option LedgerMaster :=
  match doAdvance fuel envs s with
  | none => none
  | some r => some { r.state with mAdvanceThread := false }

/-- The acquisition requests made so far: hash, sequence and reason, oldest
first. -/
def acquiresMade (es : List Event) : List (Hash × Nat × AcquireReason) :=
  es.filterMap (fun e => match e with
    | .acquire hash seq reason => some (hash, seq, reason)
    | _ => none)

/-- The value of an outcome, when it is not a throw. -/
def Outcome.value? {α : Type} : Outcome α → Option α
  | .ok a _ => some a
  | .threw _ => none

/-- A node in sync: ledger 100 is its valid and its published ledger, signed
at time 100, and the tracker holds sequence 100 only. -/
def failState : LedgerMaster :=
  { LedgerMaster.init with
      mValidLedger := some (mkLedger 100 1100 1099 0)
      mValidLedgerSeq := 100
      mValidLedgerSign := 100
      mPubLedger := some (mkLedger 100 1100 1099 0)
      mPubLedgerSeq := 100
      mCompleteLedgers := (RangeSet.setValue ⟨fun _ => false⟩ 100) }

/-- Collaborator answers under which the ledger of sequence 99 has hash 1099
along the chain and the acquisition service reports a failure for that hash;
the node prefetches one ledger. -/
def failEnv : Env :=
  { baseEnv with
      closeTime := 100
      ledger_fetch_size := 1
      hashOfSeq := fun _ v => some (some (1000 + v))
      isFailure := fun h => decide (h = 1099) }

/-- The number of calls `addJob(jtADVANCE, "advanceLedger", ...)` in an effect
log. -/
def advanceJobs (es : List Event) : Nat :=
  es.countP (fun e => match e with
    | .addJobAdvance => true
    | _ => false)

/-- What the scheduling of Advance passes reads of a state: the flag
`mAdvanceThread` and the number of advance jobs handed to the job queue. -/
def sched (s : LedgerMaster) : Bool × Nat :=
  (s.mAdvanceThread, advanceJobs s.events)

/-- An operation either leaves the flag and the advance jobs as they were, or
finds the flag clear, sets it and hands one advance job to the job queue. -/
def SchedOk (s t : LedgerMaster) : Prop :=
  sched t = sched s ∨
    (s.mAdvanceThread = false ∧ t.mAdvanceThread = true ∧
      advanceJobs t.events = advanceJobs s.events + 1)

/-- The state one turn of the loop of `doAdvance` leaves for the loop test:
the state at a throw, else the state of the turn with `mAdvanceWork` set when
the turn made progress. -/
def doAdvance.turnState (fuel : Nat) (env : Env) (s : LedgerMaster) : Option LedgerMaster :=
  match doAdvance.turn fuel env s with
  | none => none
  | some (.threw t) => some t
  | some (.ok progress t) => some (if progress then { t with mAdvanceWork := true } else t)

/-- A step of the node as the job queue sees it: a call of one of the
operations that may reach `tryAdvance`, with the collaborator answers it sees,
one turn of a running Advance pass, the end of a running pass (the reset of
`mAdvanceThread` in `advanceThread`), or a whole run of `advanceThread`. -/
inductive SchedStep where
  | tryAdvance (env : Env)
  | checkAccept (env : Env) (ledger : Ledger)
  | checkAcceptHash (env : Env) (hash : Hash) (seq : Nat)
  | setFullLedger (env : Env) (ledger : Ledger) (isSynchronous isCurrent : Bool)
  | consensusBuilt (env : Env) (ledger : Ledger)
  | tryFill (env : Env) (job : Job) (ledger : Ledger)
  | passTurn (fuel : Nat) (env : Env)
  | passEnd
  | advanceThread (fuel : Nat) (envs : List Env)

/-- Whether the job queue accepts the advance jobs handed to it during the
step; a pass hands it none. -/
def SchedStep.queueAccepts : SchedStep → Bool
  | .tryAdvance env => env.addJobAdvanceLedger
  | .checkAccept env _ => env.addJobAdvanceLedger
  | .checkAcceptHash env _ _ => env.addJobAdvanceLedger
  | .setFullLedger env _ _ _ => env.addJobAdvanceLedger
  | .consensusBuilt env _ => env.addJobAdvanceLedger
  | .tryFill env _ _ => env.addJobAdvanceLedger
  | .passTurn _ _ => true
  | .passEnd => true
  | .advanceThread _ _ => true

/-- The advance jobs a step from `s` to `t` adds to the job queue: one for each
`addJob` call of the step when the queue accepts, none when it refuses. -/
def jobsAdded (accepts : Bool) (s t : LedgerMaster) : Nat :=
  if accepts then advanceJobs t.events - advanceJobs s.events else 0

/-- One step on a state paired with the number of advance jobs that are
scheduled or running. An `addJob` call of the step adds a job when the job
queue accepts it; a pass turns, ends or runs only when a job is there, and its
end takes the job away. `none` when the step cannot be taken. -/
def SchedStep.run (c : LedgerMaster × Nat) : SchedStep → Option (LedgerMaster × Nat)
  | .tryAdvance env =>
    let t := ripple.tryAdvance c.1
    some (t, c.2 + jobsAdded env.addJobAdvanceLedger c.1 t)
  | .checkAccept env ledger =>
    let t := ripple.checkAccept env c.1 ledger
    some (t, c.2 + jobsAdded env.addJobAdvanceLedger c.1 t)
  | .checkAcceptHash env hash seq =>
    let t := ripple.checkAcceptHash env c.1 hash seq
    some (t, c.2 + jobsAdded env.addJobAdvanceLedger c.1 t)
  | .setFullLedger env ledger isSynchronous isCurrent =>
    let t := ripple.setFullLedger env c.1 ledger isSynchronous isCurrent
    some (t, c.2 + jobsAdded env.addJobAdvanceLedger c.1 t)
  | .consensusBuilt env ledger =>
    let t := ripple.consensusBuilt env c.1 ledger
    some (t, c.2 + jobsAdded env.addJobAdvanceLedger c.1 t)
  | .tryFill env job ledger =>
    let t := ripple.tryFill env job c.1 ledger
    some (t, c.2 + jobsAdded env.addJobAdvanceLedger c.1 t)
  | .passTurn fuel env =>
    if c.2 = 0 then none
    else
      match doAdvance.turnState fuel env c.1 with
      | none => none
      | some t => some (t, c.2 + jobsAdded true c.1 t)
  | .passEnd =>
    if c.2 = 0 then none
    else some ({ c.1 with mAdvanceThread := false }, c.2 - 1)
  | .advanceThread fuel envs =>
    if c.2 = 0 then none
    else
      match ripple.advanceThread fuel envs c.1 with
      | none => none
      | some t => some (t, c.2 - 1 + jobsAdded true c.1 t)

/-- Run the steps in order from a state and a job count. -/
def schedRun : LedgerMaster × Nat → List SchedStep → Option (LedgerMaster × Nat)
  | c, [] => some c
  | c, step :: rest =>
    match step.run c with
    | none => none
    | some c1 => schedRun c1 rest

/-- A run for closed examples: ledger 5 is accepted, which schedules a pass;
a second request finds the pass scheduled; the pass runs and ends; a third
request schedules the next pass. -/
def schedExample : List SchedStep :=
  [.checkAccept acceptEnv (mkLedger 5 1 0 0), .tryAdvance baseEnv,
   .advanceThread 10 [baseEnv], .tryAdvance baseEnv]

/-- Collaborator answers under which every hash meets the quorum and the job
queue refuses the advance job handed to it. -/
def refusingEnv : Env :=
  { acceptEnv with addJobAdvanceLedger := false }

/-- A cursor over serialized data, `SerialIter` (the class is not among the
sources): the bytes not yet consumed. -/
structure SerialIter where
  remaining : Blob

/-- The method `SerialIter::get32`: the value of the next four bytes, and the
cursor past them. -/
def SerialIter.get32 (env : Env) (it : SerialIter) : Nat × SerialIter :=
  (env.decode32 (it.remaining.take 4), ⟨it.remaining.drop 4⟩)

/-- The method `SerialIter::skip`. -/
def SerialIter.skip (it : SerialIter) (n : Nat) : SerialIter :=
  ⟨it.remaining.drop n⟩

/-- The method `LedgerMaster::getCloseTimeByHash`; the close time is returned
as its count of seconds. -/
def getCloseTimeByHash (env : Env) (ledgerHash : Hash) : Option Nat :=
  match env.nodeStoreFetch ledgerHash with
  | some data =>
    if data.length ≥ 120 then
      let it : SerialIter := ⟨data⟩
      let first := it.get32 env
      if first.1 = env.ledgerMasterPrefix then
        let it1 := first.2.skip (4 + 8 + 32 + 32 + 32 + 4)
        some (it1.get32 env).1
      else none
    else none
  | none => none

/-- A node store for closed examples that holds, under hash 7, a header of 120
bytes: the prefix bytes 76, 87, 82, 0, then zeros, and the bytes 0, 0, 1, 44 at
offset 116; under hash 8 the same data with another first byte; and under hash
9 the first 119 bytes only. -/
def headerEnv : Env :=
  { baseEnv with
      nodeStoreFetch := fun h =>
        if h = 7 then some ([76, 87, 82, 0] ++ List.replicate 112 0 ++ [0, 0, 1, 44])
        else if h = 8 then some ([77, 87, 82, 0] ++ List.replicate 112 0 ++ [0, 0, 1, 44])
        else if h = 9 then some ([76, 87, 82, 0] ++ List.replicate 112 0 ++ [0, 0, 1])
        else none }

/-- Whether the hash index verifies sequence `w` of the chain below `ledger`:
it has a row for `w` whose ledger hash is the parent hash recorded for `w + 1`. -/
def linked (env : Env) (ledger : Ledger) (w : Nat) : Bool :=
  match env.hashIndex w, parentHashRecorded env ledger (w + 1) with
  | some row, some p => decide (row.1 = p)
  | _, _ => false

/-- The range tracker a way out of the loop of `tryFill` leads to: the final
`setRange(minHas, maxHas)` is applied unless the method returned on shutdown. -/
def FillExit.tracker : FillExit → RangeSet
  | .finished minHas maxHas complete => complete.setRange minHas maxHas
  | .shutdown complete => complete

/-- A hash index for closed examples: the row of sequence `v` holds the hash
`v + 5000` and the parent hash `v + 4999`, except that the row of 997 holds a
hash that is not the parent hash of 998. -/
def brokenFillEnv : Env :=
  { baseEnv with
      hashIndex := fun v => if v = 997 then some (1, 5996) else some (v + 5000, v + 4999) }

/-- The values of `error_code_i` that `isAuthorityValid` returns. -/
inductive error_code_i where
  | rpcSUCCESS
  | rpcINVALID_PARAMS
  | rpcTAB_NOT_EXIST
  | rpcTAB_UNAUTHORIZED
deriving DecidableEq, Repr

/-- The method `LedgerMaster::getValidatedLedger` (defined in the header): the
ledger the valid pointer holds. -/
def getValidatedLedger (s : LedgerMaster) : Option Ledger :=
  s.mValidLedger

/-- The inner loop of `isAuthorityValid` over the table entries, for one name:
the locals `bValid` and `bTableFound` when the loop is left. -/
def isAuthorityValid.findTable (accountID roles : Nat) (sCheckName : String) :
    List TableEntry → Bool × Bool
  | [] => (false, false)
  | table :: rest =>
    if sCheckName = table.tableName then (table.hasAuthority accountID roles, true)
    else isAuthorityValid.findTable accountID roles sCheckName rest

/-- The body of the loop of `isAuthorityValid` over the names, for one name:
`some` is a `return` with its value, `none` would be the next turn. -/
def isAuthorityValid.body (accountID roles : Nat) (aTableEntries : List TableEntry)
    (sCheckName : String) : Option (Bool × error_code_i) :=
  let found := isAuthorityValid.findTable accountID roles sCheckName aTableEntries
  if !found.1 then
    if !found.2 then some (false, .rpcTAB_NOT_EXIST)
    else some (false, .rpcTAB_UNAUTHORIZED)
  else some (true, .rpcSUCCESS)

/-- The loop of `isAuthorityValid` over the names; after the last name the
method falls to its final `return`. -/
def isAuthorityValid.names (accountID roles : Nat) (aTableEntries : List TableEntry) :
    List String → Bool × error_code_i
  | [] => (true, .rpcSUCCESS)
  | sCheckName :: rest =>
    match isAuthorityValid.body accountID roles aTableEntries sCheckName with
    | some ret => ret
    | none => isAuthorityValid.names accountID roles aTableEntries rest

/-- The method `LedgerMaster::isAuthorityValid`; account ids are numbers, zero
for the zero id. -/
def isAuthorityValid (env : Env) (s : LedgerMaster) (accountID ownerID : Nat)
    (aTableName : List String) (roles : Nat) : Bool × error_code_i :=
  if accountID = 0 ∨ ownerID = 0 ∨ aTableName.length ≤ 0 then (false, .rpcINVALID_PARAMS)
  else
    match getValidatedLedger s with
    | some ledger =>
      match env.readTables ledger ownerID with
      | some aTableEntries => isAuthorityValid.names accountID roles aTableEntries aTableName
      | none => (true, .rpcSUCCESS)
    | none => (true, .rpcSUCCESS)

/-- A validated ledger for closed examples in which owner 2 has the tables
`open` and `locked`; account 1 has authority on `open` only. -/
def tablesEnv : Env :=
  { baseEnv with
      readTables := fun _ owner =>
        if owner = 2 then
          some [⟨"open", fun account _ => decide (account = 1)⟩,
                ⟨"locked", fun _ _ => false⟩]
        else none }

/-- The fallback sequence `getLedgerHash` computes when the hash is not in the
known good ledger: `(desiredSeq + 255) % 256` in 32-bit unsigned arithmetic. -/
def getLedgerHash.seq (desiredSeq : Nat) : Nat :=
  wrap32 (desiredSeq + 255) % 256

/-- The method `LedgerMaster::getLedgerHash`; `none` is a thrown exception of
`hashOfSeq`. -/
def getLedgerHash (env : Env) (s : LedgerMaster) (desiredSeq : Nat)
    (knownGoodLedger : Ledger) : Option (Option Hash) :=
  match env.hashOfSeq knownGoodLedger desiredSeq with
  | none => none
  | some (some hash) => some (some hash)
  | some none =>
    let seq := getLedgerHash.seq desiredSeq
    match env.hashOfSeq knownGoodLedger seq with
    | none => none
    | some none => some none
    | some (some hash) =>
      match getLedgerByHash s hash with
      | some l => env.hashOfSeq l desiredSeq
      | none => some (some hash)

/-- The method `LedgerMaster::getFullValidatedRange`: `none` when it returns
false, else the values left in `minVal` and `maxVal`. -/
def getFullValidatedRange (s : LedgerMaster) : Option (Nat × Nat) :=
  let maxVal := s.mPubLedgerSeq
  if maxVal = 0 then none
  else
    match s.mCompleteLedgers.prevMissing maxVal with
    | none => some (maxVal, maxVal)
    | some minVal => some (wrap32 (minVal + 1), maxVal)

/-- The call `pendingSaves.count(seq)` on the snapshot. -/
def pendingCount (pendingSaves : List (Nat × Bool)) (seq : Nat) : Nat :=
  (pendingSaves.filter (fun v => v.1 == seq)).length

/-- The loop `while (pendingSaves.count(maxVal) > 0) --maxVal;` of
`getValidatedRange`; `none` when the fuel runs out. -/
def getValidatedRange.shrinkMax (pendingSaves : List (Nat × Bool)) : Nat → Nat → Option Nat
  | 0, _ => none
  | fuel + 1, maxVal =>
    if pendingCount pendingSaves maxVal > 0 then
      getValidatedRange.shrinkMax pendingSaves fuel (wrap32 (maxVal + 4294967295))
    else some maxVal

/-- The loop `while (pendingSaves.count(minVal) > 0) ++minVal;` of
`getValidatedRange`; `none` when the fuel runs out. -/
def getValidatedRange.growMin (pendingSaves : List (Nat × Bool)) : Nat → Nat → Option Nat
  | 0, _ => none
  | fuel + 1, minVal =>
    if pendingCount pendingSaves minVal > 0 then
      getValidatedRange.growMin pendingSaves fuel (wrap32 (minVal + 1))
    else some minVal

/-- The loop `for (auto v : pendingSaves)` of `getValidatedRange` over the
entries left, with the values of `minVal` and `maxVal`. -/
def getValidatedRange.exclude : List (Nat × Bool) → Nat × Nat → Nat × Nat
  | [], r => r
  | v :: rest, (minVal, maxVal) =>
    if v.1 ≥ minVal ∧ v.1 ≤ maxVal then
      if v.1 > wrap32 (minVal + maxVal) / 2 then
        getValidatedRange.exclude rest (minVal, wrap32 (v.1 + 4294967295))
      else getValidatedRange.exclude rest (wrap32 (v.1 + 1), maxVal)
    else getValidatedRange.exclude rest (minVal, maxVal)

/-- The method `LedgerMaster::getValidatedRange`. The outer `none` is fuel
running out in one of the two `while` loops; the inner `none` is the result
false; else the values left in `minVal` and `maxVal`. -/
def getValidatedRange (fuel : Nat) (env : Env) (s : LedgerMaster) :
    Option (Option (Nat × Nat)) :=
  match getFullValidatedRange s with
  | none => some none
  | some (minVal, maxVal) =>
    let pendingSaves := env.pendingSaves
    if !pendingSaves.isEmpty && (decide (minVal ≠ 0) || decide (maxVal ≠ 0)) then
      match getValidatedRange.shrinkMax pendingSaves fuel maxVal with
      | none => none
      | some maxVal1 =>
        match getValidatedRange.growMin pendingSaves fuel minVal with
        | none => none
        | some minVal1 =>
          let r := getValidatedRange.exclude pendingSaves (minVal1, maxVal1)
          if r.1 > r.2 then some (some (0, 0)) else some (some r)
    else some (some (minVal, maxVal))

/-- A node whose published ledger has the last 32-bit sequence and whose
tracker holds that sequence only. -/
def topState : LedgerMaster :=
  { LedgerMaster.init with
      mPubLedgerSeq := 4294967295
      mCompleteLedgers := ⟨fun v => v == 4294967295⟩ }

/-- The save of ledger 4294967295 is pending. -/
def topPendingEnv : Env :=
  { baseEnv with pendingSaves := [(4294967295, true)] }

/-- A node that has published ledger 10 and holds the sequences 3 to 10. -/
def rangeState : LedgerMaster :=
  { LedgerMaster.init with
      mPubLedgerSeq := 10
      mCompleteLedgers := ⟨fun v => decide (3 ≤ v) && decide (v ≤ 10)⟩ }

/-- The saves of the ledgers 3, 5 and 10 are pending. -/
def rangePendingEnv : Env :=
  { baseEnv with pendingSaves := [(3, true), (5, false), (10, true)] }

/-- How the call `app_.getPathRequests().updateAll(...)` of one turn ends: it
returns, it throws `SHAMapMissingNode`, or it throws another exception. -/
inductive UpdateAllResult where
  | done
  | missingNode
  | threw
deriving DecidableEq, Repr

/-- What one turn of the loop of `updatePaths` sees: the answer of
`job.shouldCancel()` at the loop test, the close-time clock in seconds, and how
`updateAll` ends. -/
structure PathTurn where
  shouldCancel : Bool
  closeTime : Nat
  updateAll : UpdateAllResult

/-- The choice of `lastLedger` in a turn of `updatePaths`, with the state it
leaves; `none` when there is nothing to do. -/
def updatePaths.pick (env : Env) (s : LedgerMaster) : Option (Ledger × LedgerMaster) :=
  match s.mValidLedger with
  | some valid =>
    let stale : Bool :=
      match s.mPathLedger with
      | none => true
      | some pathLedger => decide (pathLedger.info.seq ≠ s.mValidLedgerSeq)
    if stale then some (valid, { s with mPathLedger := some valid })
    else if s.mPathFindNewRequest then some (env.openLedgerCurrent, s)
    else none
  | none =>
    if s.mPathFindNewRequest then some (env.openLedgerCurrent, s) else none

/-- The loop `while (! job.shouldCancel())` of `LedgerMaster::updatePaths`, one
element of the list per turn; `none` when the list is used up. -/
def updatePaths.loop (env : Env) : List PathTurn → LedgerMaster → Option (Outcome Unit)
  | [], _ => none
  | turn :: rest, s =>
    if turn.shouldCancel then some (.ok () s)
    else
      match updatePaths.pick env s with
      | none => some (.ok () { s with mPathFindThread := s.mPathFindThread - 1 })
      | some (lastLedger, s1) =>
        if !env.standalone
            && decide ((turn.closeTime : Int) - (lastLedger.info.closeTime : Int) > 60) then
          some (.ok () { s1 with mPathFindThread := s1.mPathFindThread - 1 })
        else
          let s2 := s1.emit [.updateAll lastLedger]
          match turn.updateAll with
          | .done => updatePaths.loop env rest s2
          | .threw => some (.threw s2)
          | .missingNode =>
            if env.isOpen lastLedger then
              updatePaths.loop env rest
                (s2.emit [.acquire lastLedger.info.parentHash
                  (wrap32 (lastLedger.info.seq + 4294967295)) .fcGENERIC])
            else
              updatePaths.loop env rest
                (s2.emit [.acquire lastLedger.info.hash lastLedger.info.seq .fcGENERIC])

/-- The method `LedgerMaster::updatePaths`, the job that `newPFWork` hands to
the job queue. -/
def updatePaths (env : Env) (turns : List PathTurn) (s : LedgerMaster) :
    Option (Outcome Unit) :=
  if env.isNeedNetworkLedger then
    some (.ok () { s with mPathFindThread := s.mPathFindThread - 1 })
  else updatePaths.loop env turns s

/-- The number of calls `addJob(jtUPDATE_PF, ...)` that the job queue accepted,
in an effect log. -/
def pathJobs (es : List Event) : Nat :=
  es.countP (fun e => match e with
    | .addJobUpdatePaths => true
    | _ => false)

/-- A step of the path-finding jobs: a call of `newPFWork`, or a run of one
`updatePaths` job to its end. -/
inductive PathStep where
  | newPFWork (env : Env)
  | updatePaths (env : Env) (turns : List PathTurn)

/-- One step on a state paired with the number of `updatePaths` jobs that are
scheduled or running: a job the queue accepts adds one, a job that has run to
its end, by a return or a throw, takes one away. `none` when no job is there
to run or the run does not end within its turns. -/
def PathStep.run (c : LedgerMaster × Nat) : PathStep → Option (LedgerMaster × Nat)
  | .newPFWork env =>
    let t := (ripple.newPFWork env c.1).2
    some (t, c.2 + (pathJobs t.events - pathJobs c.1.events))
  | .updatePaths env turns =>
    if c.2 = 0 then none
    else
      match ripple.updatePaths env turns c.1 with
      | none => none
      | some r => some (r.state, c.2 - 1)

/-- Run the steps in order from a state and a job count. -/
def pathRun : LedgerMaster × Nat → List PathStep → Option (LedgerMaster × Nat)
  | c, [] => some c
  | c, step :: rest =>
    match step.run c with
    | none => none
    | some c1 => pathRun c1 rest

/-- A turn of `updatePaths` at which the job is found cancelled. -/
def cancelledTurn : PathTurn := ⟨true, 0, .done⟩

/-- A node that has published ledger 1 and holds sequence 1 only. -/
def bottomState : LedgerMaster :=
  { LedgerMaster.init with
      mPubLedgerSeq := 1
      mCompleteLedgers := ⟨fun v => v == 1⟩ }

/-- A snapshot of pending saves that holds the sequences 0 and 1. -/
def bottomPendingEnv : Env :=
  { baseEnv with pendingSaves := [(0, true), (1, true)] }

/-- A state for closed examples that no run of the publishing operations
alone produces: ledger 5 of hash 105 is valid and published, ledger 6 is the
closed ledger and the node is building sequence 7. -/
def closedState : LedgerMaster :=
  { stateAt (mkLedger 5 105 104 0) (mkLedger 5 105 104 0) with
      mClosedLedger := some (mkLedger 6 106 105 0)
      mBuildingLedgerSeq := 7 }

/-! ## Theorems -/

section helpers

@[simp] theorem emit_mValidLedger (s : LedgerMaster) (es : List Event) :
    (s.emit es).mValidLedger = s.mValidLedger := rfl

@[simp] theorem emit_mValidLedgerSeq (s : LedgerMaster) (es : List Event) :
    (s.emit es).mValidLedgerSeq = s.mValidLedgerSeq := rfl

@[simp] theorem emit_mPubLedger (s : LedgerMaster) (es : List Event) :
    (s.emit es).mPubLedger = s.mPubLedger := rfl

@[simp] theorem emit_mPubLedgerSeq (s : LedgerMaster) (es : List Event) :
    (s.emit es).mPubLedgerSeq = s.mPubLedgerSeq := rfl

@[simp] theorem emit_mCompleteLedgers (s : LedgerMaster) (es : List Event) :
    (s.emit es).mCompleteLedgers = s.mCompleteLedgers := rfl

@[simp] theorem emit_mLedgerHistory (s : LedgerMaster) (es : List Event) :
    (s.emit es).mLedgerHistory = s.mLedgerHistory := rfl

@[simp] theorem emit_events (s : LedgerMaster) (es : List Event) :
    (s.emit es).events = s.events ++ es := rfl

@[simp] theorem setPubLedger_mValidLedger (s : LedgerMaster) (l : Ledger) :
    (setPubLedger s l).mValidLedger = s.mValidLedger := rfl

@[simp] theorem setPubLedger_mValidLedgerSeq (s : LedgerMaster) (l : Ledger) :
    (setPubLedger s l).mValidLedgerSeq = s.mValidLedgerSeq := rfl

@[simp] theorem setPubLedger_mPubLedger (s : LedgerMaster) (l : Ledger) :
    (setPubLedger s l).mPubLedger = some l := rfl

@[simp] theorem setPubLedger_mPubLedgerSeq (s : LedgerMaster) (l : Ledger) :
    (setPubLedger s l).mPubLedgerSeq = l.info.seq := rfl

@[simp] theorem setPubLedger_events (s : LedgerMaster) (l : Ledger) :
    (setPubLedger s l).events = s.events := rfl

@[simp] theorem setValidLedger_mValidLedger (env : Env) (s : LedgerMaster) (l : Ledger) :
    (setValidLedger env s l).mValidLedger = some l := by
  simp only [setValidLedger]
  split <;> rfl

@[simp] theorem setValidLedger_mValidLedgerSeq (env : Env) (s : LedgerMaster) (l : Ledger) :
    (setValidLedger env s l).mValidLedgerSeq = l.info.seq := by
  simp only [setValidLedger]
  split <;> rfl

@[simp] theorem setValidLedger_mPubLedger (env : Env) (s : LedgerMaster) (l : Ledger) :
    (setValidLedger env s l).mPubLedger = s.mPubLedger := by
  simp only [setValidLedger]
  split <;> rfl

@[simp] theorem setValidLedger_mPubLedgerSeq (env : Env) (s : LedgerMaster) (l : Ledger) :
    (setValidLedger env s l).mPubLedgerSeq = s.mPubLedgerSeq := by
  simp only [setValidLedger]
  split <;> rfl

@[simp] theorem setValidLedger_mValidLedgerSign (env : Env) (s : LedgerMaster) (l : Ledger) :
    (setValidLedger env s l).mValidLedgerSign =
      signTimeOf (if !env.standalone then env.getTrustedValidationTimes l.info.hash else [])
        env.quorum l.info.closeTime := by
  simp only [setValidLedger]
  split <;> rfl

@[simp] theorem tryAdvance_mValidLedger (s : LedgerMaster) :
    (tryAdvance s).mValidLedger = s.mValidLedger := by
  simp only [tryAdvance, LedgerMaster.emit]
  split <;> rfl

@[simp] theorem tryAdvance_mValidLedgerSeq (s : LedgerMaster) :
    (tryAdvance s).mValidLedgerSeq = s.mValidLedgerSeq := by
  simp only [tryAdvance, LedgerMaster.emit]
  split <;> rfl

@[simp] theorem tryAdvance_mPubLedger (s : LedgerMaster) :
    (tryAdvance s).mPubLedger = s.mPubLedger := by
  simp only [tryAdvance, LedgerMaster.emit]
  split <;> rfl

@[simp] theorem tryAdvance_mPubLedgerSeq (s : LedgerMaster) :
    (tryAdvance s).mPubLedgerSeq = s.mPubLedgerSeq := by
  simp only [tryAdvance, LedgerMaster.emit]
  split <;> rfl

@[simp] theorem tryAdvance_mCompleteLedgers (s : LedgerMaster) :
    (tryAdvance s).mCompleteLedgers = s.mCompleteLedgers := by
  simp only [tryAdvance, LedgerMaster.emit]
  split <;> rfl

/-- The condition under which the ledger form of `checkAccept` accepts. -/
theorem checkAccept_reject (env : Env) (s : LedgerMaster) (ledger : Ledger)
    (h : ¬ (s.mValidLedgerSeq < ledger.info.seq ∧
        getNeededValidations env ≤ env.numTrustedForLedger ledger.info.hash)) :
    checkAccept env s ledger = s := by
  unfold checkAccept
  by_cases h1 : ledger.info.seq ≤ s.mValidLedgerSeq
  · simp [h1]
  · by_cases h2 : env.numTrustedForLedger ledger.info.hash < getNeededValidations env
    · simp [h1, h2]
    · exact absurd ⟨by omega, by omega⟩ h

theorem checkAccept_accept (env : Env) (s : LedgerMaster) (ledger : Ledger)
    (h : s.mValidLedgerSeq < ledger.info.seq ∧
        getNeededValidations env ≤ env.numTrustedForLedger ledger.info.hash) :
    (checkAccept env s ledger).mValidLedgerSeq = ledger.info.seq ∧
    (checkAccept env s ledger).mValidLedger = some ledger.setValidated.setFull ∧
    (checkAccept env s ledger).mPubLedger =
      (if s.mPubLedger.isNone then some ledger.setValidated.setFull else s.mPubLedger) ∧
    (checkAccept env s ledger).mPubLedgerSeq =
      (if s.mPubLedger.isNone then ledger.info.seq else s.mPubLedgerSeq) := by
  have h1 : ¬ ledger.info.seq ≤ s.mValidLedgerSeq := by omega
  have h2 : ¬ env.numTrustedForLedger ledger.info.hash < getNeededValidations env := by omega
  unfold checkAccept
  simp only [h1, h2, if_false]
  cases hp : s.mPubLedger <;> simp [hp, Ledger.setValidated, Ledger.setFull]

theorem checkAccept_validSeq_le (env : Env) (s : LedgerMaster) (ledger : Ledger) :
    s.mValidLedgerSeq ≤ (checkAccept env s ledger).mValidLedgerSeq := by
  by_cases h : s.mValidLedgerSeq < ledger.info.seq ∧
        getNeededValidations env ≤ env.numTrustedForLedger ledger.info.hash
  · rw [(checkAccept_accept env s ledger h).1]; omega
  · rw [checkAccept_reject env s ledger h]

theorem resolve_validSeq_le (env : Env) (s : LedgerMaster) (hash : Hash) (seq valCount : Nat) :
    s.mValidLedgerSeq ≤ (checkAcceptHash.resolve env s hash seq valCount).mValidLedgerSeq := by
  unfold checkAcceptHash.resolve
  split
  · exact checkAccept_validSeq_le _ _ _
  · dsimp only
    split
    · refine le_trans ?_ (checkAccept_validSeq_le _ _ _)
      simp only [emit_mValidLedgerSeq]
      split
      · split <;> simp
      · exact le_refl _
    · simp only [emit_mValidLedgerSeq]
      split
      · split <;> simp
      · exact le_refl _

theorem checkAcceptHash_validSeq_le (env : Env) (s : LedgerMaster) (hash : Hash) (seq : Nat) :
    s.mValidLedgerSeq ≤ (checkAcceptHash env s hash seq).mValidLedgerSeq := by
  unfold checkAcceptHash
  split
  · split
    · exact le_refl _
    · dsimp only
      have key : ∀ s1 : LedgerMaster, s1.mValidLedgerSeq = s.mValidLedgerSeq →
          s.mValidLedgerSeq ≤ (if seq = s1.mValidLedgerSeq then s1
            else if seq = s1.mBuildingLedgerSeq then s1
            else checkAcceptHash.resolve env s1 hash seq
              (env.numTrustedForLedger hash)).mValidLedgerSeq := by
        intro s1 hs1
        split
        · omega
        · split
          · omega
          · rw [← hs1]; exact resolve_validSeq_le _ _ _ _ _
      apply key
      split
      · split <;> rfl
      · rfl
  · exact resolve_validSeq_le _ _ _ _ _

theorem acceptCall_validSeq_le (s : LedgerMaster) (c : AcceptCall) :
    s.mValidLedgerSeq ≤ (c.run s).mValidLedgerSeq := by
  cases c with
  | byHash env hash seq => exact checkAcceptHash_validSeq_le env s hash seq
  | byLedger env ledger => exact checkAccept_validSeq_le env s ledger

end helpers

/-- C1: for every starting state and every finite sequence of `checkAccept`
calls of either form, with arbitrary collaborator answers, the value of
`mValidLedgerSeq` after each call is at least its value before that call: the
trace of values, started at the initial value, is a non-decreasing chain. -/
theorem checkAccept_validSeq_nondecreasing (s : LedgerMaster) (calls : List AcceptCall) :
    List.Chain (· ≤ ·) s.mValidLedgerSeq (validSeqTrace s calls) := by
  induction calls generalizing s with
  | nil => exact List.Chain.nil
  | cons c cs ih =>
    exact List.Chain.cons (acceptCall_validSeq_le s c) (ih (c.run s))

section signTime

theorem signTimeOf_eq_of_sorted (ts sorted : List Nat) (quorum closeTime : Nat)
    (hs : sorted.Sorted (· ≤ ·)) (hp : sorted.Perm ts) :
    signTimeOf ts quorum closeTime =
      if sorted ≠ [] ∧ quorum ≤ sorted.length then
        sorted.getD ((sorted.length - 1) / 2) 0 +
          (sorted.getD (sorted.length / 2) 0 - sorted.getD ((sorted.length - 1) / 2) 0) / 2
      else closeTime := by
  have hsort : ts.insertionSort (· ≤ ·) = sorted :=
    List.eq_of_perm_of_sorted ((List.perm_insertionSort _ ts).trans hp.symm)
      (List.sorted_insertionSort _ ts) hs
  have hlen : sorted.length = ts.length := hp.length_eq
  have hnil : ts.isEmpty = true ↔ sorted = [] := by
    rw [List.isEmpty_iff]
    constructor
    · intro h; subst h; exact List.perm_nil.mp hp
    · intro h; subst h; exact List.nil_perm.mp hp
  unfold signTimeOf
  by_cases hc : sorted ≠ [] ∧ quorum ≤ sorted.length
  · have hne : ts.isEmpty = false := by
      cases hE : ts.isEmpty
      · rfl
      · exact absurd (hnil.mp hE) hc.1
    have hq : quorum ≤ ts.length := by omega
    simp only [hne, hq, hc, hsort, hlen, ge_iff_le, Bool.not_false, decide_True,
      Bool.and_self, if_true, and_self, ne_eq, not_false_eq_true]
  · have : (!ts.isEmpty && decide (ts.length ≥ quorum)) = false := by
      cases hE : ts.isEmpty
      · have hne : sorted ≠ [] := fun h => by
          have := hnil.mpr h; rw [hE] at this; exact Bool.noConfusion this
        have : ¬ quorum ≤ ts.length := fun h => hc ⟨hne, by omega⟩
        simp [this]
      · simp
    rw [if_neg (by rw [this]; exact Bool.false_ne_true), if_neg hc]

theorem sorted_getD_mid_le (sorted : List Nat) (hs : sorted.Sorted (· ≤ ·)) :
    sorted.getD ((sorted.length - 1) / 2) 0 ≤ sorted.getD (sorted.length / 2) 0 := by
  rcases Nat.eq_zero_or_pos sorted.length with h0 | hpos
  · have : sorted = [] := List.length_eq_zero.mp h0
    subst this; simp
  · have h1 : (sorted.length - 1) / 2 < sorted.length := by omega
    have h2 : sorted.length / 2 < sorted.length := by omega
    rw [List.getD_eq_getElem _ _ h1, List.getD_eq_getElem _ _ h2]
    have hle : (sorted.length - 1) / 2 ≤ sorted.length / 2 := by omega
    rcases Nat.lt_or_eq_of_le hle with hlt | heq
    · exact List.pairwise_iff_getElem.mp hs _ _ h1 h2 hlt
    · simp only [heq]; exact le_refl _

end signTime

/-- C3 (counterexample): on a standalone node whose validation tracker holds
the signing times 10 and 20 for the ledger hash, with quorum 2, the samples are
non-empty and meet quorum, yet `setValidLedger` does not take their mean 15: the
sign time is the close time 99 of the ledger. -/
theorem setValidLedger_signTime_standalone_counterexample :
    standaloneTimesEnv.getTrustedValidationTimes (mkLedger 5 7 6 99).info.hash = [10, 20] ∧
    standaloneTimesEnv.quorum ≤ [10, 20].length ∧
    (setValidLedger standaloneTimesEnv LedgerMaster.init (mkLedger 5 7 6 99)).mValidLedgerSign
      = 99 ∧
    (setValidLedger standaloneTimesEnv LedgerMaster.init (mkLedger 5 7 6 99)).mValidLedgerSign
      ≠ 15 := by
  decide

/-- C3 (amended): `setValidLedger` stores as sign time, for every ledger and
every ascending arrangement `sorted` of the trusted signing times of its hash:
when the node is not standalone, the samples are non-empty and their number `n`
meets quorum, the value `s[(n-1)/2] + (s[n/2] - s[(n-1)/2]) / 2`, which is the
mean of the two middle elements in whole units; in every other case, and always
on a standalone node, the close time of the ledger. -/
theorem setValidLedger_signTime (env : Env) (s : LedgerMaster) (l : Ledger)
    (sorted : List Nat) (hs : sorted.Sorted (· ≤ ·))
    (hp : sorted.Perm (env.getTrustedValidationTimes l.info.hash)) :
    (setValidLedger env s l).mValidLedgerSign =
      (if env.standalone = false ∧ sorted ≠ [] ∧ env.quorum ≤ sorted.length then
        sorted.getD ((sorted.length - 1) / 2) 0 +
          (sorted.getD (sorted.length / 2) 0 - sorted.getD ((sorted.length - 1) / 2) 0) / 2
      else l.info.closeTime) ∧
    sorted.getD ((sorted.length - 1) / 2) 0 +
        (sorted.getD (sorted.length / 2) 0 - sorted.getD ((sorted.length - 1) / 2) 0) / 2
      = (sorted.getD ((sorted.length - 1) / 2) 0 + sorted.getD (sorted.length / 2) 0) / 2 := by
  refine ⟨?_, ?_⟩
  · rw [setValidLedger_mValidLedgerSign]
    cases hst : env.standalone
    · simp only [Bool.not_false, if_true, true_and]
      exact signTimeOf_eq_of_sorted _ sorted _ _ hs hp
    · simp [signTimeOf]
  · have := sorted_getD_mid_le sorted hs
    omega

/-- C3 (witness): on a networked node with quorum 2, the samples 20, 10 give
the sign time 15 and the samples 30, 10, 20 give 20. -/
theorem setValidLedger_signTime_witness :
    ((setValidLedger { baseEnv with quorum := 2, getTrustedValidationTimes := fun _ => [20, 10] }
        LedgerMaster.init (mkLedger 5 7 6 99)).mValidLedgerSign = 15) ∧
    ((setValidLedger { baseEnv with quorum := 2, getTrustedValidationTimes := fun _ => [30, 10, 20] }
        LedgerMaster.init (mkLedger 5 7 6 99)).mValidLedgerSign = 20) :=
  ⟨(setValidLedger_signTime
      { baseEnv with quorum := 2, getTrustedValidationTimes := fun _ => [20, 10] }
      LedgerMaster.init (mkLedger 5 7 6 99) [10, 20] (by decide) (by decide)).1,
   (setValidLedger_signTime
      { baseEnv with quorum := 2, getTrustedValidationTimes := fun _ => [30, 10, 20] }
      LedgerMaster.init (mkLedger 5 7 6 99) [10, 20, 30] (by decide) (by decide)).1⟩

/-- C4: the ledger form of `checkAccept` changes the state if and only if the
sequence of the ledger exceeds `mValidLedgerSeq` and the trusted-validation
count of its hash reaches the needed validations (quorum, or 0 on a standalone
node). When it does, `mValidLedgerSeq` is the sequence of the ledger, the valid
pointer holds the ledger flagged validated and full, and the published pointer
is set to the ledger if no ledger was published before and is unchanged
otherwise; when it does not, the valid and published pointers are unchanged. -/
theorem checkAccept_contract (env : Env) (s : LedgerMaster) (ledger : Ledger) :
    (checkAccept env s ledger ≠ s ↔
      (s.mValidLedgerSeq < ledger.info.seq ∧
        getNeededValidations env ≤ env.numTrustedForLedger ledger.info.hash)) ∧
    getNeededValidations env = (if env.standalone then 0 else env.quorum) ∧
    ((s.mValidLedgerSeq < ledger.info.seq ∧
        getNeededValidations env ≤ env.numTrustedForLedger ledger.info.hash) →
      (checkAccept env s ledger).mValidLedgerSeq = ledger.info.seq ∧
      (checkAccept env s ledger).mValidLedger = some ledger.setValidated.setFull ∧
      ledger.setValidated.setFull.info = ledger.info ∧
      ledger.setValidated.setFull.validated = true ∧
      ledger.setValidated.setFull.full = true ∧
      (s.mPubLedger = none →
        (checkAccept env s ledger).mPubLedger = some ledger.setValidated.setFull) ∧
      (s.mPubLedger ≠ none → (checkAccept env s ledger).mPubLedger = s.mPubLedger)) ∧
    (¬ (s.mValidLedgerSeq < ledger.info.seq ∧
        getNeededValidations env ≤ env.numTrustedForLedger ledger.info.hash) →
      (checkAccept env s ledger).mValidLedger = s.mValidLedger ∧
      (checkAccept env s ledger).mPubLedger = s.mPubLedger) := by
  refine ⟨?_, rfl, ?_, ?_⟩
  · constructor
    · intro hne
      by_contra hc
      exact hne (checkAccept_reject env s ledger hc)
    · intro hc heq
      have h1 := (checkAccept_accept env s ledger hc).1
      rw [heq] at h1
      omega
  · intro hc
    obtain ⟨h1, h2, h3, _⟩ := checkAccept_accept env s ledger hc
    refine ⟨h1, h2, rfl, rfl, rfl, ?_, ?_⟩
    · intro hp
      rw [h3, hp]; rfl
    · intro hp
      rw [h3]
      cases hq : s.mPubLedger with
      | none => exact absurd hq hp
      | some l => rfl
  · intro hc
    rw [checkAccept_reject env s ledger hc]
    exact ⟨rfl, rfl⟩

section frames

theorem OnlyComplete.refl (s : LedgerMaster) : OnlyComplete s s := ⟨s.mCompleteLedgers, rfl⟩

theorem OnlyComplete.trans {s t u : LedgerMaster} (h1 : OnlyComplete s t)
    (h2 : OnlyComplete t u) : OnlyComplete s u := by
  obtain ⟨c1, rfl⟩ := h1
  obtain ⟨c2, rfl⟩ := h2
  exact ⟨c2, rfl⟩

theorem clearLedger_onlyComplete (s : LedgerMaster) (seq : Nat) :
    OnlyComplete s (clearLedger s seq) := ⟨_, rfl⟩

theorem getLedgerBySeq_state (env : Env) (s : LedgerMaster) (index : Nat) :
    (getLedgerBySeq env s index).2 = s ∨ (getLedgerBySeq env s index).2 = clearLedger s index := by
  have hc : ∀ x : Option Ledger × LedgerMaster,
      x = (match s.mLedgerHistory.getLedgerBySeq index with
        | some ret => (some ret, s)
        | none =>
          match s.mClosedLedger with
          | some ret =>
            if ret.info.seq = index then (some ret, s) else (none, clearLedger s index)
          | none => (none, clearLedger s index)) →
      x.2 = s ∨ x.2 = clearLedger s index := by
    intro x hx
    subst hx
    split
    · exact Or.inl rfl
    · split
      · split
        · exact Or.inl rfl
        · exact Or.inr rfl
      · exact Or.inr rfl
  unfold getLedgerBySeq
  dsimp only
  split
  · split
    · split
      · exact Or.inl rfl
      · split
        · exact Or.inl rfl
        · exact hc _ rfl
        · exact hc _ rfl
    · exact hc _ rfl
  · exact hc _ rfl

theorem getLedgerBySeq_onlyComplete (env : Env) (s : LedgerMaster) (index : Nat) :
    OnlyComplete s (getLedgerBySeq env s index).2 := by
  rcases getLedgerBySeq_state env s index with h | h
  · rw [h]; exact OnlyComplete.refl s
  · rw [h]; exact clearLedger_onlyComplete s index

theorem fixMismatchLoop_onlyComplete (env : Env) (ledger : Ledger) (n : Nat) :
    ∀ s : LedgerMaster, OnlyComplete s (fixMismatchLoop env ledger n s) := by
  induction n with
  | zero => intro s; exact OnlyComplete.refl s
  | succ k ih =>
    intro s
    unfold fixMismatchLoop
    split
    · split
      · exact clearLedger_onlyComplete s _
      · exact (clearLedger_onlyComplete s _).trans (ih _)
      · rename_i hash hq
        have hg := getLedgerBySeq_onlyComplete env s (k + 1)
        split
        · rename_i other s1 heq
          rw [heq] at hg
          split
          · exact hg
          · exact hg.trans ((clearLedger_onlyComplete s1 _).trans (ih _))
        · rename_i s1 heq
          rw [heq] at hg
          exact hg.trans ((clearLedger_onlyComplete s1 _).trans (ih _))
    · exact ih s

theorem fixMismatch_onlyComplete (env : Env) (s : LedgerMaster) (ledger : Ledger) :
    OnlyComplete s (fixMismatch env s ledger) :=
  fixMismatchLoop_onlyComplete env ledger _ s

theorem setFullLedger_onlyComplete (env : Env) (s : LedgerMaster) (ledger0 : Ledger)
    (isSynchronous isCurrent : Bool) :
    OnlyComplete
      (setFullLedger.pointers env
        (setFullLedger.record env s ledger0.setValidated.setFull isSynchronous isCurrent)
        ledger0.setValidated.setFull)
      (setFullLedger env s ledger0 isSynchronous isCurrent) := by
  unfold setFullLedger
  dsimp only
  generalize setFullLedger.pointers env
    (setFullLedger.record env s ledger0.setValidated.setFull isSynchronous isCurrent)
    ledger0.setValidated.setFull = s6
  split
  · have hg := getLedgerBySeq_onlyComplete env s6
      (wrap32 (ledger0.setValidated.setFull.info.seq + 4294967295))
    split
    · rename_i prevLedger s7 heq
      rw [heq] at hg
      split
      · exact hg.trans (fixMismatch_onlyComplete env s7 _)
      · exact hg
    · rename_i s7 heq
      rw [heq] at hg
      exact hg.trans (fixMismatch_onlyComplete env s7 _)
  · exact OnlyComplete.refl _

theorem record_fields (env : Env) (s : LedgerMaster) (ledger : Ledger)
    (isSynchronous isCurrent : Bool) :
    (setFullLedger.record env s ledger isSynchronous isCurrent).mValidLedger = s.mValidLedger ∧
    (setFullLedger.record env s ledger isSynchronous isCurrent).mValidLedgerSeq
      = s.mValidLedgerSeq ∧
    (setFullLedger.record env s ledger isSynchronous isCurrent).mPubLedger = s.mPubLedger ∧
    (setFullLedger.record env s ledger isSynchronous isCurrent).mPubLedgerSeq
      = s.mPubLedgerSeq := by
  unfold setFullLedger.record
  cases isCurrent <;> (dsimp only; split <;> exact ⟨rfl, rfl, rfl, rfl⟩)

end frames

section pointerInv

theorem PointerInv.of_fields {s t : LedgerMaster} (h : PointerInv s)
    (h1 : t.mValidLedger = s.mValidLedger) (h2 : t.mValidLedgerSeq = s.mValidLedgerSeq)
    (h3 : t.mPubLedgerSeq = s.mPubLedgerSeq) : PointerInv t := by
  unfold PointerInv at *
  rw [h1, h2, h3]
  exact h

theorem PointerInv.of_onlyComplete {s t : LedgerMaster} (hc : OnlyComplete s t)
    (h : PointerInv s) : PointerInv t := by
  obtain ⟨c, rfl⟩ := hc
  exact h

theorem pointerInv_init : PointerInv LedgerMaster.init := by
  refine ⟨le_refl _, ?_⟩
  intro l hl
  exact Option.noConfusion hl

theorem pointers_pointerInv (env : Env) (s : LedgerMaster) (ledger : Ledger)
    (h : PointerInv s) :
    PointerInv (setFullLedger.pointers env s ledger) ∧
    ledger.info.seq ≤ (setFullLedger.pointers env s ledger).mValidLedgerSeq := by
  obtain ⟨ha, hb⟩ := h
  unfold setFullLedger.pointers
  by_cases hv : ledger.info.seq > s.mValidLedgerSeq
  · simp only [if_pos hv, setValidLedger_mPubLedger]
    split
    · refine ⟨⟨?_, ?_⟩, ?_⟩
      · simp
      · intro l hl
        simp at hl
        simp [hl]
      · simp
    · refine ⟨⟨?_, ?_⟩, ?_⟩
      · simp; omega
      · intro l hl
        simp at hl
        simp [hl]
      · simp
  · simp only [if_neg hv]
    split
    · refine ⟨⟨?_, ?_⟩, ?_⟩
      · simp; omega
      · intro l hl
        exact hb l hl
      · simp; omega
    · exact ⟨⟨ha, hb⟩, by omega⟩

theorem setFullLedger_pointerInv (env : Env) (s : LedgerMaster) (ledger : Ledger)
    (isSynchronous isCurrent : Bool) (h : PointerInv s) :
    PointerInv (setFullLedger env s ledger isSynchronous isCurrent) ∧
    ledger.info.seq ≤ (setFullLedger env s ledger isSynchronous isCurrent).mValidLedgerSeq := by
  obtain ⟨r1, r2, _, r4⟩ :=
    record_fields env s ledger.setValidated.setFull isSynchronous isCurrent
  have hrec : PointerInv
      (setFullLedger.record env s ledger.setValidated.setFull isSynchronous isCurrent) :=
    h.of_fields r1 r2 r4
  obtain ⟨hp, hle⟩ := pointers_pointerInv env _ ledger.setValidated.setFull hrec
  obtain ⟨c, hc⟩ := setFullLedger_onlyComplete env s ledger isSynchronous isCurrent
  rw [hc]
  exact ⟨hp, hle⟩

theorem checkAccept_pointerInv (env : Env) (s : LedgerMaster) (ledger : Ledger)
    (h : PointerInv s) : PointerInv (checkAccept env s ledger) := by
  by_cases hc : s.mValidLedgerSeq < ledger.info.seq ∧
        getNeededValidations env ≤ env.numTrustedForLedger ledger.info.hash
  · obtain ⟨h1, h2, _, h4⟩ := checkAccept_accept env s ledger hc
    refine ⟨?_, ?_⟩
    · rw [h1, h4]
      split
      · exact le_refl _
      · have := h.1; omega
    · intro l hl
      rw [h2] at hl
      rw [h1, ← Option.some.inj hl]
      rfl
  · rw [checkAccept_reject env s ledger hc]
    exact h

theorem resolve_pointerInv (env : Env) (s : LedgerMaster) (hash : Hash) (seq valCount : Nat)
    (h : PointerInv s) : PointerInv (checkAcceptHash.resolve env s hash seq valCount) := by
  unfold checkAcceptHash.resolve
  have hs1 : PointerInv (if seq ≠ 0 ∧ s.mValidLedgerSeq = 0 then
        if valCount ≥ env.quorum then s.emit [.checkSanity seq] else s
      else s) := by
    split
    · split
      · exact h.of_fields rfl rfl rfl
      · exact h
    · exact h
  split
  · exact checkAccept_pointerInv _ _ _ h
  · dsimp only
    split
    · exact checkAccept_pointerInv _ _ _ (hs1.of_fields rfl rfl rfl)
    · exact hs1.of_fields rfl rfl rfl

theorem checkAcceptHash_pointerInv (env : Env) (s : LedgerMaster) (hash : Hash) (seq : Nat)
    (h : PointerInv s) : PointerInv (checkAcceptHash env s hash seq) := by
  unfold checkAcceptHash
  split
  · split
    · exact h
    · dsimp only
      have key : ∀ s1 : LedgerMaster, PointerInv s1 →
          PointerInv (if seq = s1.mValidLedgerSeq then s1
            else if seq = s1.mBuildingLedgerSeq then s1
            else checkAcceptHash.resolve env s1 hash seq (env.numTrustedForLedger hash)) := by
        intro s1 hs1
        split
        · exact hs1
        · split
          · exact hs1
          · exact resolve_pointerInv _ _ _ _ _ hs1
      apply key
      split
      · split
        · exact h.of_fields rfl rfl rfl
        · exact h
      · exact h
  · exact resolve_pointerInv _ _ _ _ _ h

theorem publishOne_pointerInv (env : Env) (s : LedgerMaster) (ledger : Ledger)
    (h : PointerInv s) : PointerInv (publishOne env s ledger) := by
  obtain ⟨⟨_, hb⟩, hle⟩ := setFullLedger_pointerInv env s ledger true true h
  unfold publishOne
  exact ⟨hle, hb⟩

theorem publishLedgers_pointerInv (env : Env) (pubLedgers : List Ledger) :
    ∀ s : LedgerMaster, PointerInv s → PointerInv (publishLedgers env s pubLedgers) := by
  induction pubLedgers with
  | nil => intro s h; exact h
  | cons l ls ih =>
    intro s h
    exact ih _ (publishOne_pointerInv env s l h)

theorem findNew_state (fuel : Nat) (env : Env) (s s1 : LedgerMaster) (ret : List Ledger)
    (h : findNewLedgersToPublish fuel env s = some (ret, s1)) :
    (∃ evs, s1 = { s with events := evs }) ∨
    (∃ valLedger, s.mValidLedger = some valLedger ∧ ret = [valLedger] ∧
      s.mPubLedger.isNone = false ∧
      s.mValidLedgerSeq > wrap32 (s.mPubLedgerSeq + MAX_LEDGER_GAP) ∧
      s1 = (setPubLedger s valLedger).emit [.orderBookSetup valLedger]) := by
  unfold findNewLedgersToPublish at h
  split at h
  · simp only [Option.some.injEq, Prod.mk.injEq] at h
    exact Or.inl ⟨s.events, h.2.symm⟩
  · rename_i valLedger hv
    split at h
    · simp only [Option.some.injEq, Prod.mk.injEq] at h
      exact Or.inl ⟨s.events, h.2.symm⟩
    · rename_i hpub
      split at h
      · rename_i hgap
        simp only [Option.some.injEq, Prod.mk.injEq] at h
        exact Or.inr ⟨valLedger, hv, h.1.symm, Bool.eq_false_iff.mpr hpub, hgap, h.2.symm⟩
      · split at h
        · simp only [Option.some.injEq, Prod.mk.injEq] at h
          exact Or.inl ⟨s.events, h.2.symm⟩
        · dsimp only at h
          split at h
          · rename_i r evs heq
            simp only [Option.some.injEq, Prod.mk.injEq] at h
            exact Or.inl ⟨evs, h.2.symm⟩
          · exact Option.noConfusion h

theorem findNew_pointerInv (fuel : Nat) (env : Env) (s s1 : LedgerMaster) (ret : List Ledger)
    (h : findNewLedgersToPublish fuel env s = some (ret, s1)) (hi : PointerInv s) :
    PointerInv s1 := by
  rcases findNew_state fuel env s s1 ret h with ⟨evs, rfl⟩ | ⟨v, hv, _, _, _, rfl⟩
  · exact hi
  · refine ⟨?_, hi.2⟩
    have := hi.2 v hv
    simp
    omega

theorem reachable_pointerInv (s : LedgerMaster) (h : Reachable s) : PointerInv s := by
  induction h with
  | init => exact pointerInv_init
  | checkAccept env s ledger _ ih => exact checkAccept_pointerInv env s ledger ih
  | checkAcceptHash env s hash seq _ ih => exact checkAcceptHash_pointerInv env s hash seq ih
  | setFullLedger env s ledger a b _ ih => exact (setFullLedger_pointerInv env s ledger a b ih).1
  | findNewLedgersToPublish fuel env s s1 ret _ hf ih =>
    exact findNew_pointerInv fuel env s s1 ret hf ih
  | publishLedgers env s ls _ ih => exact publishLedgers_pointerInv env ls s ih

end pointerInv

section findLoop

theorem wrap32_of_lt {n : Nat} (h : n < 4294967296) : wrap32 n = n :=
  Nat.mod_eq_of_lt h

/-- Below the top of the 32-bit range the loop of `findNewLedgersToPublish`
appends ledgers whose sequences count up from `pubSeq` without a gap, at most
one per remaining loop turn. -/
theorem findLoop_seqs (env : Env) (hist : LedgerHistory) (valLedger : Ledger) (valSeq : Nat)
    (hval : valSeq < 4294967295) :
    ∀ (fuel seq pubSeq : Nat) (acqCount : Int) (ret : List Ledger) (evs : List Event)
      (r : List Ledger) (e : List Event),
      pubSeq ≤ seq →
      findLoop env hist valLedger valSeq fuel seq pubSeq acqCount ret evs = some (r, e) →
      ∃ k, r.map (fun l => l.info.seq) = ret.map (fun l => l.info.seq) ++ List.range' pubSeq k ∧
        k ≤ valSeq + 1 - seq := by
  intro fuel
  induction fuel with
  | zero =>
    intro seq pubSeq acqCount ret evs r e _ h
    simp [findLoop] at h
  | succ f ih =>
    intro seq pubSeq acqCount ret evs r e hle h
    unfold findLoop at h
    by_cases hs : seq ≤ valSeq
    · rw [if_pos hs] at h
      have hw1 : wrap32 (seq + 1) = seq + 1 := wrap32_of_lt (by omega)
      have hw2 : wrap32 (pubSeq + 1) = pubSeq + 1 := wrap32_of_lt (by omega)
      split at h
      · simp only [Option.some.injEq, Prod.mk.injEq] at h
        exact ⟨0, by simp [h.1], Nat.zero_le _⟩
      · dsimp only at h
        rw [hw1] at h
        split at h
        · rename_i l hl
          split at h
          · rename_i hpq
            rw [hw2] at h
            obtain ⟨k, hk, hb⟩ := ih _ _ _ _ _ _ _ (by omega) h
            refine ⟨k + 1, ?_, by omega⟩
            rw [hk, List.map_append, List.append_assoc]
            congr 1
            simp [List.range'_succ, Ledger.setValidated, hpq]
          · obtain ⟨k, hk, hb⟩ := ih _ _ _ _ _ _ _ (by omega) h
            exact ⟨k, hk, by omega⟩
        · obtain ⟨k, hk, hb⟩ := ih _ _ _ _ _ _ _ (by omega) h
          exact ⟨k, hk, by omega⟩
    · rw [if_neg hs] at h
      simp only [Option.some.injEq, Prod.mk.injEq] at h
      exact ⟨0, by simp [h.1], Nat.zero_le _⟩

/-- Below the top of the 32-bit range the loop of `findNewLedgersToPublish`
ends: one unit of fuel per sequence left, and one for the last test. -/
theorem findLoop_isSome (env : Env) (hist : LedgerHistory) (valLedger : Ledger) (valSeq : Nat)
    (hval : valSeq < 4294967295) :
    ∀ (fuel seq pubSeq : Nat) (acqCount : Int) (ret : List Ledger) (evs : List Event),
      seq ≤ valSeq + 1 → valSeq + 2 - seq ≤ fuel →
      (findLoop env hist valLedger valSeq fuel seq pubSeq acqCount ret evs).isSome = true := by
  intro fuel
  induction fuel with
  | zero =>
    intro seq pubSeq acqCount ret evs h1 h
    omega
  | succ f ih =>
    intro seq pubSeq acqCount ret evs h1 h
    unfold findLoop
    by_cases hs : seq ≤ valSeq
    · rw [if_pos hs]
      have hw1 : wrap32 (seq + 1) = seq + 1 := wrap32_of_lt (by omega)
      split
      · rfl
      · dsimp only
        rw [hw1]
        split
        · split
          · exact ih _ _ _ _ _ (by omega) (by omega)
          · exact ih _ _ _ _ _ (by omega) (by omega)
        · exact ih _ _ _ _ _ (by omega) (by omega)
    · rw [if_neg hs]
      rfl

end findLoop

section publish

theorem wrap32_le (n : Nat) : wrap32 n ≤ n := Nat.mod_le _ _

/-- The gap branch of `findNewLedgersToPublish`: with a published ledger and a
valid sequence more than `MAX_LEDGER_GAP` above the published one, the result is
the valid ledger alone, the published pointer moves to it, and the only effect
call is the order book setup. -/
theorem findNew_gap_jump (fuel : Nat) (env : Env) (s : LedgerMaster) (v : Ledger)
    (hv : s.mValidLedger = some v) (hp : s.mPubLedger.isSome = true)
    (hgap : s.mPubLedgerSeq + 100 < s.mValidLedgerSeq) :
    findNewLedgersToPublish fuel env s
      = some ([v], (setPubLedger s v).emit [.orderBookSetup v]) := by
  have h1 : s.mPubLedger.isNone = false := by
    cases hq : s.mPubLedger with
    | none => rw [hq] at hp; exact Bool.noConfusion hp
    | some l => rfl
  have h2 : s.mValidLedgerSeq > wrap32 (s.mPubLedgerSeq + MAX_LEDGER_GAP) := by
    have := wrap32_le (s.mPubLedgerSeq + MAX_LEDGER_GAP)
    unfold MAX_LEDGER_GAP at *
    omega
  unfold findNewLedgersToPublish
  rw [hv]
  simp only [h1, Bool.false_eq_true, if_false, if_pos h2]

/-- Outside the gap branch and below the top of the 32-bit range,
`findNewLedgersToPublish` changes nothing but the effect log and returns
ledgers whose sequences count up from the published sequence plus one. -/
theorem findNew_no_jump (fuel : Nat) (env : Env) (s s1 : LedgerMaster) (ret : List Ledger)
    (hinv : PointerInv s) (hp : s.mPubLedger.isSome = true)
    (hgap : s.mValidLedgerSeq ≤ s.mPubLedgerSeq + 100)
    (hno : s.mPubLedgerSeq + 100 < 4294967295)
    (h : findNewLedgersToPublish fuel env s = some (ret, s1)) :
    (∃ evs, s1 = { s with events := evs }) ∧
    ∃ k, ret.map (fun l => l.info.seq) = List.range' (s.mPubLedgerSeq + 1) k ∧
      s.mPubLedgerSeq + k ≤ s.mValidLedgerSeq := by
  have h1 : s.mPubLedger.isNone = false := by
    cases hq : s.mPubLedger with
    | none => rw [hq] at hp; exact Bool.noConfusion hp
    | some l => rfl
  have hw : wrap32 (s.mPubLedgerSeq + MAX_LEDGER_GAP) = s.mPubLedgerSeq + 100 :=
    wrap32_of_lt (by unfold MAX_LEDGER_GAP; omega)
  have hw1 : wrap32 (s.mPubLedgerSeq + 1) = s.mPubLedgerSeq + 1 := wrap32_of_lt (by omega)
  unfold findNewLedgersToPublish at h
  split at h
  · simp only [Option.some.injEq, Prod.mk.injEq] at h
    exact ⟨⟨s.events, h.2.symm⟩, 0, by simp [← h.1], by have := hinv.1; omega⟩
  · rename_i v hv
    have hvs := hinv.2 v hv
    rw [hw] at h
    simp only [h1, Bool.false_eq_true, if_false, if_neg (show ¬ s.mValidLedgerSeq >
      s.mPubLedgerSeq + 100 by omega)] at h
    split at h
    · simp only [Option.some.injEq, Prod.mk.injEq] at h
      exact ⟨⟨s.events, h.2.symm⟩, 0, by simp [← h.1], by have := hinv.1; omega⟩
    · rename_i hlt
      rw [hw1] at h
      split at h
      · rename_i r evs heq
        simp only [Option.some.injEq, Prod.mk.injEq] at h
        obtain ⟨k, hk, hb⟩ := findLoop_seqs env s.mLedgerHistory v v.info.seq (by omega)
          fuel _ _ _ _ _ _ _ (le_refl _) heq
        refine ⟨⟨evs, h.2.symm⟩, k, ?_, by omega⟩
        rw [← h.1, hk]
        simp
      · exact Option.noConfusion h

/-- Below the top of the 32-bit range `findNewLedgersToPublish` returns: one
unit of fuel for each sequence from the published one to the valid one. -/
theorem findNew_isSome (fuel : Nat) (env : Env) (s : LedgerMaster) (hinv : PointerInv s)
    (hval : s.mValidLedgerSeq < 4294967295)
    (hfuel : s.mValidLedgerSeq + 1 - s.mPubLedgerSeq ≤ fuel) :
    (findNewLedgersToPublish fuel env s).isSome = true := by
  unfold findNewLedgersToPublish
  split
  · rfl
  · rename_i v hv
    have hvs := hinv.2 v hv
    split
    · rfl
    · split
      · rfl
      · split
        · rfl
        · rename_i hlt
          have hw1 : wrap32 (s.mPubLedgerSeq + 1) = s.mPubLedgerSeq + 1 :=
            wrap32_of_lt (by omega)
          dsimp only
          rw [hw1]
          have hsome := findLoop_isSome env s.mLedgerHistory v v.info.seq (by omega) fuel
            (s.mPubLedgerSeq + 1) (s.mPubLedgerSeq + 1) 0 [] s.events (by omega) (by omega)
          cases hf : findLoop env s.mLedgerHistory v v.info.seq fuel (s.mPubLedgerSeq + 1)
              (s.mPubLedgerSeq + 1) 0 [] s.events with
          | none => rw [hf] at hsome; exact Bool.noConfusion hsome
          | some res => rfl

theorem publishOne_mPubLedgerSeq (env : Env) (s : LedgerMaster) (l : Ledger) :
    (publishOne env s l).mPubLedgerSeq = l.info.seq := rfl

theorem publishLedgers_append (env : Env) (s : LedgerMaster) (ls : List Ledger) (l : Ledger) :
    publishLedgers env s (ls ++ [l]) = publishOne env (publishLedgers env s ls) l := by
  unfold publishLedgers
  rw [List.foldl_append]
  rfl

/-- The published sequence after the first `i` publish events of a list. -/
theorem publishLedgers_take_pubSeq (env : Env) (s : LedgerMaster) (ls : List Ledger) (i : Nat)
    (hi : i < ls.length) :
    (publishLedgers env s (ls.take (i + 1))).mPubLedgerSeq = (ls.get ⟨i, hi⟩).info.seq := by
  rw [List.take_succ, List.getElem?_eq_getElem hi]
  simp only [Option.toList]
  rw [publishLedgers_append, publishOne_mPubLedgerSeq]
  rfl

theorem seq_of_range (ls : List Ledger) (p k : Nat)
    (h : ls.map (fun l => l.info.seq) = List.range' p k) (i : Nat) (hi : i < ls.length) :
    (ls.get ⟨i, hi⟩).info.seq = p + i := by
  have h1 : (ls.map (fun l => l.info.seq))[i]? = some (ls.get ⟨i, hi⟩).info.seq := by
    rw [List.getElem?_map, List.getElem?_eq_getElem hi]
    rfl
  rw [h] at h1
  have hk : i < k := by
    have := congrArg List.length h
    simp at this
    omega
  rw [List.getElem?_range' _ _ hk] at h1
  have := Option.some.inj h1
  omega

end publish

section published

theorem publishedSeqs_append (a b : List Event) :
    publishedSeqs (a ++ b) = publishedSeqs a ++ publishedSeqs b := by
  unfold publishedSeqs
  exact List.filterMap_append _ _ _

theorem setValidLedger_published (env : Env) (s : LedgerMaster) (l : Ledger) :
    publishedSeqs (setValidLedger env s l).events = publishedSeqs s.events := by
  simp only [setValidLedger]
  split <;> simp [LedgerMaster.emit, publishedSeqs]

theorem tryAdvance_published (s : LedgerMaster) :
    publishedSeqs (tryAdvance s).events = publishedSeqs s.events := by
  simp only [tryAdvance]
  split <;> simp [LedgerMaster.emit, publishedSeqs]

theorem checkAccept_published (env : Env) (s : LedgerMaster) (ledger : Ledger) :
    publishedSeqs (checkAccept env s ledger).events = publishedSeqs s.events := by
  by_cases hc : s.mValidLedgerSeq < ledger.info.seq ∧
        getNeededValidations env ≤ env.numTrustedForLedger ledger.info.hash
  · have h1 : ¬ ledger.info.seq ≤ s.mValidLedgerSeq := by omega
    have h2 : ¬ env.numTrustedForLedger ledger.info.hash < getNeededValidations env := by omega
    unfold checkAccept
    simp only [h1, h2, if_false]
    rw [tryAdvance_published, emit_events, publishedSeqs_append]
    split
    · rw [emit_events, publishedSeqs_append, setPubLedger_events, emit_events,
        publishedSeqs_append, setValidLedger_published]
      simp [publishedSeqs]
    · rw [setValidLedger_published]
      simp [publishedSeqs]
  · rw [checkAccept_reject env s ledger hc]

theorem checkAccept_pub (env : Env) (s : LedgerMaster) (ledger : Ledger)
    (hp : s.mPubLedger.isSome = true) :
    (checkAccept env s ledger).mPubLedger = s.mPubLedger ∧
    (checkAccept env s ledger).mPubLedgerSeq = s.mPubLedgerSeq := by
  have hn : s.mPubLedger.isNone = false := by
    cases hq : s.mPubLedger with
    | none => rw [hq] at hp; exact Bool.noConfusion hp
    | some l => rfl
  by_cases hc : s.mValidLedgerSeq < ledger.info.seq ∧
        getNeededValidations env ≤ env.numTrustedForLedger ledger.info.hash
  · obtain ⟨_, _, h3, h4⟩ := checkAccept_accept env s ledger hc
    rw [h3, h4, hn]
    exact ⟨rfl, rfl⟩
  · rw [checkAccept_reject env s ledger hc]
    exact ⟨rfl, rfl⟩

/-- The second state has the same published pointer, when one was set, and the
same sequences handed to `pubLedger`. -/
theorem PubInv.of_quiet {s t : LedgerMaster} (h : PubInv s) (hi : PointerInv t)
    (he : publishedSeqs t.events = publishedSeqs s.events)
    (hp : s.mPubLedger.isSome = true →
      t.mPubLedger = s.mPubLedger ∧ t.mPubLedgerSeq = s.mPubLedgerSeq) : PubInv t := by
  obtain ⟨_, h2, h3⟩ := h
  refine ⟨hi, by rw [he]; exact h2, ?_⟩
  intro q hq
  rw [he] at hq
  obtain ⟨ha, hb⟩ := h3 q hq
  obtain ⟨hc, hd⟩ := hp ha
  rw [hc, hd]
  exact ⟨ha, hb⟩

theorem checkAccept_pubInv (env : Env) (s : LedgerMaster) (ledger : Ledger) (h : PubInv s) :
    PubInv (checkAccept env s ledger) :=
  h.of_quiet (checkAccept_pointerInv env s ledger h.1) (checkAccept_published env s ledger)
    (checkAccept_pub env s ledger)

theorem PubInv.of_same {s t : LedgerMaster} (h : PubInv s)
    (h1 : t.mValidLedger = s.mValidLedger) (h2 : t.mValidLedgerSeq = s.mValidLedgerSeq)
    (h3 : t.mPubLedger = s.mPubLedger) (h4 : t.mPubLedgerSeq = s.mPubLedgerSeq)
    (he : publishedSeqs t.events = publishedSeqs s.events) : PubInv t :=
  h.of_quiet (h.1.of_fields h1 h2 h4) he (fun _ => ⟨h3, h4⟩)

theorem resolve_pubInv (env : Env) (s : LedgerMaster) (hash : Hash) (seq valCount : Nat)
    (h : PubInv s) : PubInv (checkAcceptHash.resolve env s hash seq valCount) := by
  unfold checkAcceptHash.resolve
  have hs1 : PubInv (if seq ≠ 0 ∧ s.mValidLedgerSeq = 0 then
        if valCount ≥ env.quorum then s.emit [.checkSanity seq] else s
      else s) := by
    split
    · split
      · exact h.of_same rfl rfl rfl rfl (by simp [publishedSeqs])
      · exact h
    · exact h
  have hs2 : PubInv ((if seq ≠ 0 ∧ s.mValidLedgerSeq = 0 then
        if valCount ≥ env.quorum then s.emit [.checkSanity seq] else s
      else s).emit [.acquire hash 0 .fcGENERIC]) :=
    hs1.of_same rfl rfl rfl rfl (by simp [publishedSeqs])
  split
  · exact checkAccept_pubInv _ _ _ h
  · dsimp only
    split
    · exact checkAccept_pubInv _ _ _ hs2
    · exact hs2

theorem checkAcceptHash_pubInv (env : Env) (s : LedgerMaster) (hash : Hash) (seq : Nat)
    (h : PubInv s) : PubInv (checkAcceptHash env s hash seq) := by
  unfold checkAcceptHash
  split
  · split
    · exact h
    · dsimp only
      have key : ∀ s1 : LedgerMaster, PubInv s1 →
          PubInv (if seq = s1.mValidLedgerSeq then s1
            else if seq = s1.mBuildingLedgerSeq then s1
            else checkAcceptHash.resolve env s1 hash seq (env.numTrustedForLedger hash)) := by
        intro s1 hs1
        split
        · exact hs1
        · split
          · exact hs1
          · exact resolve_pubInv _ _ _ _ _ hs1
      apply key
      split
      · split
        · exact h.of_same rfl rfl rfl rfl rfl
        · exact h
      · exact h
  · exact resolve_pubInv _ _ _ _ _ h

theorem record_published (env : Env) (s : LedgerMaster) (ledger : Ledger)
    (isSynchronous isCurrent : Bool) :
    publishedSeqs (setFullLedger.record env s ledger isSynchronous isCurrent).events
      = publishedSeqs s.events := by
  unfold setFullLedger.record
  cases isCurrent <;>
    (dsimp only; split <;> simp [LedgerMaster.emit, clearLedger, publishedSeqs])

theorem pointers_published (env : Env) (s : LedgerMaster) (ledger : Ledger) :
    publishedSeqs (setFullLedger.pointers env s ledger).events = publishedSeqs s.events := by
  unfold setFullLedger.pointers
  dsimp only
  split
  · split
    · rw [emit_events, publishedSeqs_append, setPubLedger_events, setValidLedger_published]
      simp [publishedSeqs]
    · exact setValidLedger_published env s ledger
  · split
    · rw [emit_events, publishedSeqs_append, setPubLedger_events]
      simp [publishedSeqs]
    · rfl

theorem setFullLedger_published (env : Env) (s : LedgerMaster) (ledger : Ledger)
    (isSynchronous isCurrent : Bool) :
    publishedSeqs (setFullLedger env s ledger isSynchronous isCurrent).events
      = publishedSeqs s.events := by
  obtain ⟨c, hc⟩ := setFullLedger_onlyComplete env s ledger isSynchronous isCurrent
  rw [hc]
  show publishedSeqs (setFullLedger.pointers env _ _).events = _
  rw [pointers_published, record_published]

theorem publishOne_published (env : Env) (s : LedgerMaster) (l : Ledger) :
    publishedSeqs (publishOne env s l).events = publishedSeqs s.events ++ [l.info.seq] := by
  unfold publishOne
  dsimp only
  rw [emit_events, publishedSeqs_append, setPubLedger_events, setFullLedger_published]
  rfl

/-- Publishing a ledger whose sequence is above everything published so far
keeps the log strictly increasing and below the published sequence. -/
theorem publishOne_pubInv (env : Env) (s : LedgerMaster) (l : Ledger)
    (hi : PointerInv s) (hs : (publishedSeqs s.events).Pairwise (· < ·))
    (hlt : ∀ q ∈ publishedSeqs s.events, q < l.info.seq) :
    PubInv (publishOne env s l) := by
  refine ⟨publishOne_pointerInv env s l hi, ?_, ?_⟩
  · rw [publishOne_published, List.pairwise_append]
    refine ⟨hs, List.pairwise_singleton _ _, ?_⟩
    intro a ha b hb
    rw [List.mem_singleton] at hb
    rw [hb]
    exact hlt a ha
  · intro q hq
    rw [publishOne_published, List.mem_append, List.mem_singleton] at hq
    refine ⟨rfl, ?_⟩
    rw [publishOne_mPubLedgerSeq]
    rcases hq with hq | hq
    · exact Nat.le_of_lt (hlt q hq)
    · rw [hq]

theorem publishLedgers_pubInv (env : Env) :
    ∀ (ls : List Ledger) (s : LedgerMaster) (p k : Nat),
      PubInv s → (∀ q ∈ publishedSeqs s.events, q ≤ p) →
      ls.map (fun l => l.info.seq) = List.range' (p + 1) k →
      PubInv (publishLedgers env s ls) := by
  intro ls
  induction ls with
  | nil => intro s p k h _ _; exact h
  | cons l rest ih =>
    intro s p k h hle hmap
    cases k with
    | zero => simp at hmap
    | succ k1 =>
      rw [List.range'_succ, List.map_cons, List.cons.injEq] at hmap
      obtain ⟨hl, hrest⟩ := hmap
      have h1 : PubInv (publishOne env s l) :=
        publishOne_pubInv env s l h.1 h.2.1 (by
          intro q hq
          have := hle q hq
          omega)
      refine ih (publishOne env s l) (p + 1) k1 h1 ?_ hrest
      intro q hq
      rw [publishOne_published, List.mem_append, List.mem_singleton] at hq
      rcases hq with hq | hq
      · have := hle q hq
        omega
      · omega

theorem findLoop_events (env : Env) (hist : LedgerHistory) (valLedger : Ledger) (valSeq : Nat) :
    ∀ (fuel seq pubSeq : Nat) (acqCount : Int) (ret : List Ledger) (evs : List Event)
      (r : List Ledger) (e : List Event),
      findLoop env hist valLedger valSeq fuel seq pubSeq acqCount ret evs = some (r, e) →
      publishedSeqs e = publishedSeqs evs := by
  intro fuel
  induction fuel with
  | zero =>
    intro seq pubSeq acqCount ret evs r e h
    simp [findLoop] at h
  | succ f ih =>
    intro seq pubSeq acqCount ret evs r e h
    unfold findLoop at h
    have hev : ∀ (b : Bool) (hash : Hash),
        publishedSeqs (if b = true then evs ++ [Event.acquire hash seq .fcGENERIC] else evs)
          = publishedSeqs evs := by
      intro b hash
      cases b <;> simp [publishedSeqs]
    by_cases hs : seq ≤ valSeq
    · rw [if_pos hs] at h
      split at h
      · simp only [Option.some.injEq, Prod.mk.injEq] at h
        rw [h.2]
      · dsimp only at h
        split at h
        · split at h
          · exact (ih _ _ _ _ _ _ _ h).trans (hev _ _)
          · exact (ih _ _ _ _ _ _ _ h).trans (hev _ _)
        · exact (ih _ _ _ _ _ _ _ h).trans (hev _ _)
    · rw [if_neg hs] at h
      simp only [Option.some.injEq, Prod.mk.injEq] at h
      rw [h.2]

theorem findNew_published (fuel : Nat) (env : Env) (s s1 : LedgerMaster) (ret : List Ledger)
    (h : findNewLedgersToPublish fuel env s = some (ret, s1)) :
    publishedSeqs s1.events = publishedSeqs s.events := by
  unfold findNewLedgersToPublish at h
  split at h
  · simp only [Option.some.injEq, Prod.mk.injEq] at h
    rw [← h.2]
  · split at h
    · simp only [Option.some.injEq, Prod.mk.injEq] at h
      rw [← h.2]
    · split at h
      · simp only [Option.some.injEq, Prod.mk.injEq] at h
        rw [← h.2]
        simp [publishedSeqs]
      · split at h
        · simp only [Option.some.injEq, Prod.mk.injEq] at h
          rw [← h.2]
        · dsimp only at h
          split at h
          · rename_i r evs heq
            simp only [Option.some.injEq, Prod.mk.injEq] at h
            rw [← h.2]
            exact findLoop_events _ _ _ _ _ _ _ _ _ _ _ _ heq
          · exact Option.noConfusion h

theorem findNew_no_valid (fuel : Nat) (env : Env) (s : LedgerMaster)
    (hv : s.mValidLedger = none) : findNewLedgersToPublish fuel env s = some ([], s) := by
  unfold findNewLedgersToPublish
  rw [hv]

theorem findNew_first (fuel : Nat) (env : Env) (s : LedgerMaster) (v : Ledger)
    (hv : s.mValidLedger = some v) (hp : s.mPubLedger.isNone = true) :
    findNewLedgersToPublish fuel env s = some ([v], s) := by
  unfold findNewLedgersToPublish
  rw [hv]
  simp only [hp, if_true]

/-- One Advance turn below the wrap keeps the publish log strictly increasing. -/
theorem advancePublish_pubInv (fuel : Nat) (env : Env) (s t : LedgerMaster) (h : PubInv s)
    (hb : s.mValidLedgerSeq + 100 < 4294967295)
    (ht : advancePublish fuel env s = some t) : PubInv t := by
  have h0 : PubInv { s with mAdvanceWork := false } := h.of_same rfl rfl rfl rfl rfl
  unfold advancePublish at ht
  generalize hs0 : ({ s with mAdvanceWork := false } : LedgerMaster) = s0 at ht h0
  have hb0 : s0.mValidLedgerSeq + 100 < 4294967295 := by rw [← hs0]; exact hb
  clear hs0
  cases hfn : findNewLedgersToPublish fuel env s0 with
  | none => rw [hfn] at ht; exact Option.noConfusion ht
  | some res =>
    obtain ⟨ret, s1⟩ := res
    rw [hfn] at ht
    have htt : publishLedgers env s1 ret = t := Option.some.inj ht
    subst htt
    cases hv : s0.mValidLedger with
    | none =>
      rw [findNew_no_valid fuel env s0 hv] at hfn
      simp only [Option.some.injEq, Prod.mk.injEq] at hfn
      rw [← hfn.1, ← hfn.2]
      exact h0
    | some v =>
      have hvs : s0.mValidLedgerSeq = v.info.seq := h0.1.2 v hv
      cases hpn : s0.mPubLedger.isNone with
      | true =>
        rw [findNew_first fuel env s0 v hv hpn] at hfn
        simp only [Option.some.injEq, Prod.mk.injEq] at hfn
        rw [← hfn.1, ← hfn.2]
        refine publishOne_pubInv env s0 v h0.1 h0.2.1 ?_
        intro q hq
        have := (h0.2.2 q hq).1
        cases hq2 : s0.mPubLedger with
        | none => rw [hq2] at this; exact Bool.noConfusion this
        | some l => rw [hq2] at hpn; exact Bool.noConfusion hpn
      | false =>
        have hps : s0.mPubLedger.isSome = true := by
          cases hq2 : s0.mPubLedger with
          | none => rw [hq2] at hpn; exact Bool.noConfusion hpn
          | some l => rfl
        have hpv := h0.1.1
        by_cases hgap : s0.mPubLedgerSeq + 100 < s0.mValidLedgerSeq
        · rw [findNew_gap_jump fuel env s0 v hv hps hgap] at hfn
          simp only [Option.some.injEq, Prod.mk.injEq] at hfn
          rw [← hfn.1, ← hfn.2]
          have hi1 : PointerInv ((setPubLedger s0 v).emit [.orderBookSetup v]) :=
            findNew_pointerInv fuel env s0 _ [v]
              (findNew_gap_jump fuel env s0 v hv hps hgap) h0.1
          have he1 : publishedSeqs ((setPubLedger s0 v).emit [.orderBookSetup v]).events
              = publishedSeqs s0.events := by
            simp [publishedSeqs]
          refine publishOne_pubInv env _ v hi1 (by rw [he1]; exact h0.2.1) ?_
          intro q hq
          rw [he1] at hq
          have := (h0.2.2 q hq).2
          omega
        · obtain ⟨⟨evs, hs1⟩, k, hk, _⟩ :=
            findNew_no_jump fuel env s0 s1 ret h0.1 hps (by omega) (by omega) hfn
          have he := findNew_published fuel env s0 s1 ret hfn
          have h1 : PubInv s1 := by
            rw [hs1] at he ⊢
            exact h0.of_same rfl rfl rfl rfl he
          refine publishLedgers_pubInv env ret s1 s0.mPubLedgerSeq k h1 ?_ hk
          intro q hq
          rw [he] at hq
          exact (h0.2.2 q hq).2

theorem pubInv_init : PubInv LedgerMaster.init := by
  refine ⟨pointerInv_init, List.Pairwise.nil, ?_⟩
  intro q hq
  simp [publishedSeqs, LedgerMaster.init] at hq

/-- Over every run of `checkAccept` calls and Advance turns from a state that
satisfies `PubInv`, in which the valid sequence stays more than 100 below the top
of the 32-bit range at each turn, the sequences handed to `pubLedger` strictly
increase. -/
theorem runSteps_published_increasing :
    ∀ (steps : List RunStep) (s t : LedgerMaster), PubInv s → belowWrap s steps →
      runSteps s steps = some t → (publishedSeqs t.events).Pairwise (· < ·) := by
  intro steps
  induction steps with
  | nil =>
    intro s t h _ hr
    simp only [runSteps, Option.some.injEq] at hr
    rw [← hr]
    exact h.2.1
  | cons st rest ih =>
    intro s t h hb hr
    cases st with
    | accept c =>
      simp only [runSteps] at hr
      simp only [belowWrap] at hb
      refine ih (c.run s) t ?_ hb hr
      cases c with
      | byHash env hash seq => exact checkAcceptHash_pubInv env s hash seq h
      | byLedger env ledger => exact checkAccept_pubInv env s ledger h
    | advance fuel env =>
      simp only [runSteps] at hr
      simp only [belowWrap] at hb
      cases ha : advancePublish fuel env s with
      | none => rw [ha] at hr; exact Option.noConfusion hr
      | some u =>
        rw [ha] at hr hb
        exact ih u t (advancePublish_pubInv fuel env s u h hb.1 ha) hb.2 hr

end published

/-- C2: in every state reachable from the initial state (no valid ledger, no
published ledger) by `checkAccept` in either form, `setFullLedger`,
`findNewLedgersToPublish` and the publish loop of `doAdvance`, with arbitrary
arguments and collaborator answers, `mPubLedgerSeq ≤ mValidLedgerSeq`. -/
theorem reachable_pubSeq_le_validSeq (s : LedgerMaster) (h : Reachable s) :
    s.mPubLedgerSeq ≤ s.mValidLedgerSeq :=
  (reachable_pointerInv s h).1

/-- C2 (witness): from the initial state, accept ledger 5, accept ledger 7, then
publish ledger 6: the published sequence 6 does not exceed the valid sequence 7. -/
theorem reachable_pubSeq_le_validSeq_witness :
    (publishLedgers acceptEnv
        (checkAccept acceptEnv (checkAccept acceptEnv LedgerMaster.init (mkLedger 5 105 104 0))
          (mkLedger 7 107 106 0))
        [mkLedger 6 106 105 0]).mPubLedgerSeq
      ≤ (publishLedgers acceptEnv
        (checkAccept acceptEnv (checkAccept acceptEnv LedgerMaster.init (mkLedger 5 105 104 0))
          (mkLedger 7 107 106 0))
        [mkLedger 6 106 105 0]).mValidLedgerSeq :=
  reachable_pubSeq_le_validSeq _
    (Reachable.publishLedgers _ _ _
      (Reachable.checkAccept _ _ _ (Reachable.checkAccept _ _ _ Reachable.init)))

/-- C7 (failing input): from the initial state, ledger 4294967200 is accepted
and becomes the first published ledger, then ledger 4294967250 is accepted: a
gap of 50. The sum `mPubLedgerSeq + MAX_LEDGER_GAP` wraps to 4 in 32-bit
arithmetic, the gap test succeeds, and `findNewLedgersToPublish` jumps: it
returns the valid ledger alone and sets the published sequence to 4294967250
without trying any of the 49 ledgers in between. -/
theorem findNew_gap_wraps :
    (checkAccept acceptEnv
        (checkAccept acceptEnv LedgerMaster.init (mkLedger 4294967200 1 0 0))
        (mkLedger 4294967250 2 1 0)).mPubLedgerSeq = 4294967200 ∧
    (checkAccept acceptEnv
        (checkAccept acceptEnv LedgerMaster.init (mkLedger 4294967200 1 0 0))
        (mkLedger 4294967250 2 1 0)).mValidLedgerSeq = 4294967250 ∧
    wrap32 (4294967200 + MAX_LEDGER_GAP) = 4 ∧
    (findNewLedgersToPublish 0 baseEnv
        (checkAccept acceptEnv
          (checkAccept acceptEnv LedgerMaster.init (mkLedger 4294967200 1 0 0))
          (mkLedger 4294967250 2 1 0))).map
      (fun r => (r.1.map (fun l => l.info.seq), r.2.mPubLedgerSeq))
      = some ([4294967250], 4294967250) := by
  decide

/-- C6 (counterexample): published sequence 10, valid sequence 160. The
Advance turn publishes one ledger, the valid one; the published sequence goes
from 10 to 160 inside `findNewLedgersToPublish`, and the publish event itself
leaves it at 160. Neither change is an increase by one. -/
theorem publish_event_gap_counterexample :
    (stateAt (mkLedger 10 1 0 0) (mkLedger 160 2 0 0)).mPubLedger.isSome = true ∧
    (stateAt (mkLedger 10 1 0 0) (mkLedger 160 2 0 0)).mPubLedgerSeq = 10 ∧
    (findNewLedgersToPublish 5 baseEnv
        (stateAt (mkLedger 10 1 0 0) (mkLedger 160 2 0 0))).map
      (fun r => (r.1.map (fun l => l.info.seq), r.2.mPubLedgerSeq)) = some ([160], 160) ∧
    (advancePublish 5 baseEnv (stateAt (mkLedger 10 1 0 0) (mkLedger 160 2 0 0))).map
      (fun t => (publishedSeqs t.events, t.mPubLedgerSeq)) = some ([160], 160) ∧
    (advancePublish 5 baseEnv (stateAt (mkLedger 10 1 0 0) (mkLedger 160 2 0 0))).map
      (fun t => decide (t.mPubLedgerSeq = 10 + 1 ∨ t.mPubLedgerSeq = 160 + 1)) = some false := by
  decide

/-- C6 (amended): in a state with a published ledger that satisfies the pointer
invariant of reachable states, when the valid sequence is at most 100 above the
published one and the published sequence plus 100 stays below the top of the
32-bit range, `findNewLedgersToPublish` returns (101 units of fuel suffice) and
every publish event of the Advance turn raises `mPubLedgerSeq` by exactly one:
the value after the first `i + 1` events of the publish loop is the value after
the first `i` events plus 1, for every ledger of the returned list. -/
theorem publish_event_increments (fuel : Nat) (env envPub : Env) (s : LedgerMaster)
    (hinv : PointerInv s) (hp : s.mPubLedger.isSome = true)
    (hgap : s.mValidLedgerSeq ≤ s.mPubLedgerSeq + 100)
    (hno : s.mPubLedgerSeq + 100 < 4294967295) (hfuel : 101 ≤ fuel) :
    ∃ ret s1, findNewLedgersToPublish fuel env s = some (ret, s1) ∧
      ∀ i : Nat, i < ret.length →
        (publishLedgers envPub s1 (ret.take (i + 1))).mPubLedgerSeq
          = (publishLedgers envPub s1 (ret.take i)).mPubLedgerSeq + 1 := by
  have hsome := findNew_isSome fuel env s hinv (by omega) (by omega)
  cases h : findNewLedgersToPublish fuel env s with
  | none => rw [h] at hsome; exact Bool.noConfusion hsome
  | some res =>
    obtain ⟨ret, s1⟩ := res
    refine ⟨ret, s1, rfl, ?_⟩
    intro i hi
    obtain ⟨⟨evs, hs1⟩, k, hk, _⟩ := findNew_no_jump fuel env s s1 ret hinv hp hgap hno h
    rw [publishLedgers_take_pubSeq envPub s1 ret i hi, seq_of_range ret _ k hk i hi]
    cases i with
    | zero =>
      rw [List.take_zero, hs1]
      rfl
    | succ j =>
      have hj : j < ret.length := by omega
      rw [publishLedgers_take_pubSeq envPub s1 ret j hj, seq_of_range ret _ k hk j hj]
      omega

/-- C6 (witness): published sequence 10, valid sequence 12, every ledger can be
acquired. The turn finds the ledgers 11 and 12, and each of its two publish
events raises the published sequence by one. -/
theorem publish_event_increments_witness :
    (∃ ret s1, findNewLedgersToPublish 101 chainEnv
        (stateAt (mkLedger 10 1 0 0) (mkLedger 12 2 0 0)) = some (ret, s1) ∧
      ∀ i : Nat, i < ret.length →
        (publishLedgers chainEnv s1 (ret.take (i + 1))).mPubLedgerSeq
          = (publishLedgers chainEnv s1 (ret.take i)).mPubLedgerSeq + 1) ∧
    (findNewLedgersToPublish 101 chainEnv
        (stateAt (mkLedger 10 1 0 0) (mkLedger 12 2 0 0))).map
      (fun r => r.1.map (fun l => l.info.seq)) = some [11, 12] :=
  ⟨publish_event_increments 101 chainEnv chainEnv
      (stateAt (mkLedger 10 1 0 0) (mkLedger 12 2 0 0))
      ⟨by decide, by intro l hl; cases hl; rfl⟩ (by decide) (by decide) (by decide)
      (by decide),
    by decide⟩

/-- C5 (failing input): from the initial state, ledger 4294967200 is accepted
and becomes the valid and the first published ledger. The sum
`mPubLedgerSeq + MAX_LEDGER_GAP` wraps to 4, so `findNewLedgersToPublish` takes
the gap branch although nothing is new, and each Advance turn hands the same
ledger to `pubLedger`: two turns publish sequence 4294967200 twice. -/
theorem advance_republishes_at_wrap :
    ((advancePublish 0 baseEnv
        (checkAccept acceptEnv LedgerMaster.init (mkLedger 4294967200 1 0 0))).bind
      (fun t => advancePublish 0 baseEnv t)).map (fun t => publishedSeqs t.events)
      = some [4294967200, 4294967200] := by
  decide

section fetchPack

theorem lookup_fetchPacksDel (c : List (Hash × Blob)) (hash : Hash) :
    fetchPacksRetrieve (fetchPacksDel c hash) hash = none := by
  unfold fetchPacksRetrieve fetchPacksDel
  induction c with
  | nil => rfl
  | cons e es ih =>
    obtain ⟨k, d⟩ := e
    by_cases hk : k = hash
    · simp only [List.filter_cons, hk, beq_self_eq_true, Bool.not_true, Bool.false_eq_true,
        if_false]
      exact ih
    · have hb : (k == hash) = false := beq_false_of_ne hk
      have hb2 : (hash == k) = false := beq_false_of_ne (fun h => hk h.symm)
      simp only [List.filter_cons, hb, Bool.not_false, if_true, List.lookup_cons, hb2]
      exact ih

theorem getFetchPack_fst (env : Env) (s : LedgerMaster) (hash : Hash) :
    (getFetchPack env s hash).1 =
      match fetchPacksRetrieve s.fetch_packs_ hash with
      | some data => if hash = env.sha512Half data then some data else none
      | none => none := by
  unfold getFetchPack
  split
  · dsimp only
    split <;> rfl
  · rfl

theorem getFetchPack_cache (env : Env) (s : LedgerMaster) (hash : Hash) :
    fetchPacksRetrieve (getFetchPack env s hash).2.fetch_packs_ hash = none := by
  unfold getFetchPack
  split
  · dsimp only
    split <;> exact lookup_fetchPacksDel _ _
  · rename_i h
    exact h

theorem getFetchPack_frame (env : Env) (s : LedgerMaster) (hash : Hash) :
    (getFetchPack env s hash).2.mCompleteLedgers = s.mCompleteLedgers ∧
    (getFetchPack env s hash).2.mLedgerHistory = s.mLedgerHistory := by
  unfold getFetchPack
  split
  · dsimp only
    split <;> exact ⟨rfl, rfl⟩
  · exact ⟨rfl, rfl⟩

end fetchPack

/-- C8: `getFetchPack(hash)` returns a payload `d` if and only if the fetch-pack
cache holds `d` under the key `hash` and `sha512Half d` equals `hash`; for a
cached payload whose digest differs from its key it returns none; and in every
case the range tracker and the ledger cache are unchanged. -/
theorem getFetchPack_contract (env : Env) (s : LedgerMaster) (hash : Hash) (d : Blob) :
    ((getFetchPack env s hash).1 = some d ↔
      (fetchPacksRetrieve s.fetch_packs_ hash = some d ∧ env.sha512Half d = hash)) ∧
    ((fetchPacksRetrieve s.fetch_packs_ hash = some d ∧ env.sha512Half d ≠ hash) →
      (getFetchPack env s hash).1 = none) ∧
    (getFetchPack env s hash).2.mCompleteLedgers = s.mCompleteLedgers ∧
    (getFetchPack env s hash).2.mLedgerHistory = s.mLedgerHistory := by
  refine ⟨?_, ?_, getFetchPack_frame env s hash⟩
  · rw [getFetchPack_fst]
    cases hr : fetchPacksRetrieve s.fetch_packs_ hash with
    | none => simp
    | some data =>
      dsimp only
      by_cases hh : hash = env.sha512Half data
      · rw [if_pos hh]
        constructor
        · intro h
          have hd : data = d := Option.some.inj h
          subst hd
          exact ⟨rfl, hh.symm⟩
        · intro h
          exact h.1
      · rw [if_neg hh]
        constructor
        · intro h
          exact Option.noConfusion h
        · intro h
          have hd : data = d := Option.some.inj h.1
          subst hd
          exact absurd h.2.symm hh
  · intro h
    rw [getFetchPack_fst, h.1]
    dsimp only
    rw [if_neg (fun hh => h.2 hh.symm)]

/-- C9: fetch-pack entries are consumed at most once. For every cache state,
hash and payload, after `addFetchPack(hash, payload)` the first
`getFetchPack(hash)` leaves no entry under `hash`, whatever it returned, and the
`getFetchPack(hash)` that follows it returns none; the first call does return
the payload when the key was free and is the digest of the payload. -/
theorem getFetchPack_single_use (env : Env) (s : LedgerMaster) (hash : Hash) (payload : Blob) :
    fetchPacksRetrieve
      (getFetchPack env (addFetchPack s hash payload) hash).2.fetch_packs_ hash = none ∧
    (getFetchPack env (getFetchPack env (addFetchPack s hash payload) hash).2 hash).1 = none ∧
    ((fetchPacksRetrieve s.fetch_packs_ hash = none ∧ env.sha512Half payload = hash) →
      (getFetchPack env (addFetchPack s hash payload) hash).1 = some payload) := by
  have h := getFetchPack_cache env (addFetchPack s hash payload) hash
  refine ⟨h, ?_, ?_⟩
  · rw [getFetchPack_fst, h]
  · intro hc
    have hl : s.fetch_packs_.lookup hash = none := hc.1
    have hadd : fetchPacksRetrieve (addFetchPack s hash payload).fetch_packs_ hash
        = some payload := by
      simp [addFetchPack, fetchPacksCanonicalize, fetchPacksRetrieve, hl]
    rw [getFetchPack_fst, hadd]
    dsimp only
    rw [if_pos hc.2.symm]

section fill

@[simp] theorem hasValue_setRange (c : RangeSet) (a b v : Nat) :
    (c.setRange a b).hasValue v = ((decide (a ≤ v) && decide (v ≤ b)) || c.hasValue v) := rfl

theorem FillInv.refresh {T : RangeSet} {n : Nat} {c : RangeSet} {maxHas seq : Nat}
    (h : FillInv T n c maxHas) (hle : seq + 1 ≤ maxHas) :
    FillInv T n (c.setRange (seq + 1) maxHas) (seq + 1) := by
  obtain ⟨h1, h2⟩ := h
  refine ⟨by omega, ?_⟩
  intro v hv
  rw [hasValue_setRange]
  by_cases hm : v = maxHas
  · subst hm
    have e1 : decide (seq + 1 ≤ v) = true := decide_eq_true hle
    have e2 : decide (v ≤ v) = true := decide_eq_true (le_refl _)
    have e3 : decide (seq + 1 < v) = true := decide_eq_true (by omega)
    have e4 : decide (v ≤ n) = true := decide_eq_true h1
    rw [e1, e2, e3, e4]
    simp
  · rw [h2 v hm]
    by_cases ha : seq + 1 ≤ v <;> by_cases hb : v ≤ maxHas <;> by_cases hc : v ≤ n <;>
      cases hT : T.hasValue v <;> simp [ha, hb, hc] <;> omega

theorem FillInv.final {T : RangeSet} {n : Nat} {c : RangeSet} {maxHas lo : Nat}
    (h : FillInv T n c maxHas) (hle : lo ≤ maxHas) (v : Nat) :
    (c.setRange lo maxHas).hasValue v
      = (T.hasValue v || (decide (lo ≤ v) && decide (v ≤ n))) := by
  obtain ⟨h1, h2⟩ := h
  rw [hasValue_setRange]
  by_cases hm : v = maxHas
  · subst hm
    have e1 : decide (lo ≤ v) = true := decide_eq_true hle
    have e2 : decide (v ≤ v) = true := decide_eq_true (le_refl _)
    have e4 : decide (v ≤ n) = true := decide_eq_true h1
    rw [e1, e2, e4]
    simp
  · rw [h2 v hm]
    by_cases ha : lo ≤ v <;> by_cases hb : v ≤ maxHas <;> by_cases hc : v ≤ n <;>
      cases hT : T.hasValue v <;> simp [ha, hb, hc] <;> omega

theorem getHashesByIndex_sub (env : Env) (lo hi v : Nat) (e : Hash × Hash)
    (h : getHashesByIndex env lo hi v = some e) : env.hashIndex v = some e := by
  unfold getHashesByIndex at h
  by_cases hc : lo ≤ v ∧ v ≤ hi
  · rw [if_pos hc] at h
    exact h
  · rw [if_neg hc] at h
    exact Option.noConfusion h

/-- The walk of `tryFill`, entered above the highest held sequence `k` with the
expected hash and a window that agrees with the index, on a chain whose index
rows match down to `k`, leaves the loop by the seam `break` at `k`. -/
theorem tryFillLoop_seam (env : Env) (job : Job) (ledger : Ledger) (T : RangeSet) (k : Nat)
    (hhas : T.hasValue k = true)
    (hnone : ∀ v, k < v → v < ledger.info.seq → T.hasValue v = false)
    (hidx : ∀ v, k < v → v < ledger.info.seq →
      ∃ h p, env.hashIndex v = some (h, p) ∧ some h = parentHashRecorded env ledger (v + 1))
    (hcancel : ∀ v, job.shouldCancel v = false)
    (hshut : ∀ v, env.isShutdown v = false) :
    ∀ (m : Nat) (prevHash : Hash) (lh : Nat → Option (Hash × Hash)) (minHas maxHas : Nat)
      (c : RangeSet),
      k < m → m ≤ maxHas →
      some prevHash = parentHashRecorded env ledger m →
      (∀ v e, lh v = some e → env.hashIndex v = some e) →
      FillInv T ledger.info.seq c maxHas →
      ∃ maxHas1 c1,
        tryFillLoop env job m prevHash lh minHas maxHas c = .finished (k + 1) maxHas1 c1 ∧
        FillInv T ledger.info.seq c1 maxHas1 ∧ k + 1 ≤ maxHas1 := by
  intro m
  induction m with
  | zero =>
    intro prevHash lh minHas maxHas c hkm
    omega
  | succ seq ih =>
    intro prevHash lh minHas maxHas c hkm hmax hprev hlh hinv
    have hn : seq + 1 ≤ ledger.info.seq := le_trans hmax hinv.1
    have hcT : c.hasValue seq = T.hasValue seq := by
      rw [hinv.2 seq (by omega)]
      have : decide (maxHas < seq) = false := decide_eq_false (by omega)
      rw [this]
      simp
    unfold tryFillLoop
    rw [hcancel (seq + 1)]
    simp only [Bool.false_eq_true, if_false]
    by_cases hseq : seq = k
    · subst hseq
      rw [hcT, hhas]
      simp only [if_true]
      exact ⟨maxHas, c, rfl, hinv, hmax⟩
    · have hks : k < seq := by omega
      rw [hcT, hnone seq hks (by omega)]
      simp only [Bool.false_eq_true, if_false]
      obtain ⟨h, p, hrow, hexp⟩ := hidx seq hks (by omega)
      have hh : h = prevHash := by
        rw [← hprev] at hexp
        exact (Option.some.inj hexp)
      have hnext : some p = parentHashRecorded env ledger seq := by
        unfold parentHashRecorded
        rw [if_neg (by omega), hrow]
        rfl
      cases hl : lh seq with
      | some it =>
        have hit : it = (h, p) := by
          have := hlh seq it hl
          rw [hrow] at this
          exact (Option.some.inj this).symm
        subst hit
        dsimp only
        rw [if_neg (by simp [hh])]
        exact ih p lh (seq + 1) maxHas c hks (by omega) hnext hlh hinv
      | none =>
        dsimp only
        rw [hshut seq]
        simp only [Bool.false_eq_true, if_false]
        have hwin : getHashesByIndex env (if seq < 500 then 0 else seq - 499) seq seq
            = some (h, p) := by
          unfold getHashesByIndex
          rw [if_pos ⟨by split <;> omega, le_refl _⟩, hrow]
        rw [hwin]
        dsimp only
        rw [if_neg (by simp [hh])]
        refine ih p _ (seq + 1) (seq + 1) _ hks (by omega) hnext ?_ (hinv.refresh hmax)
        intro v e hv
        exact getHashesByIndex_sub env _ _ v e hv

end fill

/-- C10: backfill walk seam. For every start ledger of sequence `n` and range
tracker whose highest held sequence below `n` is `k`, if the hash index has,
for every `v` with `k < v < n`, a row whose hash is the parent hash recorded for
`v + 1`, and neither the job is cancelled nor the application shut down, then
after `tryFill` the tracker holds exactly what it held before together with the
sequences `k + 1` to `n`. -/
theorem tryFill_seam (env : Env) (job : Job) (s : LedgerMaster) (ledger : Ledger) (k : Nat)
    (hk : k < ledger.info.seq)
    (hhas : s.mCompleteLedgers.hasValue k = true)
    (hnone : ∀ v, k < v → v < ledger.info.seq → s.mCompleteLedgers.hasValue v = false)
    (hidx : ∀ v, k < v → v < ledger.info.seq →
      ∃ h p, env.hashIndex v = some (h, p) ∧ some h = parentHashRecorded env ledger (v + 1))
    (hcancel : ∀ v, job.shouldCancel v = false)
    (hshut : ∀ v, env.isShutdown v = false) (v : Nat) :
    (tryFill env job s ledger).mCompleteLedgers.hasValue v
      = (s.mCompleteLedgers.hasValue v ||
          (decide (k + 1 ≤ v) && decide (v ≤ ledger.info.seq))) := by
  have hinit : FillInv s.mCompleteLedgers ledger.info.seq s.mCompleteLedgers ledger.info.seq := by
    refine ⟨le_refl _, ?_⟩
    intro w _
    by_cases h1 : ledger.info.seq < w
    · have h2 : ¬ w ≤ ledger.info.seq := by omega
      simp [h1, h2]
    · simp [h1]
  obtain ⟨maxHas1, c1, hloop, hinv, hle⟩ :=
    tryFillLoop_seam env job ledger s.mCompleteLedgers k hhas hnone hidx hcancel hshut
      ledger.info.seq ledger.info.parentHash (fun _ => none) ledger.info.seq ledger.info.seq
      s.mCompleteLedgers hk (le_refl _) (by simp [parentHashRecorded])
      (by intro w e hw; exact Option.noConfusion hw) hinit
  unfold tryFill
  rw [hloop]
  dsimp only
  rw [tryAdvance_mCompleteLedgers]
  exact hinv.final hle v

/-- C10 (witness): start ledger 1000, tracker holding 950 only, a full index.
After `tryFill` the sequences 951 and 1000 are held, 950 is still held, and 949
and 1001 are still absent. -/
theorem tryFill_seam_witness :
    (tryFill fillEnv ⟨fun _ => false⟩ fillState
        (mkLedger 1000 6000 5999 0)).mCompleteLedgers.hasValue 951 = true ∧
    (tryFill fillEnv ⟨fun _ => false⟩ fillState
        (mkLedger 1000 6000 5999 0)).mCompleteLedgers.hasValue 1000 = true ∧
    (tryFill fillEnv ⟨fun _ => false⟩ fillState
        (mkLedger 1000 6000 5999 0)).mCompleteLedgers.hasValue 950 = true ∧
    (tryFill fillEnv ⟨fun _ => false⟩ fillState
        (mkLedger 1000 6000 5999 0)).mCompleteLedgers.hasValue 949 = false ∧
    (tryFill fillEnv ⟨fun _ => false⟩ fillState
        (mkLedger 1000 6000 5999 0)).mCompleteLedgers.hasValue 1001 = false := by
  have h := tryFill_seam fillEnv ⟨fun _ => false⟩ fillState (mkLedger 1000 6000 5999 0) 950
    (by decide) (by decide)
    (by
      intro v h1 _
      have h3 : v ≠ 950 := by omega
      simp [fillState, RangeSet.hasValue, h3])
    (by
      intro v h1 h2
      refine ⟨v + 5000, v + 4999, rfl, ?_⟩
      have h3 : v < 1000 := h2
      by_cases hv : v = 999
      · subst hv; rfl
      · have hne : ¬ (v + 1 = (mkLedger 1000 6000 5999 0).info.seq) := by
          show ¬ (v + 1 = 1000)
          omega
        unfold parentHashRecorded
        rw [if_neg hne]
        show some (v + 5000) = some (v + 1 + 4999)
        congr 1)
    (fun _ => rfl) (fun _ => rfl)
  exact ⟨h 951, h 1000, h 950, h 949, h 1001⟩

section fee

theorem remoteFees_append (a b : List Event) :
    remoteFees (a ++ b) = remoteFees a ++ remoteFees b := by
  unfold remoteFees
  exact List.filterMap_append _ _ _

theorem setValidLedger_remoteFees (env : Env) (s : LedgerMaster) (l : Ledger) :
    remoteFees (setValidLedger env s l).events = remoteFees s.events := by
  simp only [setValidLedger]
  split <;> simp [LedgerMaster.emit, remoteFees]

theorem tryAdvance_remoteFees (s : LedgerMaster) :
    remoteFees (tryAdvance s).events = remoteFees s.events := by
  simp only [tryAdvance]
  split <;> simp [LedgerMaster.emit, remoteFees]

theorem checkAccept_remoteFees (env : Env) (s : LedgerMaster) (ledger : Ledger)
    (hc : s.mValidLedgerSeq < ledger.info.seq ∧
        getNeededValidations env ≤ env.numTrustedForLedger ledger.info.hash) :
    remoteFees (checkAccept env s ledger).events = remoteFees s.events ++
      [medianFee (env.fees ledger.info.hash env.getLoadBase ++
        env.fees ledger.info.parentHash env.getLoadBase) env.getLoadBase] := by
  have h1 : ¬ ledger.info.seq ≤ s.mValidLedgerSeq := by omega
  have h2 : ¬ env.numTrustedForLedger ledger.info.hash < getNeededValidations env := by omega
  unfold checkAccept
  simp only [h1, h2, if_false]
  rw [tryAdvance_remoteFees, emit_events, remoteFees_append]
  congr 1
  split
  · rw [emit_events, remoteFees_append, setPubLedger_events, emit_events,
      remoteFees_append, setValidLedger_remoteFees]
    simp [remoteFees]
  · rw [setValidLedger_remoteFees]

theorem medianFee_eq_of_sorted (fees sorted : List Nat) (base : Nat)
    (hs : sorted.Sorted (· ≤ ·)) (hp : sorted.Perm fees) :
    medianFee fees base =
      if sorted = [] then base else sorted.getD (sorted.length / 2) 0 := by
  have hsort : fees.insertionSort (· ≤ ·) = sorted :=
    List.eq_of_perm_of_sorted ((List.perm_insertionSort _ fees).trans hp.symm)
      (List.sorted_insertionSort _ fees) hs
  have hlen : sorted.length = fees.length := hp.length_eq
  unfold medianFee
  by_cases hn : sorted = []
  · subst hn
    have : fees = [] := List.nil_perm.mp hp
    subst this
    rfl
  · have hne : fees.isEmpty = false := by
      cases hE : fees.isEmpty
      · rfl
      · rw [List.isEmpty_iff] at hE
        subst hE
        exact absurd (List.perm_nil.mp hp) hn
    rw [if_neg hn, hne, hsort, hlen]
    rfl

end fee

/-- C14: when `checkAccept(ledger)` accepts, it hands exactly one fee to
`setRemoteFee`. For every ascending arrangement `sorted` of the fee samples
collected for the hash of the ledger followed by those collected for its parent
hash, that fee is the element at index `n / 2` of the `n` sorted samples, itself
one of the samples, when there is a sample; it is the baseline load fee when
there is none, which is exactly when both sample lists are empty. -/
theorem checkAccept_fee_median (env : Env) (s : LedgerMaster) (ledger : Ledger)
    (sorted : List Nat)
    (hc : s.mValidLedgerSeq < ledger.info.seq ∧
        getNeededValidations env ≤ env.numTrustedForLedger ledger.info.hash)
    (hs : sorted.Sorted (· ≤ ·))
    (hp : sorted.Perm (env.fees ledger.info.hash env.getLoadBase ++
        env.fees ledger.info.parentHash env.getLoadBase)) :
    remoteFees (checkAccept env s ledger).events = remoteFees s.events ++
      [if sorted = [] then env.getLoadBase else sorted.getD (sorted.length / 2) 0] ∧
    (sorted = [] ↔ (env.fees ledger.info.hash env.getLoadBase = [] ∧
      env.fees ledger.info.parentHash env.getLoadBase = [])) ∧
    (sorted ≠ [] → sorted.getD (sorted.length / 2) 0 ∈
      env.fees ledger.info.hash env.getLoadBase ++
        env.fees ledger.info.parentHash env.getLoadBase) := by
  refine ⟨?_, ?_, ?_⟩
  · rw [checkAccept_remoteFees env s ledger hc, medianFee_eq_of_sorted _ sorted _ hs hp]
  · constructor
    · intro h
      subst h
      exact List.append_eq_nil.mp (List.nil_perm.mp hp)
    · intro h
      rw [h.1, h.2] at hp
      exact List.perm_nil.mp hp
  · intro hn
    have hpos : 0 < sorted.length := List.length_pos.mpr hn
    have hlt : sorted.length / 2 < sorted.length := by omega
    rw [List.getD_eq_getElem _ _ hlt]
    exact hp.subset (List.getElem_mem hlt)

/-- C14 (witness): one validation is enough; the samples 30, 10 for the hash and
20 for the parent hash give the fee 20, the element at index 1 of 10, 20, 30. -/
theorem checkAccept_fee_median_witness :
    remoteFees (checkAccept
        { acceptEnv with fees := fun h _ => if h = 105 then [30, 10] else [20] }
        LedgerMaster.init (mkLedger 5 105 104 0)).events = [20] :=
  (checkAccept_fee_median
    { acceptEnv with fees := fun h _ => if h = 105 then [30, 10] else [20] }
    LedgerMaster.init (mkLedger 5 105 104 0) [10, 20, 30]
    ⟨by decide, by decide⟩ (by decide) (by decide)).1

section validPos

theorem ValidPos.keep {s t : LedgerMaster} (h : ValidPos s)
    (h1 : t.mValidLedger = s.mValidLedger) (h2 : t.mValidLedgerSeq = s.mValidLedgerSeq) :
    ValidPos t := by
  unfold ValidPos at *
  rw [h1, h2]
  exact h

theorem checkAccept_validPos (env : Env) (s : LedgerMaster) (ledger : Ledger)
    (h : ValidPos s) : ValidPos (checkAccept env s ledger) := by
  by_cases hc : s.mValidLedgerSeq < ledger.info.seq ∧
        getNeededValidations env ≤ env.numTrustedForLedger ledger.info.hash
  · intro l _
    rw [(checkAccept_accept env s ledger hc).1]
    omega
  · rw [checkAccept_reject env s ledger hc]
    exact h

theorem resolve_validPos (env : Env) (s : LedgerMaster) (hash : Hash) (seq valCount : Nat)
    (h : ValidPos s) : ValidPos (checkAcceptHash.resolve env s hash seq valCount) := by
  unfold checkAcceptHash.resolve
  have hs1 : ValidPos (if seq ≠ 0 ∧ s.mValidLedgerSeq = 0 then
        if valCount ≥ env.quorum then s.emit [.checkSanity seq] else s
      else s) := by
    split
    · split
      · exact h.keep rfl rfl
      · exact h
    · exact h
  split
  · exact checkAccept_validPos _ _ _ h
  · dsimp only
    split
    · exact checkAccept_validPos _ _ _ (hs1.keep rfl rfl)
    · exact hs1.keep rfl rfl

theorem checkAcceptHash_validPos (env : Env) (s : LedgerMaster) (hash : Hash) (seq : Nat)
    (h : ValidPos s) : ValidPos (checkAcceptHash env s hash seq) := by
  unfold checkAcceptHash
  split
  · split
    · exact h
    · dsimp only
      have key : ∀ s1 : LedgerMaster, ValidPos s1 →
          ValidPos (if seq = s1.mValidLedgerSeq then s1
            else if seq = s1.mBuildingLedgerSeq then s1
            else checkAcceptHash.resolve env s1 hash seq (env.numTrustedForLedger hash)) := by
        intro s1 hs1
        split
        · exact hs1
        · split
          · exact hs1
          · exact resolve_validPos _ _ _ _ _ hs1
      apply key
      split
      · split
        · exact h.keep rfl rfl
        · exact h
      · exact h
  · exact resolve_validPos _ _ _ _ _ h

theorem pointers_validPos (env : Env) (s : LedgerMaster) (ledger : Ledger) (h : ValidPos s) :
    ValidPos (setFullLedger.pointers env s ledger) := by
  unfold setFullLedger.pointers
  by_cases hv : ledger.info.seq > s.mValidLedgerSeq
  · simp only [if_pos hv]
    split
    · intro l _
      simp
      omega
    · intro l _
      simp
      omega
  · simp only [if_neg hv]
    split
    · exact h.keep rfl rfl
    · exact h

theorem setFullLedger_validPos (env : Env) (s : LedgerMaster) (ledger : Ledger)
    (isSynchronous isCurrent : Bool) (h : ValidPos s) :
    ValidPos (setFullLedger env s ledger isSynchronous isCurrent) := by
  obtain ⟨r1, r2, _, _⟩ :=
    record_fields env s ledger.setValidated.setFull isSynchronous isCurrent
  have hp := pointers_validPos env _ ledger.setValidated.setFull (h.keep r1 r2)
  obtain ⟨c, hc⟩ := setFullLedger_onlyComplete env s ledger isSynchronous isCurrent
  rw [hc]
  exact hp

theorem publishLedgers_validPos (env : Env) (pubLedgers : List Ledger) :
    ∀ s : LedgerMaster, ValidPos s → ValidPos (publishLedgers env s pubLedgers) := by
  induction pubLedgers with
  | nil => intro s h; exact h
  | cons l ls ih =>
    intro s h
    refine ih _ ?_
    unfold publishOne
    exact (setFullLedger_validPos env s l true true h).keep rfl rfl

theorem reachable_validPos (s : LedgerMaster) (h : Reachable s) : ValidPos s := by
  induction h with
  | init => intro l hl; exact Option.noConfusion hl
  | checkAccept env s ledger _ ih => exact checkAccept_validPos env s ledger ih
  | checkAcceptHash env s hash seq _ ih => exact checkAcceptHash_validPos env s hash seq ih
  | setFullLedger env s ledger a b _ ih => exact setFullLedger_validPos env s ledger a b ih
  | findNewLedgersToPublish fuel env s s1 ret _ hf ih =>
    rcases findNew_state fuel env s s1 ret hf with ⟨evs, rfl⟩ | ⟨v, _, _, _, _, rfl⟩
    · exact ih
    · exact ih.keep rfl rfl
  | publishLedgers env s ls _ ih => exact publishLedgers_validPos env ls s ih

/-- The hash form of `checkAccept` called with the current valid sequence, when
that sequence is not zero: at most the best-known candidate is recorded. -/
theorem checkAcceptHash_at_valid (env : Env) (s : LedgerMaster) (hash : Hash) (seq : Nat)
    (h0 : seq ≠ 0) (hv : seq = s.mValidLedgerSeq) :
    checkAcceptHash env s hash seq =
      if env.numTrustedForLedger hash ≥ env.quorum ∧ seq > s.mLastValidLedger.2 then
        { s with mLastValidLedger := (hash, seq) }
      else s := by
  unfold checkAcceptHash
  rw [if_pos h0, if_neg (by omega)]
  dsimp only
  by_cases hq : env.numTrustedForLedger hash ≥ env.quorum
  · by_cases hl : seq > s.mLastValidLedger.2
    · have hc : env.numTrustedForLedger hash ≥ env.quorum ∧ seq > s.mLastValidLedger.2 :=
        ⟨hq, hl⟩
      rw [if_pos hc]
      simp only [if_pos hq, if_pos hl]
      rw [if_pos hv]
    · have hc : ¬ (env.numTrustedForLedger hash ≥ env.quorum ∧ seq > s.mLastValidLedger.2) :=
        fun h => hl h.2
      rw [if_neg hc]
      simp only [if_pos hq, if_neg hl]
      rw [if_pos hv]
  · have hc : ¬ (env.numTrustedForLedger hash ≥ env.quorum ∧ seq > s.mLastValidLedger.2) :=
      fun h => hq h.1
    rw [if_neg hc]
    simp only [if_neg hq]
    rw [if_pos hv]

end validPos

/-- C12: in every state whose valid pointer holds a ledger `l` of hash `h` and
sequence `q`, with `mValidLedgerSeq = q` and `q` not the value 0 that
`checkAccept(hash, seq)` reads as "no sequence", calling `checkAccept(h, q)`
twice with the same collaborator answers leaves the state the first call left,
and the call appends nothing to the effect log (no publish event, no fee
update, none of the notifications of `setValidLedger`, no acquisition) and
leaves the valid pointer, its sequence and sign time and the published pointer
as they were; `checkAccept` on the valid ledger object leaves the whole state
unchanged. Nothing else is asked of the state: closed ledger, building
sequence, caches and flags are arbitrary. -/
theorem checkAccept_idempotent_on_valid (env : Env) (s : LedgerMaster) (l : Ledger)
    (hv : s.mValidLedger = some l) (hseq : s.mValidLedgerSeq = l.info.seq)
    (h0 : l.info.seq ≠ 0) :
    checkAcceptHash env (checkAcceptHash env s l.info.hash l.info.seq) l.info.hash l.info.seq
      = checkAcceptHash env s l.info.hash l.info.seq ∧
    (checkAcceptHash env s l.info.hash l.info.seq).events = s.events ∧
    (checkAcceptHash env s l.info.hash l.info.seq).mValidLedger = some l ∧
    (checkAcceptHash env s l.info.hash l.info.seq).mValidLedgerSeq = s.mValidLedgerSeq ∧
    (checkAcceptHash env s l.info.hash l.info.seq).mValidLedgerSign = s.mValidLedgerSign ∧
    (checkAcceptHash env s l.info.hash l.info.seq).mPubLedger = s.mPubLedger ∧
    (checkAcceptHash env s l.info.hash l.info.seq).mPubLedgerSeq = s.mPubLedgerSeq ∧
    checkAccept env s l = s ∧
    checkAccept env (checkAccept env s l) l = checkAccept env s l := by
  have hone : checkAccept env s l = s :=
    checkAccept_reject env s l (fun h => by omega)
  have e1 := checkAcceptHash_at_valid env s l.info.hash l.info.seq h0 hseq.symm
  refine ⟨?_, ?_, ?_, ?_, ?_, ?_, ?_, hone, by rw [hone, hone]⟩
  · by_cases hc : env.numTrustedForLedger l.info.hash ≥ env.quorum ∧
        l.info.seq > s.mLastValidLedger.2
    · rw [e1, if_pos hc]
      have e2 := checkAcceptHash_at_valid env
        { s with mLastValidLedger := (l.info.hash, l.info.seq) } l.info.hash l.info.seq h0
        hseq.symm
      rw [e2, if_neg (fun h => absurd h.2 (lt_irrefl _))]
    · rw [e1, if_neg hc]
      rw [e1, if_neg hc]
  · rw [e1]; split <;> rfl
  · rw [e1, ← hv]; split <;> rfl
  all_goals (rw [e1]; split <;> rfl)

/-- C12 (witness): a node with a closed ledger 6 and building sequence 7 whose
valid and published ledger is ledger 5 of hash 105; a further
`checkAccept(105, 5)` with quorum met adds nothing to the effect log, and the
ledger form leaves the state as it is. -/
theorem checkAccept_idempotent_on_valid_witness :
    (checkAcceptHash acceptEnv closedState 105 5).events = closedState.events ∧
    checkAccept acceptEnv closedState (mkLedger 5 105 104 0) = closedState :=
  ⟨(checkAccept_idempotent_on_valid acceptEnv closedState (mkLedger 5 105 104 0)
      rfl rfl (by decide)).2.1,
   (checkAccept_idempotent_on_valid acceptEnv closedState (mkLedger 5 105 104 0)
      rfl rfl (by decide)).2.2.2.2.2.2.2.1⟩

section lowQuorum

theorem getLedgerByHash_hash (h : LedgerHistory) (hash : Hash) (l : Ledger)
    (hl : h.getLedgerByHash hash = some l) : l.info.hash = hash := by
  unfold LedgerHistory.getLedgerByHash at hl
  have := List.find?_some hl
  simpa using this

theorem resolve_low (env : Env) (s : LedgerMaster) (hash : Hash) (seq valCount : Nat)
    (hlow : env.numTrustedForLedger hash < env.quorum) (hval : valCount < env.quorum)
    (hns : env.standalone = false)
    (hacq : ∀ l, env.acquire hash 0 = some l → l.info.hash = hash) :
    checkAcceptHash.resolve env s hash seq valCount =
      if (s.mLedgerHistory.getLedgerByHash hash).isSome = true then s
      else s.emit [.acquire hash 0 .fcGENERIC] := by
  have hrej : ∀ (t : LedgerMaster) (l : Ledger), l.info.hash = hash →
      checkAccept env t l = t := by
    intro t l hl
    apply checkAccept_reject
    intro h
    have h2 := h.2
    rw [hl] at h2
    unfold getNeededValidations at h2
    rw [hns] at h2
    simp only [Bool.false_eq_true, if_false] at h2
    omega
  unfold checkAcceptHash.resolve
  cases hc : s.mLedgerHistory.getLedgerByHash hash with
  | some ledger =>
    dsimp only
    have hsome : (some ledger).isSome = true := rfl
    rw [if_pos hsome]
    exact hrej s ledger (getLedgerByHash_hash _ _ _ hc)
  | none =>
    dsimp only
    have hs1 : (if seq ≠ 0 ∧ s.mValidLedgerSeq = 0 then
        if valCount ≥ env.quorum then s.emit [.checkSanity seq] else s
      else s) = s := by
      split
      · rw [if_neg (by omega)]
      · rfl
    have hnone : ¬ ((none : Option Ledger).isSome = true) := by simp
    rw [hs1, if_neg hnone]
    cases ha : env.acquire hash 0 with
    | some ledger =>
      dsimp only
      exact hrej _ ledger (hacq ledger ha)
    | none => rfl

end lowQuorum

/-- C13 (counterexample): quorum 1, no trusted validation for hash 7, ledger not
in the cache. `checkAccept(7, 5)` on the initial state asks the acquisition
service for the ledger of hash 7 although the count is below quorum. -/
theorem checkAcceptHash_low_quorum_acquires :
    baseEnv.numTrustedForLedger 7 < baseEnv.quorum ∧
    (checkAcceptHash baseEnv LedgerMaster.init 7 5).events
      = [Event.acquire 7 0 AcquireReason.fcGENERIC] := by
  decide

/-- C13 (amended): on a node that is not standalone, whose acquisition service
returns only the ledger of the hash asked for, if the trusted-validation count
for the hash is below quorum then `checkAccept(hash, seq)` leaves the whole
state unchanged (valid pointer, published pointer and best-known candidate
included) when `seq` is non-zero and at most the valid sequence or equal to the
building sequence, and when the ledger is in the ledger cache; in every other
case it appends exactly one acquisition request `acquire(hash, 0, fcGENERIC)`
to the effect log and changes nothing else. -/
theorem checkAcceptHash_low_quorum (env : Env) (s : LedgerMaster) (hash : Hash) (seq : Nat)
    (hlow : env.numTrustedForLedger hash < env.quorum)
    (hns : env.standalone = false)
    (hacq : ∀ l, env.acquire hash 0 = some l → l.info.hash = hash) :
    checkAcceptHash env s hash seq =
      (if (seq ≠ 0 ∧ (seq ≤ s.mValidLedgerSeq ∨ seq = s.mBuildingLedgerSeq)) ∨
          (s.mLedgerHistory.getLedgerByHash hash).isSome = true then s
        else s.emit [.acquire hash 0 .fcGENERIC]) ∧
    (checkAcceptHash env s hash seq).mValidLedger = s.mValidLedger ∧
    (checkAcceptHash env s hash seq).mValidLedgerSeq = s.mValidLedgerSeq ∧
    (checkAcceptHash env s hash seq).mPubLedger = s.mPubLedger ∧
    (checkAcceptHash env s hash seq).mPubLedgerSeq = s.mPubLedgerSeq ∧
    (checkAcceptHash env s hash seq).mLastValidLedger = s.mLastValidLedger := by
  have key : checkAcceptHash env s hash seq =
      (if (seq ≠ 0 ∧ (seq ≤ s.mValidLedgerSeq ∨ seq = s.mBuildingLedgerSeq)) ∨
          (s.mLedgerHistory.getLedgerByHash hash).isSome = true then s
        else s.emit [.acquire hash 0 .fcGENERIC]) := by
    have hnq : ¬ env.numTrustedForLedger hash ≥ env.quorum := by omega
    unfold checkAcceptHash
    by_cases h0 : seq ≠ 0
    · rw [if_pos h0]
      by_cases hlt : seq < s.mValidLedgerSeq
      · rw [if_pos hlt, if_pos (Or.inl ⟨h0, Or.inl (le_of_lt hlt)⟩)]
      · rw [if_neg hlt]
        dsimp only
        simp only [if_neg hnq]
        by_cases heq : seq = s.mValidLedgerSeq
        · rw [if_pos heq, if_pos (Or.inl ⟨h0, Or.inl (le_of_eq heq)⟩)]
        · rw [if_neg heq]
          by_cases hb : seq = s.mBuildingLedgerSeq
          · rw [if_pos hb, if_pos (Or.inl ⟨h0, Or.inr hb⟩)]
          · rw [if_neg hb, resolve_low env s hash seq _ hlow hlow hns hacq]
            by_cases hc : (s.mLedgerHistory.getLedgerByHash hash).isSome = true
            · rw [if_pos hc, if_pos (Or.inr hc)]
            · rw [if_neg hc, if_neg]
              rintro (⟨_, h1 | h1⟩ | h1)
              · omega
              · exact hb h1
              · exact hc h1
    · rw [if_neg h0, resolve_low env s hash seq 0 hlow (by omega) hns hacq]
      by_cases hc : (s.mLedgerHistory.getLedgerByHash hash).isSome = true
      · rw [if_pos hc, if_pos (Or.inr hc)]
      · rw [if_neg hc, if_neg]
        rintro (⟨h1, _⟩ | h1)
        · exact h0 h1
        · exact hc h1
  refine ⟨key, ?_, ?_, ?_, ?_, ?_⟩ <;> (rw [key]; split <;> rfl)

/-- C13 (witness): quorum 1, no trusted validation. From the initial state
`checkAccept(7, 5)` appends the one request for hash 7; with ledger 5 of hash 7
in the ledger cache it leaves the state as it is. -/
theorem checkAcceptHash_low_quorum_witness :
    checkAcceptHash baseEnv LedgerMaster.init 7 5
      = LedgerMaster.init.emit [.acquire 7 0 .fcGENERIC] ∧
    checkAcceptHash baseEnv
      { LedgerMaster.init with mLedgerHistory := ⟨[mkLedger 5 7 6 0]⟩ } 7 5
      = { LedgerMaster.init with mLedgerHistory := ⟨[mkLedger 5 7 6 0]⟩ } :=
  ⟨((checkAcceptHash_low_quorum baseEnv LedgerMaster.init 7 5
      (by decide) rfl (by intro l hl; exact Option.noConfusion hl)).1).trans
        (if_neg (by decide)),
   ((checkAcceptHash_low_quorum baseEnv
      { LedgerMaster.init with mLedgerHistory := ⟨[mkLedger 5 7 6 0]⟩ } 7 5
      (by decide) rfl (by intro l hl; exact Option.noConfusion hl)).1).trans
        (if_pos (by decide))⟩

section mismatch

theorem getLedgerBySeq_fst_complete (env : Env) (s : LedgerMaster) (c : RangeSet)
    (index : Nat) :
    (getLedgerBySeq env { s with mCompleteLedgers := c } index).1
      = (getLedgerBySeq env s index).1 := by
  unfold getLedgerBySeq
  dsimp only
  have hc : ∀ (t : LedgerMaster),
      (match s.mLedgerHistory.getLedgerBySeq index with
        | some ret => ((some ret, t) : Option Ledger × LedgerMaster)
        | none =>
          match s.mClosedLedger with
          | some ret =>
            if ret.info.seq = index then (some ret, t) else (none, clearLedger t index)
          | none => (none, clearLedger t index)).1
      = (match s.mLedgerHistory.getLedgerBySeq index with
        | some ret => ((some ret, s) : Option Ledger × LedgerMaster)
        | none =>
          match s.mClosedLedger with
          | some ret =>
            if ret.info.seq = index then (some ret, s) else (none, clearLedger s index)
          | none => (none, clearLedger s index)).1 := by
    intro t
    cases s.mLedgerHistory.getLedgerBySeq index with
    | some ret => rfl
    | none =>
      cases s.mClosedLedger with
      | some ret => dsimp only; split <;> rfl
      | none => rfl
  split
  · cases s.mValidLedger with
    | none => exact hc _
    | some valid =>
      dsimp only
      split
      · rfl
      · cases env.hashOfSeq valid index with
        | none => exact hc _
        | some ho =>
          cases ho with
          | none => exact hc _
          | some hash => rfl
  · exact hc _

theorem seamAt_onlyComplete (env : Env) (s t : LedgerMaster) (ledger : Ledger) (seq : Nat)
    (h : OnlyComplete s t) : seamAt env t ledger seq = seamAt env s ledger seq := by
  obtain ⟨c, rfl⟩ := h
  unfold seamAt
  rw [getLedgerBySeq_fst_complete]

theorem getLedgerBySeq_some_state (env : Env) (s : LedgerMaster) (index : Nat) (l : Ledger) :
    (getLedgerBySeq env s index).1 = some l → (getLedgerBySeq env s index).2 = s := by
  unfold getLedgerBySeq
  dsimp only
  have hc : ∀ x : Option Ledger × LedgerMaster,
      x = (match s.mLedgerHistory.getLedgerBySeq index with
        | some ret => (some ret, s)
        | none =>
          match s.mClosedLedger with
          | some ret =>
            if ret.info.seq = index then (some ret, s) else (none, clearLedger s index)
          | none => (none, clearLedger s index)) →
      x.1 = some l → x.2 = s := by
    intro x hx hx1
    subst hx
    cases hh : s.mLedgerHistory.getLedgerBySeq index with
    | some ret => rfl
    | none =>
      rw [hh] at hx1
      cases hcl : s.mClosedLedger with
      | some ret =>
        rw [hcl] at hx1
        dsimp only at hx1 ⊢
        split
        · rfl
        · rename_i hne
          rw [if_neg hne] at hx1
          exact Option.noConfusion hx1
      | none =>
        rw [hcl] at hx1
        exact Option.noConfusion hx1
  by_cases h1 : index ≤ s.mValidLedgerSeq
  · rw [if_pos h1]
    cases s.mValidLedger with
    | none => exact hc _ rfl
    | some valid =>
      dsimp only
      by_cases h2 : valid.info.seq = index
      · rw [if_pos h2]
        intro _
        rfl
      · rw [if_neg h2]
        cases env.hashOfSeq valid index with
        | none => exact hc _ rfl
        | some ho =>
          cases ho with
          | none => exact hc _ rfl
          | some hash => intro _; rfl
  · rw [if_neg h1]
    exact hc _ rfl

theorem seamAt_true (env : Env) (s : LedgerMaster) (ledger : Ledger) (seq : Nat)
    (h : seamAt env s ledger seq = true) :
    ∃ hash other, env.hashOfSeq ledger seq = some (some hash) ∧
      getLedgerBySeq env s seq = (some other, s) ∧ other.info.hash = hash := by
  unfold seamAt at h
  cases hh : env.hashOfSeq ledger seq with
  | none => rw [hh] at h; exact Bool.noConfusion h
  | some ho =>
    cases ho with
    | none => rw [hh] at h; exact Bool.noConfusion h
    | some hash =>
      rw [hh] at h
      dsimp only at h
      cases hg : (getLedgerBySeq env s seq).1 with
      | none => rw [hg] at h; exact Bool.noConfusion h
      | some other =>
        rw [hg] at h
        dsimp only at h
        refine ⟨hash, other, rfl, ?_, of_decide_eq_true h⟩
        exact Prod.ext hg (getLedgerBySeq_some_state env s seq other hg)

theorem seamAt_false (env : Env) (s : LedgerMaster) (ledger : Ledger) (seq : Nat)
    (hash : Hash) (other : Ledger) (h : seamAt env s ledger seq = false)
    (hh : env.hashOfSeq ledger seq = some (some hash))
    (hg : (getLedgerBySeq env s seq).1 = some other) : other.info.hash ≠ hash := by
  unfold seamAt at h
  rw [hh] at h
  dsimp only at h
  rw [hg] at h
  dsimp only at h
  exact of_decide_eq_false h

@[simp] theorem hasValue_clearLedger (s : LedgerMaster) (seq v : Nat) :
    (clearLedger s seq).mCompleteLedgers.hasValue v
      = (!(v == seq) && s.mCompleteLedgers.hasValue v) := rfl

/-- The scan of `fixMismatch` from `n` down, when `m` is a held sequence at
which the seam test succeeds and every held sequence above it up to `n` fails
the seam test without a thrown error: exactly the held sequences above `m` up
to `n` are removed. -/
theorem fixMismatchLoop_seam (env : Env) (ledger : Ledger) (s0 : LedgerMaster) (m : Nat)
    (hm : 1 ≤ m) (hseam : seamAt env s0 ledger m = true) :
    ∀ (n : Nat) (s : LedgerMaster), OnlyComplete s0 s → m ≤ n →
      s.mCompleteLedgers.hasValue m = true →
      (∀ v, m < v → v ≤ n → s.mCompleteLedgers.hasValue v = true →
        seamAt env s0 ledger v = false ∧ env.hashOfSeq ledger v ≠ none) →
      ∀ v, (fixMismatchLoop env ledger n s).mCompleteLedgers.hasValue v
        = (s.mCompleteLedgers.hasValue v && !(decide (m < v) && decide (v ≤ n))) := by
  intro n
  induction n with
  | zero =>
    intro s _ hmn
    omega
  | succ k ih =>
    intro s hoc hmn hheld habove v
    have step : ∀ s1 : LedgerMaster, OnlyComplete s0 s1 → m < k + 1 →
        (∀ w, s1.mCompleteLedgers.hasValue w
          = (!(w == k + 1) && s.mCompleteLedgers.hasValue w)) →
        (fixMismatchLoop env ledger k s1).mCompleteLedgers.hasValue v
          = (s.mCompleteLedgers.hasValue v && !(decide (m < v) && decide (v ≤ k + 1))) := by
      intro s1 hoc1 hlt hs1
      have hmk : m ≠ k + 1 := by omega
      rw [ih s1 hoc1 (by omega)
        (by rw [hs1 m, hheld]; simp [hmk])
        (by
          intro w hw1 hw2 hw3
          rw [hs1 w] at hw3
          have : s.mCompleteLedgers.hasValue w = true := by
            cases hc : s.mCompleteLedgers.hasValue w
            · rw [hc] at hw3; simp at hw3
            · rfl
          exact habove w hw1 (by omega) this) v, hs1 v]
      by_cases hv : v = k + 1
      · subst hv
        have : decide (m < k + 1) = true := decide_eq_true hlt
        simp [this]
      · have e1 : (v == k + 1) = false := beq_false_of_ne hv
        have e2 : decide (v ≤ k + 1) = decide (v ≤ k) := by
          apply decide_eq_decide.mpr
          constructor <;> intro h <;> omega
        rw [e1, e2]
        simp
    unfold fixMismatchLoop
    by_cases hhave : haveLedger s (k + 1) = true
    · rw [if_pos hhave]
      by_cases hmk : m = k + 1
      · subst hmk
        have hseam1 : seamAt env s ledger (k + 1) = true := by
          rw [seamAt_onlyComplete env s0 s ledger _ hoc]; exact hseam
        obtain ⟨hash, other, hh, hg, heq⟩ := seamAt_true env s ledger _ hseam1
        rw [hh]
        dsimp only
        rw [hg]
        dsimp only
        rw [if_pos heq]
        have : (decide (k + 1 < v) && decide (v ≤ k + 1)) = false := by
          by_cases h1 : k + 1 < v
          · have h2 : ¬ v ≤ k + 1 := by omega
            simp [h2]
          · simp [h1]
        rw [this]
        simp
      · have hlt : m < k + 1 := by omega
        obtain ⟨hsf, hne⟩ := habove (k + 1) hlt (le_refl _) hhave
        have hsf1 : seamAt env s ledger (k + 1) = false := by
          rw [seamAt_onlyComplete env s0 s ledger _ hoc]; exact hsf
        cases hh : env.hashOfSeq ledger (k + 1) with
        | none => exact absurd hh hne
        | some ho =>
          cases ho with
          | none =>
            dsimp only
            exact step _ (hoc.trans (clearLedger_onlyComplete s _)) hlt (fun w => rfl)
          | some hash =>
            dsimp only
            cases hg : getLedgerBySeq env s (k + 1) with
            | mk o s1 =>
              have hg1 : (getLedgerBySeq env s (k + 1)).1 = o := by rw [hg]
              have hg2 : (getLedgerBySeq env s (k + 1)).2 = s1 := by rw [hg]
              cases o with
              | some other =>
                dsimp only
                have hs1 : s1 = s := by
                  rw [← hg2]; exact getLedgerBySeq_some_state env s _ other hg1
                rw [if_neg (seamAt_false env s ledger _ hash other hsf1 hh hg1), hs1]
                exact step _ (hoc.trans (clearLedger_onlyComplete s _)) hlt (fun w => rfl)
              | none =>
                dsimp only
                rcases getLedgerBySeq_state env s (k + 1) with h2 | h2
                · have hs1 : s1 = s := by rw [← hg2]; exact h2
                  rw [hs1]
                  exact step _ (hoc.trans (clearLedger_onlyComplete s _)) hlt (fun w => rfl)
                · have hs1 : s1 = clearLedger s (k + 1) := by rw [← hg2]; exact h2
                  rw [hs1]
                  refine step _ (hoc.trans ((clearLedger_onlyComplete s _).trans
                    (clearLedger_onlyComplete _ _))) hlt ?_
                  intro w
                  rw [hasValue_clearLedger, hasValue_clearLedger]
                  cases (w == k + 1) <;> simp
    · rw [if_neg hhave]
      have hmk : m ≠ k + 1 := by
        intro h
        subst h
        exact hhave hheld
      have hf : s.mCompleteLedgers.hasValue (k + 1) = false := by
        cases hc : s.mCompleteLedgers.hasValue (k + 1)
        · rfl
        · exact absurd hc hhave
      refine step s hoc (by omega) ?_
      intro w
      by_cases hw : w = k + 1
      · subst hw
        rw [hf]
        simp
      · have e1 : (w == k + 1) = false := beq_false_of_ne hw
        rw [e1]
        simp

end mismatch

/-- C11 (counterexample): the accepted ledger has sequence 501, the tracker
holds 495 to 500, the cached ledger at 495 has the chain hash and those at 496
to 500 do not, and computing the chain hash of 498 throws. The highest matching
held sequence is 495, yet `fixMismatch` removes only 498, 499 and 500: the held
sequences 496 and 497, strictly above the seam, stay in the tracker. -/
theorem fixMismatch_error_counterexample :
    seamAt mismatchErrorEnv mismatchState (mkLedger 501 1501 1500 0) 495 = true ∧
    seamAt mismatchErrorEnv mismatchState (mkLedger 501 1501 1500 0) 496 = false ∧
    seamAt mismatchErrorEnv mismatchState (mkLedger 501 1501 1500 0) 497 = false ∧
    seamAt mismatchErrorEnv mismatchState (mkLedger 501 1501 1500 0) 498 = false ∧
    seamAt mismatchErrorEnv mismatchState (mkLedger 501 1501 1500 0) 499 = false ∧
    seamAt mismatchErrorEnv mismatchState (mkLedger 501 1501 1500 0) 500 = false ∧
    [495, 496, 497, 498, 499, 500].map
      (fun v => (fixMismatch mismatchErrorEnv mismatchState
        (mkLedger 501 1501 1500 0)).mCompleteLedgers.hasValue v)
      = [true, true, true, false, false, false] := by
  decide

/-- C11 (amended): for an accepted ledger of sequence between 1 and the top of
the 32-bit range, if `m` is a held sequence below it at which the cached ledger
has the hash the accepted chain gives, and every held sequence strictly between
`m` and the sequence of the ledger fails that test while computing its chain
hash throws no error, then `fixMismatch` removes from the range tracker exactly
the held sequences strictly above `m` and below the sequence of the ledger, and
leaves every other sequence, `m` and all below it included, as it was. -/
theorem fixMismatch_seam (env : Env) (s : LedgerMaster) (ledger : Ledger) (m : Nat)
    (hseq : ledger.info.seq < 4294967296) (hm : 1 ≤ m) (hlt : m < ledger.info.seq)
    (hheld : s.mCompleteLedgers.hasValue m = true)
    (hseam : seamAt env s ledger m = true)
    (habove : ∀ v, m < v → v < ledger.info.seq → s.mCompleteLedgers.hasValue v = true →
      seamAt env s ledger v = false ∧ env.hashOfSeq ledger v ≠ none)
    (v : Nat) :
    (fixMismatch env s ledger).mCompleteLedgers.hasValue v
      = (s.mCompleteLedgers.hasValue v &&
          !(decide (m < v) && decide (v < ledger.info.seq))) := by
  have hw : wrap32 (ledger.info.seq + 4294967295) = ledger.info.seq - 1 := by
    unfold wrap32
    omega
  unfold fixMismatch
  rw [hw, fixMismatchLoop_seam env ledger s m hm hseam (ledger.info.seq - 1) s
    (OnlyComplete.refl s) (by omega) hheld
    (fun w h1 h2 h3 => habove w h1 (by omega) h3) v]
  have e : decide (v ≤ ledger.info.seq - 1) = decide (v < ledger.info.seq) := by
    apply decide_eq_decide.mpr
    constructor <;> intro h <;> omega
  rw [e]

/-- C11 (witness): accepted ledger 501, tracker holding 495 to 500, cached
ledger 495 with the chain hash and cached ledgers 496 to 500 with other hashes:
`fixMismatch` removes 496 to 500 and keeps 495; 494 stays absent. -/
theorem fixMismatch_seam_witness :
    [494, 495, 496, 497, 498, 499, 500].map
      (fun v => (fixMismatch mismatchEnv mismatchState
        (mkLedger 501 1501 1500 0)).mCompleteLedgers.hasValue v)
      = [false, true, false, false, false, false, false] := by
  have h := fixMismatch_seam mismatchEnv mismatchState (mkLedger 501 1501 1500 0) 495
    (by decide) (by decide) (by decide) (by decide) (by decide)
    (by
      intro v h1 h2 _
      have h3 : v < 501 := h2
      have hv : v = 496 ∨ v = 497 ∨ v = 498 ∨ v = 499 ∨ v = 500 := by omega
      rcases hv with rfl | rfl | rfl | rfl | rfl <;> decide)
  simp only [List.map, h]
  decide

section consensus

theorem scan_spec (s : LedgerMaster) (needed : Nat) :
    ∀ (l : List (Hash × valSeq)) (a : Nat) (h0 : Hash),
      a ≤ (consensusBuilt.scan s needed l (a, h0)).1 ∧
      (∀ g ∈ l, g.2.valCount_ > needed →
        groupSeq s g ≤ (consensusBuilt.scan s needed l (a, h0)).1) ∧
      (consensusBuilt.scan s needed l (a, h0) = (a, h0) ∨
        ∃ g ∈ l, g.2.valCount_ > needed ∧
          groupSeq s g = (consensusBuilt.scan s needed l (a, h0)).1 ∧
          g.1 = (consensusBuilt.scan s needed l (a, h0)).2 ∧
          a < (consensusBuilt.scan s needed l (a, h0)).1) := by
  intro l
  induction l with
  | nil =>
    intro a h0
    exact ⟨le_refl _, fun g hg => absurd hg (List.not_mem_nil g), Or.inl rfl⟩
  | cons g rest ih =>
    intro a h0
    unfold consensusBuilt.scan
    by_cases hc : g.2.valCount_ > needed
    · rw [if_pos hc]
      by_cases hg : groupSeq s g > a
      · rw [if_pos hg]
        obtain ⟨i1, i2, i3⟩ := ih (groupSeq s g) g.1
        refine ⟨by omega, ?_, Or.inr ?_⟩
        · intro g1 hg1 hc1
          rcases List.mem_cons.mp hg1 with rfl | hm
          · exact i1
          · exact i2 g1 hm hc1
        · rcases i3 with i3 | ⟨g1, hm, hc1, e1, e2, e3⟩
          · refine ⟨g, List.mem_cons_self _ _, hc, ?_, ?_, ?_⟩
            · rw [i3]
            · rw [i3]
            · rw [i3]; exact hg
          · exact ⟨g1, List.mem_cons_of_mem _ hm, hc1, e1, e2, by omega⟩
      · rw [if_neg hg]
        obtain ⟨i1, i2, i3⟩ := ih a h0
        refine ⟨i1, ?_, ?_⟩
        · intro g1 hg1 hc1
          rcases List.mem_cons.mp hg1 with rfl | hm
          · omega
          · exact i2 g1 hm hc1
        · rcases i3 with i3 | ⟨g1, hm, hc1, e1, e2, e3⟩
          · exact Or.inl i3
          · exact Or.inr ⟨g1, List.mem_cons_of_mem _ hm, hc1, e1, e2, e3⟩
    · rw [if_neg hc]
      obtain ⟨i1, i2, i3⟩ := ih a h0
      refine ⟨i1, ?_, ?_⟩
      · intro g1 hg1 hc1
        rcases List.mem_cons.mp hg1 with rfl | hm
        · exact absurd hc1 hc
        · exact i2 g1 hm hc1
      · rcases i3 with i3 | ⟨g1, hm, hc1, e1, e2, e3⟩
        · exact Or.inl i3
        · exact Or.inr ⟨g1, List.mem_cons_of_mem _ hm, hc1, e1, e2, e3⟩

theorem consensusBuilt_unfold (env : Env) (s : LedgerMaster) (ledger : Ledger)
    (hns : env.standalone = false) (hseq : s.mValidLedgerSeq < ledger.info.seq)
    (hrej : env.numTrustedForLedger ledger.info.hash < env.quorum) :
    consensusBuilt env s ledger =
      if (consensusBuilt.pick env ((setBuildingLedger s 0).emit [.builtLedger ledger])
            ledger).1 > s.mValidLedgerSeq then
        checkAcceptHash env ((setBuildingLedger s 0).emit [.builtLedger ledger])
          (consensusBuilt.pick env ((setBuildingLedger s 0).emit [.builtLedger ledger])
            ledger).2
          (consensusBuilt.pick env ((setBuildingLedger s 0).emit [.builtLedger ledger])
            ledger).1
      else (setBuildingLedger s 0).emit [.builtLedger ledger] := by
  have hr : checkAccept env ((setBuildingLedger s 0).emit [.builtLedger ledger]) ledger
      = (setBuildingLedger s 0).emit [.builtLedger ledger] := by
    apply checkAccept_reject
    intro h
    have h2 := h.2
    unfold getNeededValidations at h2
    rw [hns] at h2
    simp only [Bool.false_eq_true, if_false] at h2
    omega
  have hv : ((setBuildingLedger s 0).emit [.builtLedger ledger]).mValidLedgerSeq
      = s.mValidLedgerSeq := rfl
  unfold consensusBuilt
  simp only [hns, Bool.false_eq_true, if_false, hr, hv, if_neg (show ¬ ledger.info.seq ≤
    s.mValidLedgerSeq by omega)]

theorem countMerge_lookup (acc : List (Hash × valSeq)) (v : Validation) (h : Hash) :
    (countMerge acc v).lookup h =
      if h = v.ledgerHash then
        some (((acc.lookup h).getD ⟨0, 0⟩).mergeValidation v.ledgerSeq)
      else acc.lookup h := by
  induction acc with
  | nil =>
    unfold countMerge
    by_cases hh : h = v.ledgerHash
    · subst hh
      simp [List.lookup]
    · have : (h == v.ledgerHash) = false := beq_false_of_ne hh
      simp [List.lookup, this, hh]
  | cons e rest ih =>
    obtain ⟨k, vs⟩ := e
    unfold countMerge
    by_cases hk : k = v.ledgerHash
    · rw [if_pos hk]
      by_cases hh : h = v.ledgerHash
      · have e1 : (h == k) = true := by rw [hh, hk]; exact beq_self_eq_true _
        simp [List.lookup, e1, hh, hk]
      · have e1 : (h == k) = false := beq_false_of_ne (by rw [hk]; exact hh)
        simp [List.lookup, e1, hh]
    · rw [if_neg hk]
      by_cases hh : h = k
      · have e1 : (h == k) = true := by rw [hh]; exact beq_self_eq_true _
        have hne : ¬ h = v.ledgerHash := by rw [hh]; exact hk
        simp [List.lookup, e1, hne]
      · have e1 : (h == k) = false := beq_false_of_ne hh
        simp only [List.lookup, e1]
        exact ih

theorem countMerge_keys (acc : List (Hash × valSeq)) (v : Validation) :
    (countMerge acc v).map Prod.fst =
      if v.ledgerHash ∈ acc.map Prod.fst then acc.map Prod.fst
      else acc.map Prod.fst ++ [v.ledgerHash] := by
  induction acc with
  | nil => simp [countMerge]
  | cons e rest ih =>
    obtain ⟨k, vs⟩ := e
    unfold countMerge
    by_cases hk : k = v.ledgerHash
    · rw [if_pos hk]
      simp [hk]
    · rw [if_neg hk]
      have hk2 : ¬ v.ledgerHash = k := fun h => hk h.symm
      simp only [List.map_cons, List.mem_cons, hk2, false_or, ih]
      split <;> simp

theorem foldl_countMerge_keys (val : List Validation) :
    ∀ acc : List (Hash × valSeq), (acc.map Prod.fst).Nodup →
      ((val.foldl countMerge acc).map Prod.fst).Nodup := by
  induction val with
  | nil => intro acc h; exact h
  | cons v rest ih =>
    intro acc h
    refine ih _ ?_
    rw [countMerge_keys]
    split
    · exact h
    · rename_i hn
      exact List.nodup_append.mpr ⟨h, List.nodup_singleton _, by
        intro a ha hb
        rw [List.mem_singleton] at hb
        rw [hb] at ha
        exact hn ha⟩

theorem foldl_countMerge_count (val : List Validation) (h : Hash) :
    ∀ acc : List (Hash × valSeq),
      (((val.foldl countMerge acc).lookup h).getD ⟨0, 0⟩).valCount_
        = ((acc.lookup h).getD ⟨0, 0⟩).valCount_
          + val.countP (fun v => v.ledgerHash == h) := by
  induction val with
  | nil => intro acc; simp
  | cons v rest ih =>
    intro acc
    rw [List.foldl_cons, ih, countMerge_lookup, List.countP_cons]
    by_cases hh : h = v.ledgerHash
    · have e1 : (v.ledgerHash == h) = true := by rw [hh]; exact beq_self_eq_true _
      rw [if_pos hh, e1]
      simp only [Option.getD_some, valSeq.mergeValidation, if_true]
      omega
    · have e1 : (v.ledgerHash == h) = false := beq_false_of_ne (fun e => hh e.symm)
      rw [if_neg hh, e1]
      simp

theorem lookup_of_mem_nodup :
    ∀ (l : List (Hash × valSeq)) (g : Hash × valSeq), g ∈ l → (l.map Prod.fst).Nodup →
      l.lookup g.1 = some g.2 := by
  intro l
  induction l with
  | nil => intro g hg; exact absurd hg (List.not_mem_nil g)
  | cons e rest ih =>
    intro g hg hn
    obtain ⟨k, vs⟩ := e
    rw [List.map_cons, List.nodup_cons] at hn
    rcases List.mem_cons.mp hg with rfl | hm
    · simp [List.lookup]
    · have hk : g.1 ≠ k := by
        intro h
        apply hn.1
        rw [← h]
        exact List.mem_map.mpr ⟨g, hm, rfl⟩
      have e1 : (g.1 == k) = false := beq_false_of_ne hk
      simp only [List.lookup, e1]
      exact ih g hm hn.2

/-- The counting loop of `consensusBuilt` groups by ledger hash: the entries of
its map have distinct hashes and each holds the number of trusted validations
for its hash. -/
theorem countValidations_groups (val : List Validation) :
    ((countValidations val).map Prod.fst).Nodup ∧
    ∀ g ∈ countValidations val,
      g.2.valCount_ = val.countP (fun v => v.ledgerHash == g.1) := by
  have hn : ((countValidations val).map Prod.fst).Nodup :=
    foldl_countMerge_keys val [] List.nodup_nil
  refine ⟨hn, ?_⟩
  intro g hg
  have h1 := foldl_countMerge_count val g.1 []
  have h2 : (countValidations val).lookup g.1 = some g.2 := lookup_of_mem_nodup _ g hg hn
  unfold countValidations at h2
  rw [h2] at h1
  simpa using h1

end consensus

/-- C15: reconciliation scan of `consensusBuilt` on a node that is not
standalone, for a built ledger above the valid sequence that `checkAccept` did
not accept. With the trusted validations grouped by ledger hash, visited in any
order: if some group has a validation count exceeding the quorum and a sequence
strictly above the valid sequence, `consensusBuilt` ends with
`checkAccept(hash, seq)` on such a group whose sequence is the highest among all
qualifying groups; if no group qualifies it makes no further call and leaves the
state it had before the scan. -/
theorem consensusBuilt_reconciliation (env : Env) (s : LedgerMaster) (ledger : Ledger)
    (hns : env.standalone = false) (hseq : s.mValidLedgerSeq < ledger.info.seq)
    (hrej : env.numTrustedForLedger ledger.info.hash < env.quorum)
    (hperm : (env.hashMapOrder (countValidations env.currentTrusted)).Perm
      (countValidations env.currentTrusted)) :
    ((∃ g ∈ countValidations env.currentTrusted, g.2.valCount_ > env.quorum ∧
        groupSeq ((setBuildingLedger s 0).emit [.builtLedger ledger]) g > s.mValidLedgerSeq) →
      ∃ g ∈ countValidations env.currentTrusted, g.2.valCount_ > env.quorum ∧
        groupSeq ((setBuildingLedger s 0).emit [.builtLedger ledger]) g > s.mValidLedgerSeq ∧
        (∀ g1 ∈ countValidations env.currentTrusted, g1.2.valCount_ > env.quorum →
          groupSeq ((setBuildingLedger s 0).emit [.builtLedger ledger]) g1
            ≤ groupSeq ((setBuildingLedger s 0).emit [.builtLedger ledger]) g) ∧
        consensusBuilt env s ledger
          = checkAcceptHash env ((setBuildingLedger s 0).emit [.builtLedger ledger]) g.1
              (groupSeq ((setBuildingLedger s 0).emit [.builtLedger ledger]) g)) ∧
    ((¬ ∃ g ∈ countValidations env.currentTrusted, g.2.valCount_ > env.quorum ∧
        groupSeq ((setBuildingLedger s 0).emit [.builtLedger ledger]) g > s.mValidLedgerSeq) →
      consensusBuilt env s ledger = (setBuildingLedger s 0).emit [.builtLedger ledger]) := by
  have hneed : getNeededValidations env = env.quorum := by
    unfold getNeededValidations
    rw [hns]
    rfl
  have hu := consensusBuilt_unfold env s ledger hns hseq hrej
  obtain ⟨p1, p2, p3⟩ := scan_spec ((setBuildingLedger s 0).emit [.builtLedger ledger])
    (getNeededValidations env) (env.hashMapOrder (countValidations env.currentTrusted))
    s.mValidLedgerSeq ledger.info.hash
  have hpick : consensusBuilt.pick env ((setBuildingLedger s 0).emit [.builtLedger ledger])
      ledger = consensusBuilt.scan ((setBuildingLedger s 0).emit [.builtLedger ledger])
        (getNeededValidations env) (env.hashMapOrder (countValidations env.currentTrusted))
        (s.mValidLedgerSeq, ledger.info.hash) := rfl
  rw [hneed] at p1 p2 p3 hpick
  constructor
  · rintro ⟨g0, hg0, hc0, hq0⟩
    have hle := p2 g0 (hperm.symm.subset hg0) hc0
    rcases p3 with p3 | ⟨g, hg, hc, e1, e2, e3⟩
    · rw [p3] at hle
      exact absurd hq0 (by omega)
    · refine ⟨g, hperm.subset hg, hc, by omega, ?_, ?_⟩
      · intro g1 hg1 hc1
        rw [e1]
        exact p2 g1 (hperm.symm.subset hg1) hc1
      · rw [hu, hpick, if_pos (by omega), e1, e2]
  · intro hno
    rcases p3 with p3 | ⟨g, hg, hc, e1, e2, e3⟩
    · rw [hu, hpick, p3, if_neg (lt_irrefl _)]
    · exact absurd ⟨g, hperm.subset hg, hc, by omega⟩ hno

/-- C15 (witness): built ledger 5 on the initial state, quorum 1. The groups
201 (two validations, sequence 9) and 202 (two validations, sequence 12)
qualify, group 203 has one validation only: the scan picks hash 202 at
sequence 12. -/
theorem consensusBuilt_reconciliation_witness :
    (∃ g ∈ countValidations scanEnv.currentTrusted, g.2.valCount_ > scanEnv.quorum ∧
        groupSeq ((setBuildingLedger LedgerMaster.init 0).emit
          [.builtLedger (mkLedger 5 105 104 0)]) g > LedgerMaster.init.mValidLedgerSeq ∧
        (∀ g1 ∈ countValidations scanEnv.currentTrusted, g1.2.valCount_ > scanEnv.quorum →
          groupSeq ((setBuildingLedger LedgerMaster.init 0).emit
            [.builtLedger (mkLedger 5 105 104 0)]) g1
            ≤ groupSeq ((setBuildingLedger LedgerMaster.init 0).emit
              [.builtLedger (mkLedger 5 105 104 0)]) g) ∧
        consensusBuilt scanEnv LedgerMaster.init (mkLedger 5 105 104 0)
          = checkAcceptHash scanEnv ((setBuildingLedger LedgerMaster.init 0).emit
              [.builtLedger (mkLedger 5 105 104 0)]) g.1
              (groupSeq ((setBuildingLedger LedgerMaster.init 0).emit
                [.builtLedger (mkLedger 5 105 104 0)]) g)) ∧
    consensusBuilt.pick scanEnv ((setBuildingLedger LedgerMaster.init 0).emit
      [.builtLedger (mkLedger 5 105 104 0)]) (mkLedger 5 105 104 0) = (12, 202) :=
  ⟨(consensusBuilt_reconciliation scanEnv LedgerMaster.init (mkLedger 5 105 104 0)
      rfl (by decide) (by decide) (List.Perm.refl _)).1
      ⟨(201, ⟨2, 9⟩), by decide, by decide, by decide⟩,
    by decide⟩

/-! ### Fetch-pack replies (`makeFetchPack`) -/

theorem repliesSent_append (a b : List Event) :
    repliesSent (a ++ b) = repliesSent a ++ repliesSent b := by
  simp [repliesSent, List.filterMap_append]

theorem chargesMade_append (a b : List Event) :
    chargesMade (a ++ b) = chargesMade a ++ chargesMade b := by
  simp [chargesMade, List.filterMap_append]

/-- Past the staleness, load and peer tests `makeFetchPack` is the chain of
its four refusals followed by the reply loop. -/
theorem makeFetchPack_served (fuel : Nat) (env : Env) (s : LedgerMaster)
    (haveLedgerHash : Hash) (uUptime : Nat)
    (hfresh : env.elapsedSeconds 0 ≤ wrap32 (uUptime + 1))
    (hload : env.isLoadedLocal = false)
    (hage : getValidatedLedgerAge env s ≤ 40)
    (hpeer : env.peerAlive = true) :
    makeFetchPack fuel env s haveLedgerHash uUptime =
      match getLedgerByHash s haveLedgerHash with
      | none => some (s.emit [.charge .feeRequestNoReply])
      | some haveLedger =>
        if env.isOpen haveLedger then some (s.emit [.charge .feeInvalidRequest])
        else
          match getEarliestFetch env s with
          | none => none
          | some e =>
            if haveLedger.info.seq < e then some (s.emit [.charge .feeInvalidRequest])
            else
              match getLedgerByHash s haveLedger.info.parentHash with
              | none => some (s.emit [.charge .feeRequestNoReply])
              | some wantLedger =>
                match makeFetchPack.loop env s uUptime fuel 0 haveLedger wantLedger [] with
                | none => none
                | some none => some s
                | some (some objects) => some (s.emit [.sendReply objects]) := by
  have h1 : ¬ env.elapsedSeconds 0 > wrap32 (uUptime + 1) := by omega
  have h2 : (env.isLoadedLocal || decide (getValidatedLedgerAge env s > 40)) = false := by
    rw [hload]; simp; exact hage
  unfold makeFetchPack
  rw [if_neg h1, h2, hpeer]
  simp

/-- Claim C16. For a request that is not stale, on a node that is not loaded
and whose validated ledger is at most 40 seconds old, with the peer still
connected: `makeFetchPack` charges the peer and sends nothing when the have
ledger is unknown, when it is open, when its sequence is below
`getEarliestFetch()`, and when its parent is unknown; and whenever a call sends
a reply, none of the four holds. -/
theorem makeFetchPack_refusals (fuel : Nat) (env : Env) (s : LedgerMaster)
    (haveLedgerHash : Hash) (uUptime : Nat)
    (hfresh : env.elapsedSeconds 0 ≤ wrap32 (uUptime + 1))
    (hload : env.isLoadedLocal = false)
    (hage : getValidatedLedgerAge env s ≤ 40)
    (hpeer : env.peerAlive = true) :
    (getLedgerByHash s haveLedgerHash = none →
      makeFetchPack fuel env s haveLedgerHash uUptime
        = some (s.emit [.charge .feeRequestNoReply])) ∧
    (∀ haveLedger, getLedgerByHash s haveLedgerHash = some haveLedger →
      env.isOpen haveLedger = true →
      makeFetchPack fuel env s haveLedgerHash uUptime
        = some (s.emit [.charge .feeInvalidRequest])) ∧
    (∀ e, getEarliestFetch env s = some e →
      fetchPackRefused env s haveLedgerHash e = true →
      ∃ fee t, makeFetchPack fuel env s haveLedgerHash uUptime = some t ∧
        t = s.emit [.charge fee] ∧
        chargesMade t.events = chargesMade s.events ++ [fee] ∧
        repliesSent t.events = repliesSent s.events) ∧
    (∀ t, makeFetchPack fuel env s haveLedgerHash uUptime = some t →
      repliesSent t.events ≠ repliesSent s.events →
      ∃ e, getEarliestFetch env s = some e ∧
        fetchPackRefused env s haveLedgerHash e = false) := by
  have hm := makeFetchPack_served fuel env s haveLedgerHash uUptime hfresh hload hage hpeer
  have hcharge : ∀ fee, ∃ fee1 t, some (s.emit [Event.charge fee]) = some t ∧
      t = s.emit [.charge fee1] ∧
      chargesMade t.events = chargesMade s.events ++ [fee1] ∧
      repliesSent t.events = repliesSent s.events := by
    intro fee
    refine ⟨fee, _, rfl, rfl, ?_, ?_⟩
    · rw [emit_events, chargesMade_append]; rfl
    · rw [emit_events, repliesSent_append]; simp [repliesSent]
  have hquiet : ∀ fee t, some (s.emit [Event.charge fee]) = some t →
      repliesSent t.events = repliesSent s.events := by
    intro fee t h
    cases h
    rw [emit_events, repliesSent_append]; simp [repliesSent]
  rw [hm]
  refine ⟨?_, ?_, ?_, ?_⟩
  · intro h; rw [h]
  · intro hl h ho; rw [h]; simp only [ho, if_true]
  · intro e he hr
    unfold fetchPackRefused at hr
    cases hh : getLedgerByHash s haveLedgerHash with
    | none => exact hcharge _
    | some hl =>
      rw [hh] at hr
      simp only
      by_cases ho : env.isOpen hl = true
      · rw [if_pos ho]; exact hcharge _
      · rw [if_neg ho, he]
        simp only
        by_cases hlt : hl.info.seq < e
        · rw [if_pos hlt]; exact hcharge _
        · rw [if_neg hlt]
          cases hp : getLedgerByHash s hl.info.parentHash with
          | none => exact hcharge _
          | some w =>
            simp only at hr
            rw [hp] at hr
            simp [ho, hlt] at hr
  · intro t ht hne
    cases hh : getLedgerByHash s haveLedgerHash with
    | none =>
      rw [hh] at ht
      exact absurd (hquiet _ _ ht) hne
    | some hl =>
      rw [hh] at ht
      simp only at ht
      by_cases ho : env.isOpen hl = true
      · rw [if_pos ho] at ht
        exact absurd (hquiet _ _ ht) hne
      · rw [if_neg ho] at ht
        cases he : getEarliestFetch env s with
        | none => rw [he] at ht; cases ht
        | some e =>
          rw [he] at ht
          simp only at ht
          refine ⟨e, rfl, ?_⟩
          by_cases hlt : hl.info.seq < e
          · rw [if_pos hlt] at ht
            exact absurd (hquiet _ _ ht) hne
          · rw [if_neg hlt] at ht
            cases hp : getLedgerByHash s hl.info.parentHash with
            | none =>
              rw [hp] at ht
              exact absurd (hquiet _ _ ht) hne
            | some w =>
              unfold fetchPackRefused
              rw [hh]
              simp [ho, hlt, hp]

theorem makeFetchPack_refusals_witness :
    (getLedgerByHash serveState 555 = none →
      makeFetchPack 512 serveEnv serveState 555 0
        = some (serveState.emit [.charge .feeRequestNoReply])) ∧
    (∀ t, makeFetchPack 512 serveEnv serveState 110 0 = some t →
      repliesSent t.events ≠ repliesSent serveState.events →
      ∃ e, getEarliestFetch serveEnv serveState = some e ∧
        fetchPackRefused serveEnv serveState 110 e = false) ∧
    (∃ t, makeFetchPack 512 serveEnv serveState 110 0 = some t ∧
      repliesSent t.events ≠ repliesSent serveState.events) :=
  ⟨(makeFetchPack_refusals 512 serveEnv serveState 555 0
      (by decide) rfl (by decide) rfl).1,
   (makeFetchPack_refusals 512 serveEnv serveState 110 0
      (by decide) rfl (by decide) rfl).2.2.2,
   by decide⟩

/-- Every contribution starts with the header, so it is never empty. -/
theorem contribution_pos (env : Env) (h w : Ledger) (added : List FPObject)
    (hc : makeFetchPack.contribution env h w = some added) : 1 ≤ added.length := by
  unfold makeFetchPack.contribution at hc
  cases hs : env.stateFetchPack w h 16384 with
  | none => rw [hs] at hc; cases hc
  | some nodes =>
    rw [hs] at hc
    simp only at hc
    by_cases ht : env.txHash w ≠ 0
    · rw [if_pos ht] at hc
      cases hx : env.txFetchPack w 512 with
      | none => rw [hx] at hc; cases hc
      | some txs =>
        rw [hx] at hc
        cases hc
        simp
    · rw [if_neg ht] at hc
      cases hc
      simp

/-- When the tree walks hand back no more nodes than asked, a contribution
holds at most 1 + 16384 + 512 objects. -/
theorem contribution_le (env : Env) (h w : Ledger) (added : List FPObject)
    (hsb : ∀ w hv nodes, env.stateFetchPack w hv 16384 = some nodes → nodes.length ≤ 16384)
    (htb : ∀ w txs, env.txFetchPack w 512 = some txs → txs.length ≤ 512)
    (hc : makeFetchPack.contribution env h w = some added) : added.length ≤ 16897 := by
  unfold makeFetchPack.contribution at hc
  cases hs : env.stateFetchPack w h 16384 with
  | none => rw [hs] at hc; cases hc
  | some nodes =>
    have b1 := hsb _ _ _ hs
    rw [hs] at hc
    simp only at hc
    by_cases ht : env.txHash w ≠ 0
    · rw [if_pos ht] at hc
      cases hx : env.txFetchPack w 512 with
      | none => rw [hx] at hc; cases hc
      | some txs =>
        have b2 := htb _ _ hx
        rw [hx] at hc
        cases hc
        simp
        omega
    · rw [if_neg ht] at hc
      cases hc
      simp
      omega

/-- A reply the loop hands back is fewer than 512 objects followed by the
contribution of one ledger. -/
theorem loop_shape (env : Env) (s : LedgerMaster) (uUptime : Nat) :
    ∀ (fuel turn : Nat) (h w : Ledger) (objects r : List FPObject),
      objects.length < 512 →
      makeFetchPack.loop env s uUptime fuel turn h w objects = some (some r) →
      ∃ pre added hv wv, r = pre ++ added ∧ pre.length < 512 ∧
        makeFetchPack.contribution env hv wv = some added := by
  intro fuel
  induction fuel with
  | zero => intro turn h w objects r _ hr; simp [makeFetchPack.loop] at hr
  | succ n ih =>
    intro turn h w objects r hlen hr
    unfold makeFetchPack.loop at hr
    cases hc : makeFetchPack.contribution env h w with
    | none => rw [hc] at hr; simp at hr
    | some added =>
      rw [hc] at hr
      simp only at hr
      by_cases hfull : (objects ++ added).length ≥ 512
      · rw [if_pos hfull] at hr
        simp only [Option.some.injEq] at hr
        exact ⟨objects, added, h, w, hr.symm, hlen, hc⟩
      · rw [if_neg hfull] at hr
        cases hp : getLedgerByHash s w.info.parentHash with
        | none =>
          rw [hp] at hr
          simp only [Option.some.injEq] at hr
          exact ⟨objects, added, h, w, hr.symm, hlen, hc⟩
        | some next =>
          rw [hp] at hr
          simp only at hr
          by_cases ht : env.elapsedSeconds (turn + 1) ≤ wrap32 (uUptime + 1)
          · rw [if_pos ht] at hr
            exact ih _ _ _ _ _ (by omega) hr
          · rw [if_neg ht] at hr
            simp only [Option.some.injEq] at hr
            exact ⟨objects, added, h, w, hr.symm, hlen, hc⟩

/-- The loop returns within 512 turns: each turn adds at least the header. -/
theorem loop_isSome (env : Env) (s : LedgerMaster) (uUptime : Nat) :
    ∀ (fuel turn : Nat) (h w : Ledger) (objects : List FPObject),
      objects.length < 512 → 512 ≤ fuel + objects.length →
      (makeFetchPack.loop env s uUptime fuel turn h w objects).isSome = true := by
  intro fuel
  induction fuel with
  | zero => intro turn h w objects h1 h2; omega
  | succ n ih =>
    intro turn h w objects hlen hfuel
    unfold makeFetchPack.loop
    cases hc : makeFetchPack.contribution env h w with
    | none => rfl
    | some added =>
      have hpos := contribution_pos env h w added hc
      simp only
      by_cases hfull : (objects ++ added).length ≥ 512
      · rw [if_pos hfull]; rfl
      · rw [if_neg hfull]
        cases hp : getLedgerByHash s w.info.parentHash with
        | none => rfl
        | some next =>
          simp only
          by_cases ht : env.elapsedSeconds (turn + 1) ≤ wrap32 (uUptime + 1)
          · rw [if_pos ht]
            have hl : (objects ++ added).length = objects.length + added.length :=
              List.length_append _ _
            exact ih _ _ _ _ (by omega) (by omega)
          · rw [if_neg ht]; rfl

/-- Claim C17, counterexample. The have ledger 10 and the want ledger 9 are
held, the state-tree walk hands back 600 nodes (fewer than the 16384 asked):
the one reply sent holds the header and the 600 nodes, 601 objects, since the
count is compared with 512 only after they were appended. -/
theorem makeFetchPack_reply_exceeds_512 :
    (makeFetchPack 512 bigStateEnv serveState 110 0).map
        (fun t => (repliesSent t.events).map List.length) = some [601] ∧
      (512 : Nat) < 601 := by
  set_option maxRecDepth 100000 in decide

/-- Claim C17, amended. With at least 512 turns of fuel and a closed ledger,
`makeFetchPack` returns; and a reply it sends is fewer than 512 objects
followed by the objects of one more ledger (its header, its state-tree nodes
and its transaction-tree nodes), hence at most 17408 objects when the tree
walks hand back no more nodes than asked. -/
theorem makeFetchPack_reply_size (fuel : Nat) (env : Env) (s : LedgerMaster)
    (haveLedgerHash : Hash) (uUptime : Nat)
    (hfuel : 512 ≤ fuel) (hclosed : s.mClosedLedger ≠ none)
    (hsb : ∀ w hv nodes, env.stateFetchPack w hv 16384 = some nodes → nodes.length ≤ 16384)
    (htb : ∀ w txs, env.txFetchPack w 512 = some txs → txs.length ≤ 512) :
    ∃ t, makeFetchPack fuel env s haveLedgerHash uUptime = some t ∧
      (repliesSent t.events = repliesSent s.events ∨
        ∃ pre added hv wv, repliesSent t.events = repliesSent s.events ++ [pre ++ added] ∧
          pre.length < 512 ∧
          makeFetchPack.contribution env hv wv = some added ∧
          (pre ++ added).length ≤ 17408) := by
  have hquiet : ∀ es : List Event, repliesSent es = [] →
      repliesSent (s.emit es).events = repliesSent s.events := by
    intro es h
    rw [emit_events, repliesSent_append, h, List.append_nil]
  unfold makeFetchPack
  split
  · exact ⟨s, rfl, Or.inl rfl⟩
  split
  · exact ⟨s, rfl, Or.inl rfl⟩
  split
  · exact ⟨s, rfl, Or.inl rfl⟩
  cases hh : getLedgerByHash s haveLedgerHash with
  | none => exact ⟨_, rfl, Or.inl (hquiet _ rfl)⟩
  | some hl =>
    simp only
    split
    · exact ⟨_, rfl, Or.inl (hquiet _ rfl)⟩
    cases he : getEarliestFetch env s with
    | none =>
      unfold getEarliestFetch at he
      cases hc : s.mClosedLedger with
      | none => exact absurd hc hclosed
      | some c => rw [hc] at he; cases he
    | some e =>
      simp only
      split
      · exact ⟨_, rfl, Or.inl (hquiet _ rfl)⟩
      cases hp : getLedgerByHash s hl.info.parentHash with
      | none => exact ⟨_, rfl, Or.inl (hquiet _ rfl)⟩
      | some w =>
        simp only
        have hsome := loop_isSome env s uUptime fuel 0 hl w [] (by decide)
          (by simp only [List.length_nil]; omega)
        cases hloop : makeFetchPack.loop env s uUptime fuel 0 hl w [] with
        | none => rw [hloop] at hsome; cases hsome
        | some res =>
          cases res with
          | none => exact ⟨s, rfl, Or.inl rfl⟩
          | some r =>
            refine ⟨_, rfl, Or.inr ?_⟩
            obtain ⟨pre, added, hv, wv, hr, hpre, hc⟩ :=
              loop_shape env s uUptime fuel 0 hl w [] r (by decide) hloop
            have hle := contribution_le env hv wv added hsb htb hc
            refine ⟨pre, added, hv, wv, ?_, hpre, hc, ?_⟩
            · rw [emit_events, repliesSent_append, hr]; rfl
            · rw [List.length_append]; omega

theorem makeFetchPack_reply_size_witness :
    ∃ t, makeFetchPack 512 bigStateEnv serveState 110 0 = some t ∧
      (repliesSent t.events = repliesSent serveState.events ∨
        ∃ pre added hv wv,
          repliesSent t.events = repliesSent serveState.events ++ [pre ++ added] ∧
          pre.length < 512 ∧
          makeFetchPack.contribution bigStateEnv hv wv = some added ∧
          (pre ++ added).length ≤ 17408) :=
  makeFetchPack_reply_size 512 bigStateEnv serveState 110 0 (by decide) (by decide)
    (by
      intro w hv nodes h
      have h2 : List.replicate 600 ((0 : Hash), ([] : Blob)) = nodes := Option.some.inj h
      rw [← h2, List.length_replicate]
      omega)
    (by
      intro w txs h
      have h2 : ([] : List (Hash × Blob)) = txs := Option.some.inj h
      rw [← h2]
      exact Nat.zero_le _)

/-! ### Fetch-pack requests (`getFetchPack(missingHash, missingIndex)`) -/

theorem requestsSent_append (a b : List Event) :
    requestsSent (a ++ b) = requestsSent a ++ requestsSent b := by
  simp [requestsSent, List.filterMap_append]

theorem walkAcquire_requests (env : Env) (s : LedgerMaster) (index : Nat)
    (refHash : Hash) (refIndex : Nat) :
    requestsSent (walkHashBySeq.acquire env s index refHash refIndex).state.events
      = requestsSent s.events := by
  have h : requestsSent (s.emit [.acquire refHash refIndex .fcGENERIC]).events
      = requestsSent s.events := by
    rw [emit_events, requestsSent_append]; simp [requestsSent]
  unfold walkHashBySeq.acquire
  cases env.acquire refHash refIndex with
  | none => exact h
  | some ledger =>
    simp only
    cases env.hashOfSeq ledger index with
    | none => exact h
    | some r => exact h

theorem walkHashBySeq_requests (env : Env) (s : LedgerMaster) (index : Nat)
    (ref : Option Ledger) :
    requestsSent (walkHashBySeq env s index ref).state.events = requestsSent s.events := by
  unfold walkHashBySeq
  cases ref with
  | none => rfl
  | some r =>
    simp only
    split
    · rfl
    · cases env.hashOfSeq r index with
      | none => rfl
      | some o =>
        cases o with
        | some h => rfl
        | none =>
          simp only
          cases env.hashOfSeq r (env.getCandidateLedger index) with
          | none => rfl
          | some o2 =>
            cases o2 with
            | none => rfl
            | some refHash =>
              simp only
              cases s.mLedgerHistory.getLedgerByHash refHash with
              | none => exact walkAcquire_requests env s index refHash _
              | some ledger =>
                simp only
                cases env.hashOfSeq ledger index with
                | none => exact walkAcquire_requests env s index refHash _
                | some lh => rfl

theorem getLedgerHashForHistory_requests (env : Env) (s : LedgerMaster) (index : Nat) :
    requestsSent (getLedgerHashForHistory env s index).state.events
      = requestsSent s.events := by
  unfold getLedgerHashForHistory
  cases s.mHistLedger with
  | none => exact walkHashBySeq_requests env s index _
  | some hist =>
    simp only
    split
    · cases env.hashOfSeq hist index with
      | none => rfl
      | some o =>
        cases o with
        | some h => rfl
        | none =>
          simp only
          have hw := walkHashBySeq_requests env s index (some hist)
          cases hr : walkHashBySeq env s index (some hist) with
          | threw t => rw [hr] at hw; exact hw
          | ok v t =>
            rw [hr] at hw
            cases v with
            | some h => exact hw
            | none =>
              simp only
              rw [walkHashBySeq_requests env t index _]
              exact hw
    · exact walkHashBySeq_requests env s index _

/-- A peer picked by the selection loop is the target it started with or a
peer of the list that has the range. -/
theorem selectPeer_mem (missingIndex : Nat) :
    ∀ (peers : List Peer) (target : Option Peer) (maxScore : Int) (p : Peer),
      selectPeer missingIndex peers target maxScore = some p →
      target = some p ∨
        (p ∈ peers ∧ p.hasRange missingIndex (wrap32 (missingIndex + 1)) = true) := by
  intro peers
  induction peers with
  | nil => intro target maxScore p h; exact Or.inl h
  | cons peer rest ih =>
    intro target maxScore p h
    unfold selectPeer at h
    by_cases hr : peer.hasRange missingIndex (wrap32 (missingIndex + 1)) = true
    · rw [if_pos hr] at h
      split at h
      · rcases ih _ _ _ h with h1 | h1
        · cases h1
          exact Or.inr ⟨List.mem_cons_self _ _, hr⟩
        · exact Or.inr ⟨List.mem_cons_of_mem _ h1.1, h1.2⟩
      · rcases ih _ _ _ h with h1 | h1
        · exact Or.inl h1
        · exact Or.inr ⟨List.mem_cons_of_mem _ h1.1, h1.2⟩
    · rw [if_neg hr] at h
      rcases ih _ _ _ h with h1 | h1
      · exact Or.inl h1
      · exact Or.inr ⟨List.mem_cons_of_mem _ h1.1, h1.2⟩

/-- Claim C18, counterexample. The valid ledger has sequence 20 and the chain
gives hash 1010 to sequence 10 and 1011 to sequence 11. The call
`getFetchPack(1010, 10)` sends one request, and it names 1011, the hash of
sequence 11, not the missing hash 1010. -/
theorem getFetchPackRequest_names_next_hash :
    requestEnv.hashOfSeq (mkLedger 20 1020 1019 0) 10 = some (some 1010) ∧
    requestsSent (getFetchPackRequest requestEnv requestState 1010 10).state.events
      = [(1, 1011)] := by
  decide

/-- Claim C18, amended. The call `getFetchPack(missingHash, missingIndex)` does
not depend on `missingHash`; it sends at most one request, to an active peer
that has the range `missingIndex` to `missingIndex + 1`, and the ledger hash
the request names is the one `getLedgerHashForHistory(missingIndex + 1)`
returned, the hash of the ledger that follows the missing one. -/
theorem getFetchPackRequest_names_have_hash (env : Env) (s : LedgerMaster)
    (missingHash : Hash) (missingIndex : Nat) :
    (∀ other, getFetchPackRequest env s other missingIndex
      = getFetchPackRequest env s missingHash missingIndex) ∧
    (requestsSent (getFetchPackRequest env s missingHash missingIndex).state.events
        = requestsSent s.events ∨
      ∃ peer haveHash t, peer ∈ env.activePeers ∧
        peer.hasRange missingIndex (wrap32 (missingIndex + 1)) = true ∧
        getLedgerHashForHistory env s (wrap32 (missingIndex + 1)) = .ok (some haveHash) t ∧
        requestsSent (getFetchPackRequest env s missingHash missingIndex).state.events
          = requestsSent s.events ++ [(peer.id, haveHash)]) := by
  refine ⟨fun _ => rfl, ?_⟩
  have hq := getLedgerHashForHistory_requests env s (wrap32 (missingIndex + 1))
  unfold getFetchPackRequest
  cases hh : getLedgerHashForHistory env s (wrap32 (missingIndex + 1)) with
  | threw t => rw [hh] at hq; exact Or.inl hq
  | ok v t =>
    rw [hh] at hq
    cases v with
    | none => exact Or.inl hq
    | some haveHash =>
      simp only
      cases hp : selectPeer missingIndex env.activePeers none 0 with
      | none => exact Or.inl hq
      | some target =>
        refine Or.inr ⟨target, haveHash, t, ?_, ?_, rfl, ?_⟩
        · rcases selectPeer_mem missingIndex _ _ _ _ hp with h1 | h1
          · cases h1
          · exact h1.1
        · rcases selectPeer_mem missingIndex _ _ _ _ hp with h1 | h1
          · cases h1
          · exact h1.2
        · show requestsSent (t.emit [.sendFetchPackRequest target.id haveHash]).events = _
          rw [emit_events, requestsSent_append]
          have hq2 : requestsSent t.events = requestsSent s.events := hq
          rw [hq2]
          rfl

/-! ### History acquisition in `doAdvance` -/

/-- The direct acquisition of `doAdvance` is guarded: for a hash that is not in
the ledger cache and for which the acquisition service reports a failure, it
leaves the state, and with it the list of acquisition requests, untouched. -/
theorem resolve_skips_failed (env : Env) (s : LedgerMaster) (hash : Hash) (missing : Nat)
    (hf : env.isFailure hash = true) :
    (doAdvance.resolve env s hash missing).state = s := by
  unfold doAdvance.resolve
  cases getLedgerByHash s hash with
  | some ledger => rfl
  | none => simp only [hf]; rfl

/-- Claim C19, failing input. The node is in sync at ledger 100, sequence 99 is
missing, its history hash is 1099 and the acquisition service reports a failure
for 1099. The Advance pass skips the guarded acquisition, finds no ledger, and
its prefetch loop then requests acquisition of hash 1099 at sequence 99. -/
theorem doAdvance_prefetch_acquires_failed :
    failEnv.isFailure 1099 = true ∧
    failState.mCompleteLedgers.prevMissing 100 = some 99 ∧
    (getLedgerHashForHistory failEnv failState 99).value? = some (some 1099) ∧
    acquiresMade failState.events = [] ∧
    (doAdvance 10 [failEnv] failState).map (fun r => acquiresMade r.state.events)
      = some [(1099, 99, AcquireReason.fcHISTORY)] := by
  set_option maxRecDepth 100000 in decide

/-! ### Scheduling of Advance passes -/

section scheduling

theorem advanceJobs_append (a b : List Event) :
    advanceJobs (a ++ b) = advanceJobs a + advanceJobs b := by
  unfold advanceJobs
  exact List.countP_append _ _ _

theorem sched_emit (s : LedgerMaster) (es : List Event) :
    sched (s.emit es) = (s.mAdvanceThread, advanceJobs s.events + advanceJobs es) := by
  unfold sched
  rw [emit_events, advanceJobs_append]
  rfl

theorem sched_emit_quiet (s : LedgerMaster) (es : List Event) (h : advanceJobs es = 0) :
    sched (s.emit es) = sched s := by
  rw [sched_emit, h]
  rfl

theorem sched_of_onlyComplete {s t : LedgerMaster} (h : OnlyComplete s t) :
    sched t = sched s := by
  obtain ⟨c, rfl⟩ := h
  rfl

theorem setValidLedger_sched (env : Env) (s : LedgerMaster) (l : Ledger) :
    sched (setValidLedger env s l) = sched s := by
  simp only [setValidLedger]
  split <;> simp [sched, LedgerMaster.emit, advanceJobs]

theorem setPubLedger_sched (s : LedgerMaster) (l : Ledger) :
    sched (setPubLedger s l) = sched s := rfl

theorem record_sched (env : Env) (s : LedgerMaster) (ledger : Ledger)
    (isSynchronous isCurrent : Bool) :
    sched (setFullLedger.record env s ledger isSynchronous isCurrent) = sched s := by
  unfold setFullLedger.record
  cases isCurrent <;>
    (dsimp only; split <;> simp [sched, LedgerMaster.emit, clearLedger, advanceJobs])

theorem pointers_sched (env : Env) (s : LedgerMaster) (ledger : Ledger) :
    sched (setFullLedger.pointers env s ledger) = sched s := by
  unfold setFullLedger.pointers
  dsimp only
  split
  · split
    · rw [sched_emit_quiet _ _ (by rfl), setPubLedger_sched, setValidLedger_sched]
    · exact setValidLedger_sched env s ledger
  · split
    · rw [sched_emit_quiet _ _ (by rfl), setPubLedger_sched]
    · rfl

theorem setFullLedger_sched (env : Env) (s : LedgerMaster) (ledger : Ledger)
    (isSynchronous isCurrent : Bool) :
    sched (setFullLedger env s ledger isSynchronous isCurrent) = sched s := by
  rw [sched_of_onlyComplete (setFullLedger_onlyComplete env s ledger isSynchronous isCurrent),
    pointers_sched, record_sched]

theorem publishOne_sched (env : Env) (s : LedgerMaster) (l : Ledger) :
    sched (publishOne env s l) = sched s := by
  unfold publishOne
  dsimp only
  rw [sched_emit_quiet _ _ (by rfl), setPubLedger_sched, setFullLedger_sched]

theorem publishLedgers_sched (env : Env) :
    ∀ (pubLedgers : List Ledger) (s : LedgerMaster),
      sched (publishLedgers env s pubLedgers) = sched s := by
  intro pubLedgers
  induction pubLedgers with
  | nil => intro s; rfl
  | cons l rest ih =>
    intro s
    show sched (publishLedgers env (publishOne env s l) rest) = _
    rw [ih, publishOne_sched]

theorem findLoop_jobs (env : Env) (hist : LedgerHistory) (valLedger : Ledger) (valSeq : Nat) :
    ∀ (fuel seq pubSeq : Nat) (acqCount : Int) (ret : List Ledger) (evs : List Event)
      (r : List Ledger) (e : List Event),
      findLoop env hist valLedger valSeq fuel seq pubSeq acqCount ret evs = some (r, e) →
      advanceJobs e = advanceJobs evs := by
  intro fuel
  induction fuel with
  | zero =>
    intro seq pubSeq acqCount ret evs r e h
    simp [findLoop] at h
  | succ f ih =>
    intro seq pubSeq acqCount ret evs r e h
    unfold findLoop at h
    have hev : ∀ (b : Bool) (hash : Hash),
        advanceJobs (if b = true then evs ++ [Event.acquire hash seq .fcGENERIC] else evs)
          = advanceJobs evs := by
      intro b hash
      cases b <;> simp [advanceJobs]
    by_cases hs : seq ≤ valSeq
    · rw [if_pos hs] at h
      split at h
      · simp only [Option.some.injEq, Prod.mk.injEq] at h
        rw [h.2]
      · dsimp only at h
        split at h
        · split at h
          · exact (ih _ _ _ _ _ _ _ h).trans (hev _ _)
          · exact (ih _ _ _ _ _ _ _ h).trans (hev _ _)
        · exact (ih _ _ _ _ _ _ _ h).trans (hev _ _)
    · rw [if_neg hs] at h
      simp only [Option.some.injEq, Prod.mk.injEq] at h
      rw [h.2]

theorem findNew_sched (fuel : Nat) (env : Env) (s s1 : LedgerMaster) (ret : List Ledger)
    (h : findNewLedgersToPublish fuel env s = some (ret, s1)) :
    sched s1 = sched s := by
  unfold findNewLedgersToPublish at h
  split at h
  · simp only [Option.some.injEq, Prod.mk.injEq] at h
    rw [← h.2]
  · split at h
    · simp only [Option.some.injEq, Prod.mk.injEq] at h
      rw [← h.2]
    · split at h
      · simp only [Option.some.injEq, Prod.mk.injEq] at h
        rw [← h.2, sched_emit_quiet _ _ (by rfl), setPubLedger_sched]
      · split at h
        · simp only [Option.some.injEq, Prod.mk.injEq] at h
          rw [← h.2]
        · dsimp only at h
          split at h
          · rename_i r evs heq
            simp only [Option.some.injEq, Prod.mk.injEq] at h
            rw [← h.2]
            have hj := findLoop_jobs _ _ _ _ _ _ _ _ _ _ _ _ heq
            unfold sched
            rw [show ({ s with events := evs } : LedgerMaster).events = evs from rfl, hj]
          · cases h

theorem walkAcquire_sched (env : Env) (s : LedgerMaster) (index : Nat)
    (refHash : Hash) (refIndex : Nat) :
    sched (walkHashBySeq.acquire env s index refHash refIndex).state = sched s := by
  have h : sched (s.emit [.acquire refHash refIndex .fcGENERIC]) = sched s :=
    sched_emit_quiet _ _ (by rfl)
  unfold walkHashBySeq.acquire
  cases env.acquire refHash refIndex with
  | none => exact h
  | some ledger =>
    simp only
    cases env.hashOfSeq ledger index with
    | none => exact h
    | some r => exact h

theorem walkHashBySeq_sched (env : Env) (s : LedgerMaster) (index : Nat)
    (ref : Option Ledger) :
    sched (walkHashBySeq env s index ref).state = sched s := by
  unfold walkHashBySeq
  cases ref with
  | none => rfl
  | some r =>
    simp only
    split
    · rfl
    · cases env.hashOfSeq r index with
      | none => rfl
      | some o =>
        cases o with
        | some h => rfl
        | none =>
          simp only
          cases env.hashOfSeq r (env.getCandidateLedger index) with
          | none => rfl
          | some o2 =>
            cases o2 with
            | none => rfl
            | some refHash =>
              simp only
              cases s.mLedgerHistory.getLedgerByHash refHash with
              | none => exact walkAcquire_sched env s index refHash _
              | some ledger =>
                simp only
                cases env.hashOfSeq ledger index with
                | none => exact walkAcquire_sched env s index refHash _
                | some lh => rfl

theorem getLedgerHashForHistory_sched (env : Env) (s : LedgerMaster) (index : Nat) :
    sched (getLedgerHashForHistory env s index).state = sched s := by
  unfold getLedgerHashForHistory
  cases s.mHistLedger with
  | none => exact walkHashBySeq_sched env s index _
  | some hist =>
    simp only
    split
    · cases env.hashOfSeq hist index with
      | none => rfl
      | some o =>
        cases o with
        | some h => rfl
        | none =>
          simp only
          have hw := walkHashBySeq_sched env s index (some hist)
          cases hr : walkHashBySeq env s index (some hist) with
          | threw t => rw [hr] at hw; exact hw
          | ok v t =>
            rw [hr] at hw
            cases v with
            | some h => exact hw
            | none =>
              simp only
              rw [walkHashBySeq_sched env t index _]
              exact hw
    · exact walkHashBySeq_sched env s index _

theorem getFetchPackRequest_sched (env : Env) (s : LedgerMaster) (missingHash : Hash)
    (missingIndex : Nat) :
    sched (getFetchPackRequest env s missingHash missingIndex).state = sched s := by
  have hq := getLedgerHashForHistory_sched env s (wrap32 (missingIndex + 1))
  unfold getFetchPackRequest
  cases hh : getLedgerHashForHistory env s (wrap32 (missingIndex + 1)) with
  | threw t => rw [hh] at hq; exact hq
  | ok v t =>
    rw [hh] at hq
    cases v with
    | none => exact hq
    | some haveHash =>
      simp only
      cases selectPeer missingIndex env.activePeers none 0 with
      | none => exact hq
      | some target =>
        show sched (t.emit [.sendFetchPackRequest target.id haveHash]) = _
        rw [sched_emit_quiet _ _ (by rfl)]
        exact hq

theorem prefetch_sched (env : Env) (missing : Nat) :
    ∀ (n i : Nat) (s : LedgerMaster),
      sched (doAdvance.prefetch env missing n i s) = sched s := by
  intro n
  induction n with
  | zero => intro i s; rfl
  | succ k ih =>
    intro i s
    unfold doAdvance.prefetch
    dsimp only
    split
    · exact ih _ _
    · have hq := getLedgerHashForHistory_sched env s
        (wrap32 (missing + 4294967296 - i % 4294967296))
      cases hh : getLedgerHashForHistory env s
          (wrap32 (missing + 4294967296 - i % 4294967296)) with
      | threw t => rw [hh] at hq; exact hq
      | ok v t =>
        rw [hh] at hq
        cases v with
        | none => exact (ih _ _).trans hq
        | some hash2 =>
          refine (ih _ _).trans ?_
          rw [sched_emit_quiet _ _ (by rfl)]
          exact hq

theorem resolve_sched (env : Env) (s : LedgerMaster) (hash : Hash) (missing : Nat) :
    sched (doAdvance.resolve env s hash missing).state = sched s := by
  unfold doAdvance.resolve
  cases getLedgerByHash s hash with
  | some ledger => rfl
  | none =>
    simp only
    split
    · have h1 : sched (s.emit [.acquire hash missing .fcHISTORY]) = sched s :=
        sched_emit_quiet _ _ (by rfl)
      cases env.acquire hash missing with
      | some ledger => exact h1
      | none =>
        simp only
        split
        · have hq := getFetchPackRequest_sched env
            { s.emit [.acquire hash missing .fcHISTORY] with fetch_seq_ := missing }
            hash missing
          cases hg : getFetchPackRequest env
              { s.emit [.acquire hash missing .fcHISTORY] with fetch_seq_ := missing }
              hash missing with
          | ok v t => rw [hg] at hq; exact hq.trans h1
          | threw t => rw [hg] at hq; exact hq.trans h1
        · exact h1
    · rfl

theorem history_sched (env : Env) (s : LedgerMaster) (missing : Nat) :
    sched (doAdvance.history env s missing).state = sched s := by
  have hq := getLedgerHashForHistory_sched env s missing
  unfold doAdvance.history
  cases hh : getLedgerHashForHistory env s missing with
  | threw t => rw [hh] at hq; exact hq
  | ok v t =>
    rw [hh] at hq
    have hq1 : sched t = sched s := hq
    cases v with
    | none => exact hq1
    | some hash =>
      simp only
      have hr := resolve_sched env t hash missing
      cases hres : doAdvance.resolve env t hash missing with
      | threw t1 => rw [hres] at hr; exact hr.trans hq1
      | ok o t1 =>
        rw [hres] at hr
        have hr1 : sched t1 = sched t := hr
        cases o with
        | none => exact (prefetch_sched env missing _ _ _).trans (hr1.trans hq1)
        | some ledger =>
          have hf : sched (setFullLedger env t1 ledger false false) = sched s :=
            (setFullLedger_sched env t1 ledger false false).trans (hr1.trans hq1)
          simp only
          split
          · show sched (LedgerMaster.emit _ _) = _
            rw [sched_emit_quiet _ _ (by rfl)]
            exact hf
          · exact hf

theorem newPFWork_sched (env : Env) (s : LedgerMaster) :
    sched (newPFWork env s).2 = sched s := by
  unfold newPFWork
  dsimp only
  split
  · split
    · exact sched_emit_quiet _ _ (by rfl)
    · rfl
  · rfl

theorem turn_sched (fuel : Nat) (env : Env) (s : LedgerMaster) (r : Outcome Bool)
    (h : doAdvance.turn fuel env s = some r) : sched r.state = sched s := by
  unfold doAdvance.turn at h
  cases hf : findNewLedgersToPublish fuel env { s with mAdvanceWork := false } with
  | none => rw [hf] at h; cases h
  | some res =>
    obtain ⟨pubLedgers, s1⟩ := res
    have h1 : sched s1 = sched s :=
      findNew_sched fuel env { s with mAdvanceWork := false } s1 pubLedgers hf
    rw [hf] at h
    simp only at h
    split at h
    · split at h
      · cases hp : s1.mPubLedger with
        | none => rw [hp] at h; cases h
        | some pub =>
          rw [hp] at h
          simp only at h
          cases hm : s1.mCompleteLedgers.prevMissing pub.info.seq with
          | none =>
            rw [hm] at h
            cases h
            exact h1
          | some missing =>
            rw [hm] at h
            simp only at h
            split at h
            · have hh := history_sched env s1 missing
              cases hr : doAdvance.history env s1 missing with
              | threw t =>
                rw [hr] at h hh
                cases h
                exact hh.trans h1
              | ok progress t =>
                rw [hr] at h hh
                cases h
                exact hh.trans h1
            · cases h
              exact h1
      · cases h
        exact h1
    · cases h
      show sched (newPFWork env _).2 = _
      rw [newPFWork_sched, sched_emit_quiet _ _ (by rfl), publishLedgers_sched]
      exact h1

theorem turnState_sched (fuel : Nat) (env : Env) (s t : LedgerMaster)
    (h : doAdvance.turnState fuel env s = some t) : sched t = sched s := by
  unfold doAdvance.turnState at h
  cases ht : doAdvance.turn fuel env s with
  | none => rw [ht] at h; cases h
  | some r =>
    have hs := turn_sched fuel env s r ht
    rw [ht] at h
    cases r with
    | threw t1 =>
      cases h
      exact hs
    | ok progress t1 =>
      simp only [Option.some.injEq] at h
      rw [← h]
      split
      · exact hs
      · exact hs

theorem doAdvance_sched (fuel : Nat) :
    ∀ (envs : List Env) (s : LedgerMaster) (r : Outcome Unit),
      doAdvance fuel envs s = some r → sched r.state = sched s := by
  intro envs
  induction envs with
  | nil => intro s r h; simp [doAdvance] at h
  | cons env rest ih =>
    intro s r h
    unfold doAdvance at h
    cases ht : doAdvance.turn fuel env s with
    | none => rw [ht] at h; cases h
    | some o =>
      have hs := turn_sched fuel env s o ht
      rw [ht] at h
      cases o with
      | threw t =>
        cases h
        exact hs
      | ok progress t =>
        have hs1 : sched t = sched s := hs
        cases progress with
        | true =>
          have h2 : doAdvance fuel rest { t with mAdvanceWork := true } = some r := h
          exact (ih _ _ h2).trans hs1
        | false =>
          have h2 : (if t.mAdvanceWork = true then doAdvance fuel rest t
              else some (Outcome.ok () t)) = some r := h
          by_cases hw : t.mAdvanceWork = true
          · rw [if_pos hw] at h2
            exact (ih _ _ h2).trans hs1
          · rw [if_neg hw] at h2
            cases h2
            exact hs1

/-- A run of `advanceThread` clears the flag and hands no advance job to the
job queue. -/
theorem advanceThread_sched (fuel : Nat) (envs : List Env) (s t : LedgerMaster)
    (h : advanceThread fuel envs s = some t) :
    t.mAdvanceThread = false ∧ advanceJobs t.events = advanceJobs s.events := by
  unfold advanceThread at h
  cases hd : doAdvance fuel envs s with
  | none => rw [hd] at h; cases h
  | some r =>
    have hs := doAdvance_sched fuel envs s r hd
    rw [hd] at h
    cases h
    exact ⟨rfl, congrArg Prod.snd hs⟩

theorem SchedOk.same {s t : LedgerMaster} (h : sched t = sched s) : SchedOk s t :=
  Or.inl h

theorem SchedOk.from_same {s s1 t : LedgerMaster} (h : sched s1 = sched s)
    (h1 : SchedOk s1 t) : SchedOk s t := by
  have ha : s1.mAdvanceThread = s.mAdvanceThread := congrArg Prod.fst h
  have hb : advanceJobs s1.events = advanceJobs s.events := congrArg Prod.snd h
  rcases h1 with h1 | ⟨h1, h2, h3⟩
  · exact Or.inl (h1.trans h)
  · exact Or.inr ⟨ha ▸ h1, h2, hb ▸ h3⟩

theorem SchedOk.then_same {s t t1 : LedgerMaster} (h1 : SchedOk s t)
    (h : sched t1 = sched t) : SchedOk s t1 := by
  have ha : t1.mAdvanceThread = t.mAdvanceThread := congrArg Prod.fst h
  have hb : advanceJobs t1.events = advanceJobs t.events := congrArg Prod.snd h
  rcases h1 with h1 | ⟨h1, h2, h3⟩
  · exact Or.inl (h.trans h1)
  · exact Or.inr ⟨h1, ha.trans h2, hb.trans h3⟩

theorem SchedOk.chain {s t u : LedgerMaster} (h1 : SchedOk s t) (h2 : SchedOk t u) :
    SchedOk s u := by
  rcases h2 with h2 | ⟨h2, h3, h4⟩
  · exact h1.then_same h2
  · rcases h1 with h1 | ⟨_, h5, _⟩
    · exact SchedOk.from_same h1 (Or.inr ⟨h2, h3, h4⟩)
    · rw [h5] at h2
      cases h2

theorem tryAdvance_schedOk (s : LedgerMaster) : SchedOk s (tryAdvance s) := by
  unfold tryAdvance
  dsimp only
  split
  · rename_i hc
    refine Or.inr ⟨?_, rfl, ?_⟩
    · cases hf : s.mAdvanceThread with
      | false => rfl
      | true => rw [hf] at hc; simp at hc
    · rw [emit_events, advanceJobs_append]
      rfl
  · exact Or.inl rfl

theorem checkAccept_schedOk (env : Env) (s : LedgerMaster) (ledger : Ledger) :
    SchedOk s (checkAccept env s ledger) := by
  by_cases hc : s.mValidLedgerSeq < ledger.info.seq ∧
        getNeededValidations env ≤ env.numTrustedForLedger ledger.info.hash
  · have h1 : ¬ ledger.info.seq ≤ s.mValidLedgerSeq := by omega
    have h2 : ¬ env.numTrustedForLedger ledger.info.hash < getNeededValidations env := by omega
    unfold checkAccept
    simp only [h1, h2, if_false]
    refine SchedOk.from_same ?_ (tryAdvance_schedOk _)
    rw [sched_emit_quiet _ _ (by rfl)]
    split
    · rw [sched_emit_quiet _ _ (by rfl), setPubLedger_sched, sched_emit_quiet _ _ (by rfl),
        setValidLedger_sched]
      rfl
    · rw [setValidLedger_sched]
      rfl
  · rw [checkAccept_reject env s ledger hc]
    exact Or.inl rfl

theorem resolve_schedOk (env : Env) (s : LedgerMaster) (hash : Hash) (seq valCount : Nat) :
    SchedOk s (checkAcceptHash.resolve env s hash seq valCount) := by
  unfold checkAcceptHash.resolve
  cases s.mLedgerHistory.getLedgerByHash hash with
  | some ledger => exact checkAccept_schedOk env s ledger
  | none =>
    simp only
    have h1 : sched ((if seq ≠ 0 ∧ s.mValidLedgerSeq = 0 then
          if valCount ≥ env.quorum then s.emit [.checkSanity seq] else s
        else s).emit [.acquire hash 0 .fcGENERIC]) = sched s := by
      rw [sched_emit_quiet _ _ (by rfl)]
      split
      · split
        · exact sched_emit_quiet _ _ (by rfl)
        · rfl
      · rfl
    cases env.acquire hash 0 with
    | some ledger => exact SchedOk.from_same h1 (checkAccept_schedOk env _ ledger)
    | none => exact Or.inl h1

theorem checkAcceptHash_schedOk (env : Env) (s : LedgerMaster) (hash : Hash) (seq : Nat) :
    SchedOk s (checkAcceptHash env s hash seq) := by
  unfold checkAcceptHash
  split
  · split
    · exact Or.inl rfl
    · dsimp only
      have key : ∀ s1 : LedgerMaster, sched s1 = sched s →
          SchedOk s (if seq = s1.mValidLedgerSeq then s1
            else if seq = s1.mBuildingLedgerSeq then s1
            else checkAcceptHash.resolve env s1 hash seq (env.numTrustedForLedger hash)) := by
        intro s1 hs1
        split
        · exact Or.inl hs1
        · split
          · exact Or.inl hs1
          · exact SchedOk.from_same hs1 (resolve_schedOk env _ hash seq _)
      apply key
      split
      · split
        · rfl
        · rfl
      · rfl
  · exact resolve_schedOk env s hash seq 0

theorem consensusBuilt_schedOk (env : Env) (s : LedgerMaster) (ledger : Ledger) :
    SchedOk s (consensusBuilt env s ledger) := by
  have h2 : sched ((setBuildingLedger s 0).emit [.builtLedger ledger]) = sched s :=
    sched_emit_quiet _ _ (by rfl)
  unfold consensusBuilt
  dsimp only
  split
  · exact Or.inl rfl
  · split
    · exact Or.inl h2
    · have h3 := SchedOk.from_same h2 (checkAccept_schedOk env _ ledger)
      split
      · exact h3
      · split
        · exact h3.chain (checkAcceptHash_schedOk env _ _ _)
        · exact h3

theorem tryFill_schedOk (env : Env) (job : Job) (s : LedgerMaster) (ledger : Ledger) :
    SchedOk s (tryFill env job s ledger) := by
  unfold tryFill
  split
  · exact Or.inl rfl
  · exact SchedOk.from_same (by rfl) (tryAdvance_schedOk _)

/-- Whatever the job queue answers, a step keeps the number of advance jobs
at most 1, and at 0 while `mAdvanceThread` is false. -/
theorem step_count_le {c c1 : LedgerMaster × Nat} (step : SchedStep)
    (hinv : c.2 ≤ if c.1.mAdvanceThread then 1 else 0)
    (hrun : step.run c = some c1) :
    c1.2 ≤ if c1.1.mAdvanceThread then 1 else 0 := by
  obtain ⟨s, n⟩ := c
  have hop : ∀ (q : Bool) (t : LedgerMaster), SchedOk s t →
      n + jobsAdded q s t ≤ if t.mAdvanceThread then 1 else 0 := by
    intro q t hok
    unfold jobsAdded
    rcases hok with h | ⟨h1, h2, h3⟩
    · have ha : t.mAdvanceThread = s.mAdvanceThread := congrArg Prod.fst h
      have hb : advanceJobs t.events = advanceJobs s.events := congrArg Prod.snd h
      rw [ha, hb, Nat.sub_self]
      cases q <;> exact hinv
    · have hn : n = 0 := by
        have h5 : n ≤ if s.mAdvanceThread = true then 1 else 0 := hinv
        rw [h1] at h5
        simpa using h5
      rw [h2, h3, hn]
      cases q <;> simp
  have hflag : n ≠ 0 → n = 1 ∧ s.mAdvanceThread = true := by
    intro hn
    have := hinv
    dsimp only at this
    cases hf : s.mAdvanceThread with
    | true =>
      rw [hf] at this
      simp only [if_true] at this
      exact ⟨by omega, rfl⟩
    | false =>
      rw [hf] at this
      simp only [Bool.false_eq_true, if_false] at this
      omega
  cases step with
  | tryAdvance env =>
    cases hrun
    exact hop _ _ (tryAdvance_schedOk s)
  | checkAccept env ledger =>
    cases hrun
    exact hop _ _ (checkAccept_schedOk env s ledger)
  | checkAcceptHash env hash seq =>
    cases hrun
    exact hop _ _ (checkAcceptHash_schedOk env s hash seq)
  | setFullLedger env ledger isSynchronous isCurrent =>
    cases hrun
    exact hop _ _ (Or.inl (setFullLedger_sched env s ledger isSynchronous isCurrent))
  | consensusBuilt env ledger =>
    cases hrun
    exact hop _ _ (consensusBuilt_schedOk env s ledger)
  | tryFill env job ledger =>
    cases hrun
    exact hop _ _ (tryFill_schedOk env job s ledger)
  | passTurn fuel env =>
    unfold SchedStep.run at hrun
    dsimp only at hrun
    by_cases hn : n = 0
    · rw [if_pos hn] at hrun; cases hrun
    · rw [if_neg hn] at hrun
      cases ht : doAdvance.turnState fuel env s with
      | none => rw [ht] at hrun; cases hrun
      | some t =>
        rw [ht] at hrun
        cases hrun
        exact hop _ _ (Or.inl (turnState_sched fuel env s t ht))
  | passEnd =>
    unfold SchedStep.run at hrun
    dsimp only at hrun
    by_cases hn : n = 0
    · rw [if_pos hn] at hrun; cases hrun
    · rw [if_neg hn] at hrun
      cases hrun
      have h1 := (hflag hn).1
      show n - 1 ≤ 0
      omega
  | advanceThread fuel envs =>
    unfold SchedStep.run at hrun
    dsimp only at hrun
    by_cases hn : n = 0
    · rw [if_pos hn] at hrun; cases hrun
    · rw [if_neg hn] at hrun
      cases ht : advanceThread fuel envs s with
      | none => rw [ht] at hrun; cases hrun
      | some t =>
        rw [ht] at hrun
        cases hrun
        obtain ⟨ha, hb⟩ := advanceThread_sched fuel envs s t ht
        have h1 := (hflag hn).1
        show n - 1 + jobsAdded true s t ≤ if t.mAdvanceThread then 1 else 0
        unfold jobsAdded
        rw [ha, hb]
        simp
        omega

/-- A step during which the job queue accepts the jobs handed to it keeps the
number of advance jobs equal to 1 or 0 according to `mAdvanceThread`. -/
theorem step_keeps_count {c c1 : LedgerMaster × Nat} (step : SchedStep)
    (hq : step.queueAccepts = true)
    (hinv : c.2 = if c.1.mAdvanceThread then 1 else 0)
    (hrun : step.run c = some c1) :
    c1.2 = if c1.1.mAdvanceThread then 1 else 0 := by
  obtain ⟨s, n⟩ := c
  have hop : ∀ t : LedgerMaster, SchedOk s t →
      n + jobsAdded true s t = if t.mAdvanceThread then 1 else 0 := by
    intro t hok
    unfold jobsAdded
    rw [if_pos rfl]
    rcases hok with h | ⟨h1, h2, h3⟩
    · have ha : t.mAdvanceThread = s.mAdvanceThread := congrArg Prod.fst h
      have hb : advanceJobs t.events = advanceJobs s.events := congrArg Prod.snd h
      rw [ha, hb, Nat.sub_self, Nat.add_zero]
      exact hinv
    · have hn : n = 0 := by
        have := hinv
        simp only [h1] at this
        exact this
      rw [h2, h3, hn]
      simp
  have hflag : n ≠ 0 → n = 1 := by
    intro hn
    have := hinv
    dsimp only at this
    split at this
    · exact this
    · exact absurd this hn
  cases step with
  | tryAdvance env =>
    have hq1 : env.addJobAdvanceLedger = true := hq
    have hrun2 : some (tryAdvance s,
        n + jobsAdded env.addJobAdvanceLedger s (tryAdvance s)) = some c1 := hrun
    rw [hq1] at hrun2
    cases hrun2
    exact hop _ (tryAdvance_schedOk s)
  | checkAccept env ledger =>
    have hq1 : env.addJobAdvanceLedger = true := hq
    have hrun2 : some (checkAccept env s ledger,
        n + jobsAdded env.addJobAdvanceLedger s (checkAccept env s ledger)) = some c1 := hrun
    rw [hq1] at hrun2
    cases hrun2
    exact hop _ (checkAccept_schedOk env s ledger)
  | checkAcceptHash env hash seq =>
    have hq1 : env.addJobAdvanceLedger = true := hq
    have hrun2 : some (checkAcceptHash env s hash seq,
        n + jobsAdded env.addJobAdvanceLedger s (checkAcceptHash env s hash seq)) = some c1 := hrun
    rw [hq1] at hrun2
    cases hrun2
    exact hop _ (checkAcceptHash_schedOk env s hash seq)
  | setFullLedger env ledger isSynchronous isCurrent =>
    have hq1 : env.addJobAdvanceLedger = true := hq
    have hrun2 : some (setFullLedger env s ledger isSynchronous isCurrent,
        n + jobsAdded env.addJobAdvanceLedger s (setFullLedger env s ledger isSynchronous isCurrent)) = some c1 := hrun
    rw [hq1] at hrun2
    cases hrun2
    exact hop _ (Or.inl (setFullLedger_sched env s ledger isSynchronous isCurrent))
  | consensusBuilt env ledger =>
    have hq1 : env.addJobAdvanceLedger = true := hq
    have hrun2 : some (consensusBuilt env s ledger,
        n + jobsAdded env.addJobAdvanceLedger s (consensusBuilt env s ledger)) = some c1 := hrun
    rw [hq1] at hrun2
    cases hrun2
    exact hop _ (consensusBuilt_schedOk env s ledger)
  | tryFill env job ledger =>
    have hq1 : env.addJobAdvanceLedger = true := hq
    have hrun2 : some (tryFill env job s ledger,
        n + jobsAdded env.addJobAdvanceLedger s (tryFill env job s ledger)) = some c1 := hrun
    rw [hq1] at hrun2
    cases hrun2
    exact hop _ (tryFill_schedOk env job s ledger)
  | passTurn fuel env =>
    unfold SchedStep.run at hrun
    dsimp only at hrun
    by_cases hn : n = 0
    · rw [if_pos hn] at hrun; cases hrun
    · rw [if_neg hn] at hrun
      cases ht : doAdvance.turnState fuel env s with
      | none => rw [ht] at hrun; cases hrun
      | some t =>
        rw [ht] at hrun
        cases hrun
        exact hop _ (Or.inl (turnState_sched fuel env s t ht))
  | passEnd =>
    unfold SchedStep.run at hrun
    dsimp only at hrun
    by_cases hn : n = 0
    · rw [if_pos hn] at hrun; cases hrun
    · rw [if_neg hn] at hrun
      cases hrun
      have h1 := hflag hn
      show n - 1 = 0
      omega
  | advanceThread fuel envs =>
    unfold SchedStep.run at hrun
    dsimp only at hrun
    by_cases hn : n = 0
    · rw [if_pos hn] at hrun; cases hrun
    · rw [if_neg hn] at hrun
      cases ht : advanceThread fuel envs s with
      | none => rw [ht] at hrun; cases hrun
      | some t =>
        rw [ht] at hrun
        cases hrun
        obtain ⟨ha, hb⟩ := advanceThread_sched fuel envs s t ht
        have h1 := hflag hn
        show n - 1 + jobsAdded true s t = if t.mAdvanceThread then 1 else 0
        unfold jobsAdded
        rw [ha, hb]
        simp
        omega

theorem schedRun_count_le :
    ∀ (steps : List SchedStep) (c c1 : LedgerMaster × Nat),
      (c.2 ≤ if c.1.mAdvanceThread then 1 else 0) →
      schedRun c steps = some c1 →
      c1.2 ≤ if c1.1.mAdvanceThread then 1 else 0 := by
  intro steps
  induction steps with
  | nil =>
    intro c c1 hinv hrun
    cases hrun
    exact hinv
  | cons step rest ih =>
    intro c c1 hinv hrun
    unfold schedRun at hrun
    cases hs : step.run c with
    | none => rw [hs] at hrun; cases hrun
    | some c2 =>
      rw [hs] at hrun
      exact ih c2 c1 (step_count_le step hinv hs) hrun

theorem schedRun_keeps_count :
    ∀ (steps : List SchedStep) (c c1 : LedgerMaster × Nat),
      (∀ step ∈ steps, step.queueAccepts = true) →
      (c.2 = if c.1.mAdvanceThread then 1 else 0) →
      schedRun c steps = some c1 →
      c1.2 = if c1.1.mAdvanceThread then 1 else 0 := by
  intro steps
  induction steps with
  | nil =>
    intro c c1 _ hinv hrun
    cases hrun
    exact hinv
  | cons step rest ih =>
    intro c c1 hq hinv hrun
    unfold schedRun at hrun
    cases hs : step.run c with
    | none => rw [hs] at hrun; cases hrun
    | some c2 =>
      rw [hs] at hrun
      exact ih c2 c1 (fun st hst => hq st (List.mem_cons_of_mem _ hst))
        (step_keeps_count step (hq step (List.mem_cons_self _ _)) hinv hs) hrun

end scheduling

/-- What holds of the scheduling of Advance passes. `tryAdvance` calls `addJob`
exactly when `mAdvanceThread` is false and a valid ledger exists, setting the
flag, and otherwise only sets `mAdvanceWork`. After every run of operations,
pass turns and pass ends from the initial state the number of advance jobs
scheduled or running is at most 1, and 0 while `mAdvanceThread` is false,
whatever the job queue answers; when the queue accepted every job handed to it
the number is 1 when `mAdvanceThread` is true and 0 when it is false. -/
theorem advance_pass_at_most_one (steps : List SchedStep) (c : LedgerMaster × Nat)
    (hrun : schedRun (LedgerMaster.init, 0) steps = some c) :
    (c.2 ≤ if c.1.mAdvanceThread then 1 else 0) ∧ c.2 ≤ 1 ∧
    ((∀ step ∈ steps, step.queueAccepts = true) →
      c.2 = if c.1.mAdvanceThread then 1 else 0) ∧
    (∀ s : LedgerMaster,
      (s.mAdvanceThread = false ∧ s.mValidLedger.isSome = true →
        tryAdvance s
          = ({ s with mAdvanceWork := true, mAdvanceThread := true }).emit [.addJobAdvance]) ∧
      (¬ (s.mAdvanceThread = false ∧ s.mValidLedger.isSome = true) →
        tryAdvance s = { s with mAdvanceWork := true })) := by
  have h1 := schedRun_count_le steps (LedgerMaster.init, 0) c (Nat.le_refl _) hrun
  refine ⟨h1, ?_, ?_, ?_⟩
  · refine le_trans h1 ?_
    split <;> decide
  · intro hq
    exact schedRun_keeps_count steps (LedgerMaster.init, 0) c hq rfl hrun
  · intro s
    unfold tryAdvance
    dsimp only
    constructor
    · rintro ⟨ha, hb⟩
      rw [ha, hb]
      rfl
    · intro hn
      split
      · rename_i hc
        exfalso
        apply hn
        cases ha : s.mAdvanceThread with
        | true => rw [ha] at hc; simp at hc
        | false =>
          rw [ha] at hc
          simp at hc
          exact ⟨rfl, hc⟩
      · rfl

/-- With an accepting job queue: ledger 5 is accepted and a pass scheduled; the
pass runs and ends with no job left and the flag clear; the next request
schedules the next pass. -/
theorem advance_pass_accepting_example :
    (∃ c, schedRun (LedgerMaster.init, 0) schedExample = some c ∧
      (c.2 = if c.1.mAdvanceThread then 1 else 0)) ∧
    (schedRun (LedgerMaster.init, 0) (schedExample.take 3)).map
      (fun c => (c.1.mAdvanceThread, c.2)) = some (false, 0) ∧
    (schedRun (LedgerMaster.init, 0) schedExample).map
      (fun c => (c.1.mAdvanceThread, c.2)) = some (true, 1) :=
  have hs : (schedRun (LedgerMaster.init, 0) schedExample).isSome = true := by decide
  ⟨⟨Option.get _ hs, (Option.some_get hs).symm,
    (advance_pass_at_most_one schedExample _ (Option.some_get hs).symm).2.2.1
      (by decide)⟩,
   by decide, by decide⟩

/-- Claim C20, failing input. From the initial state `checkAccept` accepts
ledger 5 and its `tryAdvance` sets `mAdvanceThread` and calls `addJob`; the job
queue refuses the job. The flag is true and no advance job is scheduled or
running. Two further `tryAdvance` calls, now with an accepting queue, find the
flag set and call `addJob` no more: still no job, so no pass can run and reset
the flag. -/
theorem tryAdvance_refused_job_keeps_flag :
    refusingEnv.addJobAdvanceLedger = false ∧
    (schedRun (LedgerMaster.init, 0) [.checkAccept refusingEnv (mkLedger 5 1 0 0)]).map
      (fun c => (c.1.mAdvanceThread, c.2, advanceJobs c.1.events)) = some (true, 0, 1) ∧
    (schedRun (LedgerMaster.init, 0)
        [.checkAccept refusingEnv (mkLedger 5 1 0 0), .tryAdvance baseEnv,
         .tryAdvance baseEnv]).map
      (fun c => (c.1.mAdvanceThread, c.2, advanceJobs c.1.events)) = some (true, 0, 1) ∧
    (schedRun (LedgerMaster.init, 0)
        [.checkAccept refusingEnv (mkLedger 5 1 0 0),
         .advanceThread 10 [baseEnv]]).isNone = true := by
  decide

/-! ### Ledger header reading (`getCloseTimeByHash`) -/

/-- Claim C21. `getCloseTimeByHash` returns a close time only for a stored
node of at least 120 bytes whose first 32-bit word is the ledger-header prefix,
and the value is then the 32-bit word at byte offset 116, which the data holds
in full; for a missing node, for shorter data and for another first word it
returns none. The offset is that of the fields before the close time: prefix,
sequence, drops, parent hash, transaction-tree hash, state-tree hash and parent
close time. -/
theorem getCloseTimeByHash_prefix (env : Env) (ledgerHash : Hash) :
    (env.nodeStoreFetch ledgerHash = none → getCloseTimeByHash env ledgerHash = none) ∧
    (∀ data, env.nodeStoreFetch ledgerHash = some data →
      (data.length < 120 → getCloseTimeByHash env ledgerHash = none) ∧
      (env.decode32 (data.take 4) ≠ env.ledgerMasterPrefix →
        getCloseTimeByHash env ledgerHash = none) ∧
      (120 ≤ data.length → env.decode32 (data.take 4) = env.ledgerMasterPrefix →
        getCloseTimeByHash env ledgerHash = some (env.decode32 ((data.drop 116).take 4)) ∧
        ((data.drop 116).take 4).length = 4)) ∧
    4 + 4 + 8 + 32 + 32 + 32 + 4 = 116 ∧
    (∀ t, getCloseTimeByHash env ledgerHash = some t →
      ∃ data, env.nodeStoreFetch ledgerHash = some data ∧ 120 ≤ data.length ∧
        env.decode32 (data.take 4) = env.ledgerMasterPrefix ∧
        t = env.decode32 ((data.drop 116).take 4)) := by
  have hval : ∀ data : Blob,
      ((SerialIter.get32 env (⟨data⟩ : SerialIter)).2.skip (4 + 8 + 32 + 32 + 32 + 4)).get32 env
        = (env.decode32 ((data.drop 116).take 4), ⟨(data.drop 116).drop 4⟩) := by
    intro data
    simp [SerialIter.get32, SerialIter.skip, List.drop_drop]
  refine ⟨?_, ?_, rfl, ?_⟩
  · intro h
    unfold getCloseTimeByHash
    rw [h]
  · intro data h
    unfold getCloseTimeByHash
    rw [h]
    dsimp only
    refine ⟨?_, ?_, ?_⟩
    · intro hl
      rw [if_neg (by omega)]
    · intro hp
      split
      · have hp1 : ¬ (SerialIter.get32 env (⟨data⟩ : SerialIter)).1 = env.ledgerMasterPrefix := hp
        rw [if_neg hp1]
      · rfl
    · intro hl hp
      have hp1 : (SerialIter.get32 env (⟨data⟩ : SerialIter)).1 = env.ledgerMasterPrefix := hp
      rw [if_pos hl, if_pos hp1, hval]
      refine ⟨rfl, ?_⟩
      rw [List.length_take, List.length_drop]
      omega
  · intro t h
    unfold getCloseTimeByHash at h
    cases hf : env.nodeStoreFetch ledgerHash with
    | none => rw [hf] at h; cases h
    | some data =>
      rw [hf] at h
      dsimp only at h
      by_cases hl : data.length ≥ 120
      · rw [if_pos hl] at h
        by_cases hp : (SerialIter.get32 env (⟨data⟩ : SerialIter)).1 = env.ledgerMasterPrefix
        · rw [if_pos hp, hval] at h
          cases h
          exact ⟨data, rfl, hl, hp, rfl⟩
        · rw [if_neg hp] at h
          cases h
      · rw [if_neg hl] at h
        cases h

/-- A header of 120 bytes with the prefix yields the word at offset 116 (here
300); another first word, 119 bytes, and a missing node yield none. -/
theorem getCloseTimeByHash_examples :
    getCloseTimeByHash headerEnv 7 = some 300 ∧
    getCloseTimeByHash headerEnv 8 = none ∧
    getCloseTimeByHash headerEnv 9 = none ∧
    getCloseTimeByHash headerEnv 10 = none := by
  decide

/-! ### The backfill walk claims verified sequences only -/

section verified

theorem tryFill_tracker (env : Env) (job : Job) (s : LedgerMaster) (ledger : Ledger) :
    (tryFill env job s ledger).mCompleteLedgers
      = (tryFillLoop env job ledger.info.seq ledger.info.parentHash (fun _ => none)
          ledger.info.seq ledger.info.seq s.mCompleteLedgers).tracker := by
  unfold tryFill
  cases tryFillLoop env job ledger.info.seq ledger.info.parentHash (fun _ => none)
      ledger.info.seq ledger.info.seq s.mCompleteLedgers with
  | shutdown c => rfl
  | finished minHas maxHas c =>
    dsimp only
    rw [tryAdvance_mCompleteLedgers]
    rfl

/-- The walk only adds to the range tracker. -/
theorem tryFillLoop_grows (env : Env) (job : Job) :
    ∀ (seq : Nat) (prevHash : Hash) (lh : Nat → Option (Hash × Hash)) (minHas maxHas : Nat)
      (c : RangeSet) (v : Nat), c.hasValue v = true →
      (tryFillLoop env job seq prevHash lh minHas maxHas c).tracker.hasValue v = true := by
  intro seq
  induction seq with
  | zero =>
    intro prevHash lh minHas maxHas c v hv
    simp [tryFillLoop, FillExit.tracker, hv]
  | succ seq ih =>
    intro prevHash lh minHas maxHas c v hv
    have hfin : ∀ a b : Nat, (FillExit.finished a b c).tracker.hasValue v = true := by
      intro a b
      simp [FillExit.tracker, hv]
    have hv1 : ∀ a b : Nat, (c.setRange a b).hasValue v = true := by
      intro a b
      simp [hv]
    unfold tryFillLoop
    split
    · exact hfin _ _
    · split
      · exact hfin _ _
      · split
        · split
          · exact hfin _ _
          · exact ih _ _ _ _ _ v hv
        · split
          · exact hv
          · dsimp only
            split
            · simp [FillExit.tracker, hv]
            · split
              · simp [FillExit.tracker, hv]
              · exact ih _ _ _ _ _ v (hv1 _ _)

/-- Every sequence the walk leaves in the range tracker was there at entry or
lies in a run, ending just below the start sequence, of sequences the hash
index verifies. -/
theorem tryFillLoop_verified (env : Env) (job : Job) (ledger : Ledger) (T : RangeSet) :
    ∀ (seq : Nat) (prevHash : Hash) (lh : Nat → Option (Hash × Hash)) (minHas maxHas : Nat)
      (c : RangeSet),
      seq ≤ ledger.info.seq → seq ≤ minHas → maxHas ≤ ledger.info.seq →
      parentHashRecorded env ledger seq = some prevHash →
      (∀ k row, lh k = some row → env.hashIndex k = some row) →
      (∀ w, seq ≤ w → w < ledger.info.seq → linked env ledger w = true) →
      (∀ v, c.hasValue v = true → T.hasValue v = true ∨
        (seq ≤ v ∧ v ≤ ledger.info.seq)) →
      ∀ v, (tryFillLoop env job seq prevHash lh minHas maxHas c).tracker.hasValue v = true →
        T.hasValue v = true ∨
          (v ≤ ledger.info.seq ∧ ∀ w, v ≤ w → w < ledger.info.seq → linked env ledger w = true) := by
  intro seq
  induction seq with
  | zero =>
    intro prevHash lh minHas maxHas c hn hmin hmax hprev hlh hlink hc v hv
    have hfin : (FillExit.finished minHas maxHas c).tracker.hasValue v = true := by
      simpa [tryFillLoop] using hv
    simp only [FillExit.tracker, hasValue_setRange, Bool.or_eq_true, Bool.and_eq_true,
      decide_eq_true_eq] at hfin
    rcases hfin with ⟨h1, h2⟩ | h3
    · exact Or.inr ⟨by omega, fun w hw1 hw2 => hlink w (by omega) hw2⟩
    · rcases hc v h3 with h4 | ⟨h4, h5⟩
      · exact Or.inl h4
      · exact Or.inr ⟨h5, fun w hw1 hw2 => hlink w (by omega) hw2⟩
  | succ seq ih =>
    intro prevHash lh minHas maxHas c hn hmin hmax hprev hlh hlink hc v hv
    have hgood : ∀ (a b : Nat) (c1 : RangeSet), seq + 1 ≤ a → b ≤ ledger.info.seq →
        (∀ u, c1.hasValue u = true → T.hasValue u = true ∨
          (seq + 1 ≤ u ∧ u ≤ ledger.info.seq)) →
        (FillExit.finished a b c1).tracker.hasValue v = true →
        T.hasValue v = true ∨
          (v ≤ ledger.info.seq ∧
            ∀ w, v ≤ w → w < ledger.info.seq → linked env ledger w = true) := by
      intro a b c1 ha hb hc1 hfin
      simp only [FillExit.tracker, hasValue_setRange, Bool.or_eq_true, Bool.and_eq_true,
        decide_eq_true_eq] at hfin
      rcases hfin with ⟨h1, h2⟩ | h3
      · exact Or.inr ⟨by omega, fun w hw1 hw2 => hlink w (by omega) hw2⟩
      · rcases hc1 v h3 with h4 | ⟨h4, h5⟩
        · exact Or.inl h4
        · exact Or.inr ⟨h5, fun w hw1 hw2 => hlink w (by omega) hw2⟩
    have hc1 : ∀ u, (c.setRange (seq + 1) maxHas).hasValue u = true →
        T.hasValue u = true ∨ (seq + 1 ≤ u ∧ u ≤ ledger.info.seq) := by
      intro u hu
      simp only [hasValue_setRange, Bool.or_eq_true, Bool.and_eq_true,
        decide_eq_true_eq] at hu
      rcases hu with ⟨h1, h2⟩ | h3
      · exact Or.inr ⟨h1, by omega⟩
      · exact hc u h3
    have hstep : ∀ (it : Hash × Hash), env.hashIndex seq = some it → it.1 = prevHash →
        parentHashRecorded env ledger seq = some it.2 ∧
        ∀ w, seq ≤ w → w < ledger.info.seq → linked env ledger w = true := by
      intro it hrow heq
      constructor
      · unfold parentHashRecorded
        rw [if_neg (by omega), hrow]
        rfl
      · intro w hw1 hw2
        by_cases hws : w = seq
        · subst hws
          unfold linked
          rw [hrow, hprev]
          simp [heq]
        · exact hlink w (by omega) hw2
    have hweak : ∀ (c1 : RangeSet), (∀ u, c1.hasValue u = true → T.hasValue u = true ∨
          (seq + 1 ≤ u ∧ u ≤ ledger.info.seq)) →
        ∀ u, c1.hasValue u = true → T.hasValue u = true ∨ (seq ≤ u ∧ u ≤ ledger.info.seq) := by
      intro c1 h u hu
      rcases h u hu with h1 | ⟨h1, h2⟩
      · exact Or.inl h1
      · exact Or.inr ⟨by omega, h2⟩
    unfold tryFillLoop at hv
    split at hv
    · exact hgood _ _ c hmin hmax hc hv
    · split at hv
      · exact hgood _ _ c (le_refl _) hmax hc hv
      · split at hv
        · rename_i it hl
          split at hv
          · exact hgood _ _ c (le_refl _) hmax hc hv
          · rename_i hne
            have heq : it.1 = prevHash := by
              by_contra h
              exact hne h
            obtain ⟨hp, hl2⟩ := hstep it (hlh seq it hl) heq
            exact ih _ _ _ _ _ (by omega) (by omega) hmax hp hlh hl2 (hweak c hc) v hv
        · split at hv
          · rcases hc v hv with h4 | ⟨h4, h5⟩
            · exact Or.inl h4
            · exact Or.inr ⟨h5, fun w hw1 hw2 => hlink w (by omega) hw2⟩
          · dsimp only at hv
            split at hv
            · exact hgood _ _ _ (le_refl _) (by omega) hc1 hv
            · rename_i it hl
              split at hv
              · exact hgood _ _ _ (le_refl _) (by omega) hc1 hv
              · rename_i hne
                have heq : it.1 = prevHash := by
                  by_contra h
                  exact hne h
                have hrow : env.hashIndex seq = some it :=
                  getHashesByIndex_sub env _ _ seq it hl
                obtain ⟨hp, hl2⟩ := hstep it hrow heq
                refine ih _ _ _ _ _ (by omega) (by omega) (by omega) hp ?_ hl2
                  (hweak _ hc1) v hv
                intro k row hk
                exact getHashesByIndex_sub env _ _ k row hk

end verified

/-- Claim C22. For every start ledger, job, state and hash index: a sequence
`v` below the start sequence that `tryFill` leaves in the range tracker was
there before or every sequence from `v` up to the start sequence has an indexed
ledger hash equal to the parent hash recorded for its successor (the parent
hash of the start ledger at the top); and when some sequence `w` below the
start sequence fails that test, the tracker is left as it was at `w` and at
every sequence below `w`. -/
theorem tryFill_only_verified (env : Env) (job : Job) (s : LedgerMaster) (ledger : Ledger)
    (v : Nat) :
    ((tryFill env job s ledger).mCompleteLedgers.hasValue v = true →
      s.mCompleteLedgers.hasValue v = true ∨
        ∀ w, v ≤ w → w < ledger.info.seq → linked env ledger w = true) ∧
    (∀ w, v ≤ w → w < ledger.info.seq → linked env ledger w = false →
      (tryFill env job s ledger).mCompleteLedgers.hasValue v
        = s.mCompleteLedgers.hasValue v) := by
  have hmark : (tryFill env job s ledger).mCompleteLedgers.hasValue v = true →
      s.mCompleteLedgers.hasValue v = true ∨
        ∀ w, v ≤ w → w < ledger.info.seq → linked env ledger w = true := by
    intro h
    rw [tryFill_tracker] at h
    rcases tryFillLoop_verified env job ledger s.mCompleteLedgers ledger.info.seq
        ledger.info.parentHash (fun _ => none) ledger.info.seq ledger.info.seq
        s.mCompleteLedgers (le_refl _) (le_refl _) (le_refl _)
        (by simp [parentHashRecorded])
        (by intro k row hk; exact Option.noConfusion hk)
        (by intro w h1 h2; omega)
        (by intro u hu; exact Or.inl hu) v h with h1 | ⟨_, h2⟩
    · exact Or.inl h1
    · exact Or.inr h2
  refine ⟨hmark, ?_⟩
  intro w hw1 hw2 hbad
  cases hb : s.mCompleteLedgers.hasValue v with
  | true =>
    rw [tryFill_tracker]
    exact tryFillLoop_grows env job _ _ _ _ _ _ v hb
  | false =>
    cases ha : (tryFill env job s ledger).mCompleteLedgers.hasValue v with
    | false => rfl
    | true =>
      rcases hmark ha with h1 | h2
      · rw [hb] at h1
        cases h1
      · rw [h2 w hw1 hw2] at hbad
        cases hbad

theorem tryFill_only_verified_witness :
    ((tryFill brokenFillEnv ⟨fun _ => false⟩ fillState
        (mkLedger 1000 6000 5999 0)).mCompleteLedgers.hasValue 997
      = fillState.mCompleteLedgers.hasValue 997) ∧
    [996, 997, 998, 999, 1000].map (fun v =>
      (tryFill brokenFillEnv ⟨fun _ => false⟩ fillState
        (mkLedger 1000 6000 5999 0)).mCompleteLedgers.hasValue v)
      = [false, false, true, true, true] :=
  ⟨(tryFill_only_verified brokenFillEnv ⟨fun _ => false⟩ fillState
      (mkLedger 1000 6000 5999 0) 997).2 997 (le_refl _) (by decide) (by decide),
   by decide⟩

/-! ### A thrown error ends the scan of `fixMismatch` -/

section scanError

theorem getLedgerBySeq_tracker_below (env : Env) (s : LedgerMaster) (index v : Nat)
    (hv : v ≠ index) :
    (getLedgerBySeq env s index).2.mCompleteLedgers.hasValue v
      = s.mCompleteLedgers.hasValue v := by
  rcases getLedgerBySeq_state env s index with h | h
  · rw [h]
  · rw [h, hasValue_clearLedger]
    simp [hv]

/-- A scan that starts at or above a held sequence `e` at which computing the
chain hash throws leaves every sequence below `e` as it was. -/
theorem fixMismatchLoop_below_error (env : Env) (ledger : Ledger) (e : Nat)
    (herr : env.hashOfSeq ledger e = none) :
    ∀ (n : Nat) (s : LedgerMaster), e ≤ n → s.mCompleteLedgers.hasValue e = true →
      ∀ v, v < e → (fixMismatchLoop env ledger n s).mCompleteLedgers.hasValue v
        = s.mCompleteLedgers.hasValue v := by
  intro n
  induction n with
  | zero =>
    intro s _ _ v hv
    rfl
  | succ k ih =>
    intro s hen hheld v hv
    unfold fixMismatchLoop
    by_cases hek : e = k + 1
    · subst hek
      have hh : haveLedger s (k + 1) = true := hheld
      rw [if_pos hh, herr]
      dsimp only
      rw [hasValue_clearLedger]
      have : (v == k + 1) = false := beq_false_of_ne (by omega)
      simp [this]
    · have hle : e ≤ k := by omega
      have hclear : ∀ t : LedgerMaster,
          t.mCompleteLedgers.hasValue e = true →
          (∀ u, u < e → t.mCompleteLedgers.hasValue u = s.mCompleteLedgers.hasValue u) →
          (fixMismatchLoop env ledger k (clearLedger t (k + 1))).mCompleteLedgers.hasValue v
            = s.mCompleteLedgers.hasValue v := by
        intro t ht hts
        rw [ih (clearLedger t (k + 1)) hle
          (by
            rw [hasValue_clearLedger]
            have : (e == k + 1) = false := beq_false_of_ne hek
            simp [this, ht]) v hv, hasValue_clearLedger]
        have : (v == k + 1) = false := beq_false_of_ne (by omega)
        simp [this, hts v hv]
      split
      · split
        · rw [hasValue_clearLedger]
          have : (v == k + 1) = false := beq_false_of_ne (by omega)
          simp [this]
        · exact hclear s hheld (fun _ _ => rfl)
        · have hg : ∀ u, u ≠ k + 1 →
              (getLedgerBySeq env s (k + 1)).2.mCompleteLedgers.hasValue u
                = s.mCompleteLedgers.hasValue u :=
            fun u hu => getLedgerBySeq_tracker_below env s (k + 1) u hu
          split
          · rename_i other s1 heq
            have hs1 : s1 = (getLedgerBySeq env s (k + 1)).2 := by rw [heq]
            split
            · rw [hs1]
              exact hg v (by omega)
            · refine hclear s1 ?_ ?_
              · rw [hs1, hg e hek]
                exact hheld
              · intro u hu
                rw [hs1]
                exact hg u (by omega)
          · rename_i s1 heq
            have hs1 : s1 = (getLedgerBySeq env s (k + 1)).2 := by rw [heq]
            refine hclear s1 ?_ ?_
            · rw [hs1, hg e hek]
              exact hheld
            · intro u hu
              rw [hs1]
              exact hg u (by omega)
      · exact ih s hle hheld v hv

/-- The scan of `fixMismatch` from `n` down, when `e` is a held sequence at
which computing the chain hash throws and every held sequence above it up to
`n` fails the seam test without a thrown error: exactly the held sequences
from `e` up to `n` are removed, `e` among them, and nothing below `e`. -/
theorem fixMismatchLoop_error_reached (env : Env) (ledger : Ledger) (s0 : LedgerMaster)
    (e : Nat) (he : 1 ≤ e) (herr : env.hashOfSeq ledger e = none) :
    ∀ (n : Nat) (s : LedgerMaster), OnlyComplete s0 s → e ≤ n →
      s.mCompleteLedgers.hasValue e = true →
      (∀ v, e < v → v ≤ n → s.mCompleteLedgers.hasValue v = true →
        seamAt env s0 ledger v = false ∧ env.hashOfSeq ledger v ≠ none) →
      ∀ v, (fixMismatchLoop env ledger n s).mCompleteLedgers.hasValue v
        = (s.mCompleteLedgers.hasValue v && !(decide (e ≤ v) && decide (v ≤ n))) := by
  intro n
  induction n with
  | zero =>
    intro s _ hen
    omega
  | succ k ih =>
    intro s hoc hen hheld habove v
    have step : ∀ s1 : LedgerMaster, OnlyComplete s0 s1 → e < k + 1 →
        (∀ w, s1.mCompleteLedgers.hasValue w
          = (!(w == k + 1) && s.mCompleteLedgers.hasValue w)) →
        (fixMismatchLoop env ledger k s1).mCompleteLedgers.hasValue v
          = (s.mCompleteLedgers.hasValue v && !(decide (e ≤ v) && decide (v ≤ k + 1))) := by
      intro s1 hoc1 hlt hs1
      have hek : e ≠ k + 1 := by omega
      rw [ih s1 hoc1 (by omega)
        (by rw [hs1 e, hheld]; simp [hek])
        (by
          intro w hw1 hw2 hw3
          rw [hs1 w] at hw3
          have : s.mCompleteLedgers.hasValue w = true := by
            cases hc : s.mCompleteLedgers.hasValue w
            · rw [hc] at hw3; simp at hw3
            · rfl
          exact habove w hw1 (by omega) this) v, hs1 v]
      by_cases hv : v = k + 1
      · subst hv
        have : decide (e ≤ k + 1) = true := decide_eq_true (by omega)
        simp [this]
      · have e1 : (v == k + 1) = false := beq_false_of_ne hv
        have e2 : decide (v ≤ k + 1) = decide (v ≤ k) := by
          apply decide_eq_decide.mpr
          constructor <;> intro h <;> omega
        rw [e1, e2]
        simp
    unfold fixMismatchLoop
    by_cases hhave : haveLedger s (k + 1) = true
    · rw [if_pos hhave]
      by_cases hek : e = k + 1
      · subst hek
        rw [herr]
        dsimp only
        rw [hasValue_clearLedger]
        by_cases hv : v = k + 1
        · subst hv
          simp
        · have e1 : (v == k + 1) = false := beq_false_of_ne hv
          have e2 : (decide (k + 1 ≤ v) && decide (v ≤ k + 1)) = false := by
            by_cases h1 : k + 1 ≤ v
            · have h2 : ¬ v ≤ k + 1 := by omega
              simp [h2]
            · simp [h1]
          rw [e1, e2]
          simp
      · have hlt : e < k + 1 := by omega
        obtain ⟨hsf, hne⟩ := habove (k + 1) hlt (le_refl _) hhave
        have hsf1 : seamAt env s ledger (k + 1) = false := by
          rw [seamAt_onlyComplete env s0 s ledger _ hoc]; exact hsf
        cases hh : env.hashOfSeq ledger (k + 1) with
        | none => exact absurd hh hne
        | some ho =>
          cases ho with
          | none =>
            dsimp only
            exact step _ (hoc.trans (clearLedger_onlyComplete s _)) hlt (fun w => rfl)
          | some hash =>
            dsimp only
            cases hg : getLedgerBySeq env s (k + 1) with
            | mk o s1 =>
              have hg1 : (getLedgerBySeq env s (k + 1)).1 = o := by rw [hg]
              have hg2 : (getLedgerBySeq env s (k + 1)).2 = s1 := by rw [hg]
              cases o with
              | some other =>
                dsimp only
                have hs1 : s1 = s := by
                  rw [← hg2]; exact getLedgerBySeq_some_state env s _ other hg1
                rw [if_neg (seamAt_false env s ledger _ hash other hsf1 hh hg1), hs1]
                exact step _ (hoc.trans (clearLedger_onlyComplete s _)) hlt (fun w => rfl)
              | none =>
                dsimp only
                rcases getLedgerBySeq_state env s (k + 1) with h2 | h2
                · have hs1 : s1 = s := by rw [← hg2]; exact h2
                  rw [hs1]
                  exact step _ (hoc.trans (clearLedger_onlyComplete s _)) hlt (fun w => rfl)
                · have hs1 : s1 = clearLedger s (k + 1) := by rw [← hg2]; exact h2
                  rw [hs1]
                  refine step _ (hoc.trans ((clearLedger_onlyComplete s _).trans
                    (clearLedger_onlyComplete _ _))) hlt ?_
                  intro w
                  rw [hasValue_clearLedger, hasValue_clearLedger]
                  cases (w == k + 1) <;> simp
    · rw [if_neg hhave]
      have hek : e ≠ k + 1 := by
        intro h
        subst h
        exact hhave hheld
      have hf : s.mCompleteLedgers.hasValue (k + 1) = false := by
        cases hc : s.mCompleteLedgers.hasValue (k + 1)
        · rfl
        · exact absurd hc hhave
      refine step s hoc (by omega) ?_
      intro w
      by_cases hw : w = k + 1
      · subst hw
        rw [hf]
        simp
      · have e1 : (w == k + 1) = false := beq_false_of_ne hw
        rw [e1]
        simp

end scanError

/-- Claim C23. Let `e` be a held sequence within the scan of `fixMismatch` at
which computing the chain hash throws. When the scan arrives at `e`, in
whatever state that still holds `e`, it clears `e` from the range tracker and
stops; the whole call leaves every sequence below `e` as it was; and when
every held sequence above `e` in the scan fails the seam test without a thrown
error, so that the scan does arrive at `e`, the whole call removes `e` and the
held sequences above it, and nothing else. -/
theorem fixMismatch_error_aborts (env : Env) (s : LedgerMaster) (ledger : Ledger) (e : Nat)
    (hpos : 1 ≤ e) (hstart : e ≤ wrap32 (ledger.info.seq + 4294967295))
    (hheld : s.mCompleteLedgers.hasValue e = true)
    (herr : env.hashOfSeq ledger e = none) :
    (∀ s1 : LedgerMaster, haveLedger s1 e = true →
      fixMismatchLoop env ledger e s1 = clearLedger s1 e ∧
      ∀ v, (fixMismatchLoop env ledger e s1).mCompleteLedgers.hasValue v
        = (!(v == e) && s1.mCompleteLedgers.hasValue v)) ∧
    (∀ v, v < e → (fixMismatch env s ledger).mCompleteLedgers.hasValue v
      = s.mCompleteLedgers.hasValue v) ∧
    ((∀ v, e < v → v ≤ wrap32 (ledger.info.seq + 4294967295) →
        s.mCompleteLedgers.hasValue v = true →
        seamAt env s ledger v = false ∧ env.hashOfSeq ledger v ≠ none) →
      (fixMismatch env s ledger).mCompleteLedgers.hasValue e = false ∧
      ∀ v, (fixMismatch env s ledger).mCompleteLedgers.hasValue v
        = (s.mCompleteLedgers.hasValue v &&
            !(decide (e ≤ v) && decide (v ≤ wrap32 (ledger.info.seq + 4294967295))))) := by
  refine ⟨?_, ?_, ?_⟩
  · intro s1 hh
    have h1 : fixMismatchLoop env ledger e s1 = clearLedger s1 e := by
      obtain ⟨k, rfl⟩ : ∃ k, e = k + 1 := ⟨e - 1, by omega⟩
      unfold fixMismatchLoop
      rw [if_pos hh, herr]
    refine ⟨h1, ?_⟩
    intro v
    rw [h1, hasValue_clearLedger]
  · intro v hv
    unfold fixMismatch
    exact fixMismatchLoop_below_error env ledger e herr _ s hstart hheld v hv
  · intro habove
    have hall := fixMismatchLoop_error_reached env ledger s e hpos herr
      (wrap32 (ledger.info.seq + 4294967295)) s (OnlyComplete.refl s) hstart hheld habove
    refine ⟨?_, ?_⟩
    · unfold fixMismatch
      rw [hall e, hheld]
      have h1 : decide (e ≤ e) = true := decide_eq_true (le_refl e)
      have h2 : decide (e ≤ wrap32 (ledger.info.seq + 4294967295)) = true :=
        decide_eq_true hstart
      rw [h1, h2]
      rfl
    · intro v
      unfold fixMismatch
      exact hall v

theorem fixMismatch_error_aborts_witness :
    (∀ v, v < 498 →
      (fixMismatch mismatchErrorEnv mismatchState
        (mkLedger 501 1501 1500 0)).mCompleteLedgers.hasValue v
        = mismatchState.mCompleteLedgers.hasValue v) ∧
    [494, 495, 496, 497, 498].map (fun v =>
      (fixMismatchLoop mismatchErrorEnv (mkLedger 501 1501 1500 0) 498
        mismatchState).mCompleteLedgers.hasValue v)
      = [false, true, true, true, false] ∧
    (∀ v, (fixMismatch mismatchErrorEnv mismatchState
        (mkLedger 501 1501 1500 0)).mCompleteLedgers.hasValue v
      = (mismatchState.mCompleteLedgers.hasValue v &&
          !(decide (498 ≤ v) &&
            decide (v ≤ wrap32 ((mkLedger 501 1501 1500 0).info.seq + 4294967295))))) ∧
    [494, 495, 496, 497, 498, 499, 500, 501].map (fun v =>
      (fixMismatch mismatchErrorEnv mismatchState
        (mkLedger 501 1501 1500 0)).mCompleteLedgers.hasValue v)
      = [false, true, true, true, false, false, false, false] :=
  ⟨(fixMismatch_error_aborts mismatchErrorEnv mismatchState (mkLedger 501 1501 1500 0) 498
      (by decide) (by decide) (by decide) (by decide)).2.1,
   by decide,
   ((fixMismatch_error_aborts mismatchErrorEnv mismatchState (mkLedger 501 1501 1500 0) 498
      (by decide) (by decide) (by decide) (by decide)).2.2 (by
        intro v h1 h2 _
        have hw : wrap32 ((mkLedger 501 1501 1500 0).info.seq + 4294967295) = 500 := by decide
        rw [hw] at h2
        have hv : v = 499 ∨ v = 500 := by omega
        rcases hv with hv | hv <;> subst hv <;> decide)).2,
   by decide⟩

/-! ### The run returned by `findNewLedgersToPublish` -/

/-- Below the top of the 32-bit range, with a published ledger and a valid
sequence at most 100 above the published one, `findNewLedgersToPublish`
returns (101 units of fuel suffice), leaves the published sequence as it was,
and returns ledgers whose sequences are the published sequence plus 1, plus 2,
and so on without a gap or a repeat, at most up to the valid sequence. -/
theorem findNew_contiguous_run (fuel : Nat) (env : Env) (s : LedgerMaster)
    (hinv : PointerInv s) (hp : s.mPubLedger.isSome = true)
    (hgap : s.mValidLedgerSeq ≤ s.mPubLedgerSeq + 100)
    (hno : s.mPubLedgerSeq + 100 < 4294967295) (hfuel : 101 ≤ fuel) :
    ∃ ret s1 k, findNewLedgersToPublish fuel env s = some (ret, s1) ∧
      s1.mPubLedgerSeq = s.mPubLedgerSeq ∧
      ret.map (fun l => l.info.seq) = List.range' (s.mPubLedgerSeq + 1) k ∧
      s.mPubLedgerSeq + k ≤ s.mValidLedgerSeq := by
  have hsome := findNew_isSome fuel env s hinv (by omega) (by omega)
  cases h : findNewLedgersToPublish fuel env s with
  | none => rw [h] at hsome; exact Bool.noConfusion hsome
  | some res =>
    obtain ⟨ret, s1⟩ := res
    obtain ⟨⟨evs, hs1⟩, k, hk, hle⟩ := findNew_no_jump fuel env s s1 ret hinv hp hgap hno h
    refine ⟨ret, s1, k, rfl, ?_, hk, hle⟩
    rw [hs1]

/-- Claim C24, failing input. The published ledger has sequence 4294967290
and the valid ledger 4294967293, three above it. The sum of the published
sequence and `MAX_LEDGER_GAP` wraps to 94, the gap test succeeds, and
`findNewLedgersToPublish` returns the valid ledger alone, whose sequence is not
the published sequence plus one, and moves the published sequence to
4294967293. -/
theorem findNew_run_breaks_at_wrap :
    (stateAt (mkLedger 4294967290 1 0 0) (mkLedger 4294967293 2 0 0)).mPubLedgerSeq
      = 4294967290 ∧
    (stateAt (mkLedger 4294967290 1 0 0) (mkLedger 4294967293 2 0 0)).mValidLedgerSeq
      = 4294967293 ∧
    wrap32 (4294967290 + MAX_LEDGER_GAP) = 94 ∧
    (findNewLedgersToPublish 101 chainEnv
        (stateAt (mkLedger 4294967290 1 0 0) (mkLedger 4294967293 2 0 0))).map
      (fun r => (r.1.map (fun l => l.info.seq), r.2.mPubLedgerSeq))
      = some ([4294967293], 4294967293) := by
  decide

/-! ### `setFullLedger` removes nothing at or above the ledger -/

section keepsAbove

theorem setValidLedger_tracker (env : Env) (s : LedgerMaster) (l : Ledger) :
    (setValidLedger env s l).mCompleteLedgers = s.mCompleteLedgers := by
  simp only [setValidLedger]
  split <;> rfl

theorem pointers_tracker (env : Env) (s : LedgerMaster) (ledger : Ledger) :
    (setFullLedger.pointers env s ledger).mCompleteLedgers = s.mCompleteLedgers := by
  unfold setFullLedger.pointers
  dsimp only
  split
  · split
    · exact setValidLedger_tracker env s ledger
    · exact setValidLedger_tracker env s ledger
  · split
    · rfl
    · rfl

theorem record_tracker (env : Env) (s : LedgerMaster) (ledger : Ledger)
    (isSynchronous isCurrent : Bool) (v : Nat)
    (hv : v ≠ wrap32 (ledger.info.seq + 4294967295)) :
    (setFullLedger.record env s ledger isSynchronous isCurrent).mCompleteLedgers.hasValue v
      = (v == ledger.info.seq || s.mCompleteLedgers.hasValue v) := by
  have hb : (v == wrap32 (ledger.info.seq + 4294967295)) = false := beq_false_of_ne hv
  unfold setFullLedger.record
  cases isCurrent <;>
    (dsimp only; split <;>
      simp [LedgerMaster.emit, clearLedger, RangeSet.setValue, RangeSet.clearValue,
        RangeSet.hasValue, hb])

/-- The scan of `fixMismatch` touches no sequence above its starting point. -/
theorem fixMismatchLoop_above (env : Env) (ledger : Ledger) :
    ∀ (n : Nat) (s : LedgerMaster) (v : Nat), n < v →
      (fixMismatchLoop env ledger n s).mCompleteLedgers.hasValue v
        = s.mCompleteLedgers.hasValue v := by
  intro n
  induction n with
  | zero => intro s v _; rfl
  | succ k ih =>
    intro s v hv
    have hb : (v == k + 1) = false := beq_false_of_ne (by omega)
    have hclear : ∀ t : LedgerMaster,
        t.mCompleteLedgers.hasValue v = s.mCompleteLedgers.hasValue v →
        (fixMismatchLoop env ledger k (clearLedger t (k + 1))).mCompleteLedgers.hasValue v
          = s.mCompleteLedgers.hasValue v := by
      intro t ht
      rw [ih _ v (by omega), hasValue_clearLedger, hb, ht]
      rfl
    have hg := getLedgerBySeq_tracker_below env s (k + 1) v (by omega)
    unfold fixMismatchLoop
    split
    · split
      · rw [hasValue_clearLedger, hb]
        rfl
      · exact hclear s rfl
      · split
        · rename_i other s1 heq
          have hs1 : s1 = (getLedgerBySeq env s (k + 1)).2 := by rw [heq]
          split
          · rw [hs1]
            exact hg
          · exact hclear s1 (by rw [hs1]; exact hg)
        · rename_i s1 heq
          have hs1 : s1 = (getLedgerBySeq env s (k + 1)).2 := by rw [heq]
          exact hclear s1 (by rw [hs1]; exact hg)
    · exact ih s v (by omega)

end keepsAbove

/-- Claim C25. For every ledger of sequence `n` with `1 ≤ n` in the 32-bit
range and every prior state, after `setFullLedger` the range tracker holds `n`
and, at every sequence above `n`, exactly what it held before: the parent check
and the mismatch repair remove sequences below `n` only. -/
theorem setFullLedger_keeps_above (env : Env) (s : LedgerMaster) (ledger : Ledger)
    (isSynchronous isCurrent : Bool)
    (hpos : 1 ≤ ledger.info.seq) (hlt : ledger.info.seq < 4294967296) :
    (setFullLedger env s ledger isSynchronous isCurrent).mCompleteLedgers.hasValue
        ledger.info.seq = true ∧
    (∀ v, ledger.info.seq < v →
      (setFullLedger env s ledger isSynchronous isCurrent).mCompleteLedgers.hasValue v
        = s.mCompleteLedgers.hasValue v) := by
  have hw : wrap32 (ledger.info.seq + 4294967295) = ledger.info.seq - 1 := by
    unfold wrap32
    omega
  have hseq : ledger.setValidated.setFull.info.seq = ledger.info.seq := rfl
  have key : ∀ v, ledger.info.seq ≤ v →
      (setFullLedger env s ledger isSynchronous isCurrent).mCompleteLedgers.hasValue v
        = (v == ledger.info.seq || s.mCompleteLedgers.hasValue v) := by
    intro v hv
    have hrec : (setFullLedger.pointers env
        (setFullLedger.record env s ledger.setValidated.setFull isSynchronous isCurrent)
        ledger.setValidated.setFull).mCompleteLedgers.hasValue v
          = (v == ledger.info.seq || s.mCompleteLedgers.hasValue v) := by
      rw [pointers_tracker, record_tracker env s _ isSynchronous isCurrent v
        (by rw [hseq, hw]; omega)]
      rfl
    unfold setFullLedger
    dsimp only
    rw [hseq, hw]
    generalize setFullLedger.pointers env
      (setFullLedger.record env s ledger.setValidated.setFull isSynchronous isCurrent)
      ledger.setValidated.setFull = s6 at hrec ⊢
    have hg := getLedgerBySeq_tracker_below env s6 (ledger.info.seq - 1) v (by omega)
    have hfix : ∀ t : LedgerMaster,
        t.mCompleteLedgers.hasValue v = s6.mCompleteLedgers.hasValue v →
        (fixMismatch env t ledger.setValidated.setFull).mCompleteLedgers.hasValue v
          = (v == ledger.info.seq || s.mCompleteLedgers.hasValue v) := by
      intro t ht
      unfold fixMismatch
      rw [hseq, hw, fixMismatchLoop_above env _ _ t v (by omega), ht]
      exact hrec
    split
    · split
      · rename_i prevLedger s7 heq
        have hs7 : s7 = (getLedgerBySeq env s6 (ledger.info.seq - 1)).2 := by rw [heq]
        split
        · exact hfix s7 (by rw [hs7]; exact hg)
        · rw [hs7, hg]
          exact hrec
      · rename_i s7 heq
        have hs7 : s7 = (getLedgerBySeq env s6 (ledger.info.seq - 1)).2 := by rw [heq]
        exact hfix s7 (by rw [hs7]; exact hg)
    · exact hrec
  constructor
  · rw [key _ (le_refl _)]
    simp
  · intro v hv
    rw [key v (le_of_lt hv)]
    have : (v == ledger.info.seq) = false := beq_false_of_ne (by omega)
    rw [this]
    rfl

theorem setFullLedger_keeps_above_witness :
    ((setFullLedger mismatchEnv mismatchState (mkLedger 498 1498 1497 0) false false
        ).mCompleteLedgers.hasValue 498 = true ∧
      ∀ v, 498 < v →
        (setFullLedger mismatchEnv mismatchState (mkLedger 498 1498 1497 0) false false
          ).mCompleteLedgers.hasValue v = mismatchState.mCompleteLedgers.hasValue v) ∧
    [495, 496, 497, 498, 499, 500, 501].map (fun v =>
      (setFullLedger mismatchEnv mismatchState (mkLedger 498 1498 1497 0) false false
        ).mCompleteLedgers.hasValue v)
      = [true, false, false, true, true, true, false] :=
  ⟨setFullLedger_keeps_above mismatchEnv mismatchState (mkLedger 498 1498 1497 0) false false
      (by decide) (by decide),
   by decide⟩

/-! ### Table authority (`isAuthorityValid`) -/

/-- Every path through the body of the loop over the names ends in a `return`. -/
theorem body_returns (accountID roles : Nat) (entries : List TableEntry)
    (sCheckName : String) :
    ∃ ret, isAuthorityValid.body accountID roles entries sCheckName = some ret := by
  unfold isAuthorityValid.body
  dsimp only
  split
  · split
    · exact ⟨_, rfl⟩
    · exact ⟨_, rfl⟩
  · exact ⟨_, rfl⟩

theorem body_not_invalid (accountID roles : Nat) (entries : List TableEntry)
    (sCheckName : String) (ret : Bool × error_code_i)
    (h : isAuthorityValid.body accountID roles entries sCheckName = some ret) :
    ret ≠ (false, .rpcINVALID_PARAMS) := by
  unfold isAuthorityValid.body at h
  dsimp only at h
  split at h
  · split at h
    · cases h; simp
    · cases h; simp
  · cases h; simp

/-- Claim C27. For every state, every collaborator answer, all account and
owner ids, every role set and every non-empty list of table names, the result
of `isAuthorityValid` is its result for the list holding the first name alone. -/
theorem isAuthorityValid_first_name_only (env : Env) (s : LedgerMaster)
    (accountID ownerID : Nat) (sCheckName : String) (rest : List String) (roles : Nat) :
    isAuthorityValid env s accountID ownerID (sCheckName :: rest) roles
      = isAuthorityValid env s accountID ownerID [sCheckName] roles := by
  have hbody : ∀ entries : List TableEntry,
      isAuthorityValid.names accountID roles entries (sCheckName :: rest)
        = isAuthorityValid.names accountID roles entries [sCheckName] := by
    intro entries
    obtain ⟨ret, hret⟩ := body_returns accountID roles entries sCheckName
    unfold isAuthorityValid.names
    rw [hret]
  unfold isAuthorityValid
  have h1 : ¬ (sCheckName :: rest).length ≤ 0 := by simp
  have h2 : ¬ [sCheckName].length ≤ 0 := by simp
  by_cases ha : accountID = 0
  · simp [ha]
  · by_cases ho : ownerID = 0
    · simp [ho]
    · simp only [ha, ho, h1, h2, or_self, if_false]
      cases getValidatedLedger s with
      | none => rfl
      | some ledger =>
        dsimp only
        cases env.readTables ledger ownerID with
        | none => rfl
        | some entries => exact hbody entries

/-- Account 1 has authority on the table `open` of owner 2 only: with `locked`
or an unknown name placed after `open` the call succeeds, while either of these
names alone is refused. -/
theorem isAuthorityValid_later_names_ignored :
    isAuthorityValid tablesEnv (stateAt (mkLedger 5 1 0 0) (mkLedger 5 1 0 0)) 1 2
        ["open", "locked"] 0 = (true, .rpcSUCCESS) ∧
    isAuthorityValid tablesEnv (stateAt (mkLedger 5 1 0 0) (mkLedger 5 1 0 0)) 1 2
        ["locked"] 0 = (false, .rpcTAB_UNAUTHORIZED) ∧
    isAuthorityValid tablesEnv (stateAt (mkLedger 5 1 0 0) (mkLedger 5 1 0 0)) 1 2
        ["open", "missing"] 0 = (true, .rpcSUCCESS) ∧
    isAuthorityValid tablesEnv (stateAt (mkLedger 5 1 0 0) (mkLedger 5 1 0 0)) 1 2
        ["missing"] 0 = (false, .rpcTAB_NOT_EXIST) := by
  decide

/-- Claim C28. With non-zero account and owner ids and a non-empty list of
names, `isAuthorityValid` returns `(true, rpcSUCCESS)` when there is no
validated ledger and when the validated ledger has no table object for the
owner; and it returns `(false, rpcINVALID_PARAMS)` exactly when the account id
is zero, the owner id is zero or the list of names is empty. -/
theorem isAuthorityValid_grants_unchecked (env : Env) (s : LedgerMaster)
    (accountID ownerID : Nat) (aTableName : List String) (roles : Nat) :
    (accountID ≠ 0 → ownerID ≠ 0 → aTableName ≠ [] →
      (getValidatedLedger s = none ∨
        ∃ ledger, getValidatedLedger s = some ledger ∧ env.readTables ledger ownerID = none) →
      isAuthorityValid env s accountID ownerID aTableName roles = (true, .rpcSUCCESS)) ∧
    (isAuthorityValid env s accountID ownerID aTableName roles = (false, .rpcINVALID_PARAMS)
      ↔ (accountID = 0 ∨ ownerID = 0 ∨ aTableName = [])) := by
  have hlen : aTableName.length ≤ 0 ↔ aTableName = [] := by
    cases aTableName <;> simp
  have hnames : ∀ entries : List TableEntry, aTableName ≠ [] →
      isAuthorityValid.names accountID roles entries aTableName
        ≠ (false, .rpcINVALID_PARAMS) := by
    intro entries hne
    cases aTableName with
    | nil => exact absurd rfl hne
    | cons n rest =>
      obtain ⟨ret, hret⟩ := body_returns accountID roles entries n
      unfold isAuthorityValid.names
      rw [hret]
      exact body_not_invalid accountID roles entries n ret hret
  constructor
  · intro ha ho hn hcase
    have hc : ¬ (accountID = 0 ∨ ownerID = 0 ∨ aTableName.length ≤ 0) := by
      rw [hlen]
      rintro (h | h | h)
      · exact ha h
      · exact ho h
      · exact hn h
    unfold isAuthorityValid
    rw [if_neg hc]
    rcases hcase with h | ⟨ledger, h1, h2⟩
    · rw [h]
    · rw [h1]
      dsimp only
      rw [h2]
  · constructor
    · intro h
      by_contra hc
      have hc1 : ¬ (accountID = 0 ∨ ownerID = 0 ∨ aTableName.length ≤ 0) := by
        rw [hlen]
        exact hc
      have hne : aTableName ≠ [] := fun h0 => hc (Or.inr (Or.inr h0))
      unfold isAuthorityValid at h
      rw [if_neg hc1] at h
      cases hv : getValidatedLedger s with
      | none => rw [hv] at h; cases h
      | some ledger =>
        rw [hv] at h
        dsimp only at h
        cases hr : env.readTables ledger ownerID with
        | none => rw [hr] at h; cases h
        | some entries =>
          rw [hr] at h
          exact hnames entries hne h
    · intro h
      have hc : accountID = 0 ∨ ownerID = 0 ∨ aTableName.length ≤ 0 := by
        rw [hlen]
        exact h
      unfold isAuthorityValid
      rw [if_pos hc]

/-! ### The fallback sequence of `getLedgerHash` -/

/-- Claim C29. For every 32-bit `desiredSeq` of at least 1 the fallback
sequence of `getLedgerHash`, `(desiredSeq + 255) % 256` in 32-bit unsigned
arithmetic, is below `desiredSeq`, as the source asserts; for `desiredSeq = 0`
the fallback sequence is 255 and the asserted condition is false. -/
theorem getLedgerHash_seq_lt (desiredSeq : Nat) (hpos : 1 ≤ desiredSeq)
    (hlt : desiredSeq < 4294967296) :
    getLedgerHash.seq desiredSeq < desiredSeq ∧
    getLedgerHash.seq 0 = 255 ∧ ¬ getLedgerHash.seq 0 < 0 := by
  refine ⟨?_, by decide, by decide⟩
  unfold getLedgerHash.seq wrap32
  omega

theorem getLedgerHash_seq_lt_witness :
    (getLedgerHash.seq 4294967295 < 4294967295 ∧
      getLedgerHash.seq 0 = 255 ∧ ¬ getLedgerHash.seq 0 < 0) ∧
    getLedgerHash.seq 4294967295 = 254 ∧ getLedgerHash.seq 1 = 0 ∧
      getLedgerHash.seq 300 = 43 :=
  ⟨getLedgerHash_seq_lt 4294967295 (by decide) (by decide), by decide, by decide, by decide⟩

/-! ### The validated range without pending saves (`getValidatedRange`) -/

section pendingRange

theorem pendingCount_pos {pendingSaves : List (Nat × Bool)} {seq : Nat}
    (h : pendingCount pendingSaves seq > 0) : ∃ v ∈ pendingSaves, v.1 = seq := by
  unfold pendingCount at h
  obtain ⟨v, hv⟩ := List.exists_mem_of_length_pos h
  rw [List.mem_filter] at hv
  exact ⟨v, hv.1, by simpa using hv.2⟩

theorem pendingCount_zero {pendingSaves : List (Nat × Bool)} {seq : Nat}
    (h : ¬ pendingCount pendingSaves seq > 0) : ∀ v ∈ pendingSaves, v.1 ≠ seq := by
  intro v hv heq
  apply h
  unfold pendingCount
  apply List.length_pos_of_mem
  rw [List.mem_filter]
  exact ⟨hv, by simpa using heq⟩

/-- When no pending sequence is 0, the first loop ends at a sequence that is
not pending and not above the one it started from. -/
theorem shrinkMax_spec (pendingSaves : List (Nat × Bool))
    (hkeys : ∀ v ∈ pendingSaves, 1 ≤ v.1) :
    ∀ (fuel maxVal : Nat), maxVal < fuel → maxVal < 4294967296 →
      ∃ m, getValidatedRange.shrinkMax pendingSaves fuel maxVal = some m ∧ m ≤ maxVal ∧
        ∀ v ∈ pendingSaves, v.1 ≠ m := by
  intro fuel
  induction fuel with
  | zero => intro maxVal h; omega
  | succ f ih =>
    intro maxVal hf hlt
    unfold getValidatedRange.shrinkMax
    by_cases hc : pendingCount pendingSaves maxVal > 0
    · rw [if_pos hc]
      obtain ⟨v, hv, hv1⟩ := pendingCount_pos hc
      have hpos := hkeys v hv
      have hw : wrap32 (maxVal + 4294967295) = maxVal - 1 := by
        unfold wrap32
        omega
      rw [hw]
      obtain ⟨m, hm, hle, hno⟩ := ih (maxVal - 1) (by omega) (by omega)
      exact ⟨m, hm, by omega, hno⟩
    · rw [if_neg hc]
      exact ⟨maxVal, rfl, le_refl _, pendingCount_zero hc⟩

/-- When no pending sequence is 4294967295, the second loop ends at a sequence
that is not pending and not below the one it started from. -/
theorem growMin_spec (pendingSaves : List (Nat × Bool))
    (hkeys : ∀ v ∈ pendingSaves, v.1 < 4294967295) :
    ∀ (fuel minVal : Nat), 4294967296 ≤ fuel + minVal → minVal < 4294967296 →
      ∃ m, getValidatedRange.growMin pendingSaves fuel minVal = some m ∧ minVal ≤ m ∧
        m < 4294967296 ∧ ∀ v ∈ pendingSaves, v.1 ≠ m := by
  intro fuel
  induction fuel with
  | zero => intro minVal h hlt; omega
  | succ f ih =>
    intro minVal hf hlt
    unfold getValidatedRange.growMin
    by_cases hc : pendingCount pendingSaves minVal > 0
    · rw [if_pos hc]
      obtain ⟨v, hv, hv1⟩ := pendingCount_pos hc
      have hpos := hkeys v hv
      have hw : wrap32 (minVal + 1) = minVal + 1 := by
        unfold wrap32
        omega
      rw [hw]
      obtain ⟨m, hm, hle, hm2, hno⟩ := ih (minVal + 1) (by omega) (by omega)
      exact ⟨m, hm, by omega, hm2, hno⟩
    · rw [if_neg hc]
      exact ⟨minVal, rfl, le_refl _, hlt, pendingCount_zero hc⟩

/-- The third loop only shrinks the range, and it leaves none of the entries
it has gone through inside the range. -/
theorem exclude_spec :
    ∀ (l : List (Nat × Bool)) (r : Nat × Nat),
      (∀ v ∈ l, 1 ≤ v.1 ∧ v.1 < 4294967295) →
      r.1 ≤ (getValidatedRange.exclude l r).1 ∧
      (getValidatedRange.exclude l r).2 ≤ r.2 ∧
      ∀ v ∈ l, ¬ ((getValidatedRange.exclude l r).1 ≤ v.1 ∧
        v.1 ≤ (getValidatedRange.exclude l r).2) := by
  intro l
  induction l with
  | nil =>
    intro r _
    exact ⟨le_refl _, le_refl _, fun v hv => absurd hv (List.not_mem_nil v)⟩
  | cons v rest ih =>
    intro r hkeys
    obtain ⟨minVal, maxVal⟩ := r
    have hv := hkeys v (List.mem_cons_self _ _)
    have hrest : ∀ u ∈ rest, 1 ≤ u.1 ∧ u.1 < 4294967295 :=
      fun u hu => hkeys u (List.mem_cons_of_mem _ hu)
    have hw1 : wrap32 (v.1 + 4294967295) = v.1 - 1 := by
      unfold wrap32
      omega
    have hw2 : wrap32 (v.1 + 1) = v.1 + 1 := by
      unfold wrap32
      omega
    unfold getValidatedRange.exclude
    by_cases hin : v.1 ≥ minVal ∧ v.1 ≤ maxVal
    · rw [if_pos hin]
      by_cases hmid : v.1 > wrap32 (minVal + maxVal) / 2
      · rw [if_pos hmid, hw1]
        obtain ⟨h1, h2, h3⟩ := ih (minVal, v.1 - 1) hrest
        dsimp only at h1 h2
        refine ⟨h1, by dsimp only; omega, ?_⟩
        intro u hu
        rcases List.mem_cons.mp hu with rfl | hu1
        · omega
        · exact h3 u hu1
      · rw [if_neg hmid, hw2]
        obtain ⟨h1, h2, h3⟩ := ih (v.1 + 1, maxVal) hrest
        dsimp only at h1 h2
        refine ⟨by dsimp only; omega, h2, ?_⟩
        intro u hu
        rcases List.mem_cons.mp hu with rfl | hu1
        · omega
        · exact h3 u hu1
    · rw [if_neg hin]
      obtain ⟨h1, h2, h3⟩ := ih (minVal, maxVal) hrest
      dsimp only at h1 h2
      refine ⟨h1, h2, ?_⟩
      intro u hu
      rcases List.mem_cons.mp hu with rfl | hu1
      · omega
      · exact h3 u hu1

end pendingRange

/-- Away from the ends of the 32-bit range the range `getValidatedRange`
returns leaves out the pending saves: when the full range is `minV` to `maxV`
with `1 ≤ minV ≤ maxV < 4294967295`, the snapshot is not empty and every
pending sequence lies between 1 and 4294967294, the method returns (fuel
4294967296 suffices) either `(0, 0)` or a range inside the full one that holds
no pending sequence. -/
theorem getValidatedRange_excludes_pending (fuel : Nat) (env : Env) (s : LedgerMaster)
    (minV maxV : Nat) (hfull : getFullValidatedRange s = some (minV, maxV))
    (h1 : 1 ≤ minV) (h2 : minV ≤ maxV) (h3 : maxV < 4294967295)
    (hne : env.pendingSaves ≠ [])
    (hkeys : ∀ v ∈ env.pendingSaves, 1 ≤ v.1 ∧ v.1 < 4294967295)
    (hfuel : 4294967296 ≤ fuel) :
    ∃ r, getValidatedRange fuel env s = some (some r) ∧
      (r = (0, 0) ∨
        (minV ≤ r.1 ∧ r.1 ≤ r.2 ∧ r.2 ≤ maxV ∧
          ∀ v ∈ env.pendingSaves, ¬ (r.1 ≤ v.1 ∧ v.1 ≤ r.2))) := by
  obtain ⟨m1, hm1, hle1, _⟩ := shrinkMax_spec env.pendingSaves (fun v hv => (hkeys v hv).1)
    fuel maxV (by omega) (by omega)
  obtain ⟨m2, hm2, hle2, _, _⟩ := growMin_spec env.pendingSaves (fun v hv => (hkeys v hv).2)
    fuel minV (by omega) (by omega)
  obtain ⟨e1, e2, e3⟩ := exclude_spec env.pendingSaves (m2, m1) hkeys
  dsimp only at e1 e2
  have hcond : (!env.pendingSaves.isEmpty && (decide (minV ≠ 0) || decide (maxV ≠ 0)))
      = true := by
    have hp : env.pendingSaves.isEmpty = false := by
      cases hq : env.pendingSaves with
      | nil => exact absurd hq hne
      | cons a b => rfl
    have hd : decide (minV ≠ 0) = true := decide_eq_true (by omega)
    rw [hp, hd]
    rfl
  unfold getValidatedRange
  rw [hfull]
  dsimp only
  rw [if_pos hcond, hm1]
  dsimp only
  rw [hm2]
  dsimp only
  by_cases hgt : (getValidatedRange.exclude env.pendingSaves (m2, m1)).1
      > (getValidatedRange.exclude env.pendingSaves (m2, m1)).2
  · rw [if_pos hgt]
    exact ⟨(0, 0), rfl, Or.inl rfl⟩
  · rw [if_neg hgt]
    exact ⟨_, rfl, Or.inr ⟨by omega, by omega, by omega, e3⟩⟩

/-- Full range 3 to 10 with the saves of 3, 5 and 10 pending: the range
returned is 6 to 9. -/
theorem getValidatedRange_example :
    getFullValidatedRange rangeState = some (3, 10) ∧
    getValidatedRange 20 rangePendingEnv rangeState = some (some (6, 9)) := by
  decide

/-- The mirror case at the lower end: full range 1 to 1 and a snapshot holding
0 and 1. `--maxVal` goes from 1 to 0 and wraps to 4294967295, and the range
returned is 2 to 4294967295. -/
theorem getValidatedRange_wraps_at_zero :
    getFullValidatedRange bottomState = some (1, 1) ∧
    getValidatedRange 3 bottomPendingEnv bottomState = some (some (2, 4294967295)) := by
  decide

/-- Claim C26, failing input. The published ledger has sequence 4294967295,
the tracker holds that sequence only and its save is pending. The full range
is 4294967295 to 4294967295; `--maxVal` gives 4294967294, `++minVal` wraps to
0, and the range returned is 0 to 4294967294: it is not `(0, 0)` and it is not
inside the full range. -/
theorem getValidatedRange_wraps_at_top :
    getFullValidatedRange topState = some (4294967295, 4294967295) ∧
    topPendingEnv.pendingSaves ≠ [] ∧
    getValidatedRange 3 topPendingEnv topState = some (some (0, 4294967294)) := by
  decide

/-! ### The path-finding job counter -/

section pathJobs

theorem pathJobs_append (a b : List Event) : pathJobs (a ++ b) = pathJobs a + pathJobs b := by
  unfold pathJobs
  exact List.countP_append _ _ _

/-- `newPFWork` raises the counter by one exactly when it hands a job to the
queue and the queue accepts it, which it tries only while the counter is below
2; a counter of at most 2 stays at most 2. -/
theorem newPFWork_counter (env : Env) (s : LedgerMaster) :
    (newPFWork env s).2.mPathFindThread
      = s.mPathFindThread
        + ((pathJobs (newPFWork env s).2.events - pathJobs s.events : Nat) : Int) ∧
    (s.mPathFindThread ≤ 2 → (newPFWork env s).2.mPathFindThread ≤ 2) ∧
    (2 ≤ s.mPathFindThread → (newPFWork env s).2 = s) := by
  unfold newPFWork
  dsimp only
  by_cases h1 : s.mPathFindThread < 2
  · rw [if_pos h1]
    by_cases h2 : env.addJobUpdatePF = true
    · rw [if_pos h2]
      refine ⟨?_, ?_, ?_⟩
      · rw [emit_events, pathJobs_append]
        show s.mPathFindThread + 1 = _
        simp [pathJobs]
      · intro _
        show s.mPathFindThread + 1 ≤ 2
        omega
      · intro h
        omega
    · rw [if_neg h2]
      refine ⟨by simp, fun h => h, fun _ => rfl⟩
  · rw [if_neg h1]
    refine ⟨by simp, fun h => h, fun _ => rfl⟩

theorem pick_counter (env : Env) (s s1 : LedgerMaster) (l : Ledger)
    (h : updatePaths.pick env s = some (l, s1)) :
    s1.mPathFindThread = s.mPathFindThread := by
  unfold updatePaths.pick at h
  cases hv : s.mValidLedger with
  | none =>
    rw [hv] at h
    dsimp only at h
    split at h
    · cases h; rfl
    · cases h
  | some valid =>
    rw [hv] at h
    dsimp only at h
    split at h
    · cases h; rfl
    · split at h
      · cases h; rfl
      · cases h

/-- A run of `updatePaths` in which the job is never found cancelled and
`updateAll` throws nothing but `SHAMapMissingNode` lowers the counter by one. -/
theorem updatePaths_loop_decrements (env : Env) :
    ∀ (turns : List PathTurn) (s : LedgerMaster) (r : Outcome Unit),
      (∀ t ∈ turns, t.shouldCancel = false) →
      (∀ t ∈ turns, t.updateAll ≠ .threw) →
      updatePaths.loop env turns s = some r →
      r.state.mPathFindThread = s.mPathFindThread - 1 := by
  intro turns
  induction turns with
  | nil => intro s r _ _ h; simp [updatePaths.loop] at h
  | cons turn rest ih =>
    intro s r hc hu h
    have hc1 := hc turn (List.mem_cons_self _ _)
    have hu1 := hu turn (List.mem_cons_self _ _)
    have hcr : ∀ t ∈ rest, t.shouldCancel = false :=
      fun t ht => hc t (List.mem_cons_of_mem _ ht)
    have hur : ∀ t ∈ rest, t.updateAll ≠ .threw :=
      fun t ht => hu t (List.mem_cons_of_mem _ ht)
    unfold updatePaths.loop at h
    rw [hc1] at h
    simp only [Bool.false_eq_true, if_false] at h
    cases hp : updatePaths.pick env s with
    | none =>
      rw [hp] at h
      cases h
      rfl
    | some res =>
      obtain ⟨lastLedger, s1⟩ := res
      have hs1 := pick_counter env s s1 lastLedger hp
      rw [hp] at h
      dsimp only at h
      split at h
      · cases h
        show s1.mPathFindThread - 1 = _
        rw [hs1]
      · cases hr : turn.updateAll with
        | threw => exact absurd hr hu1
        | done =>
          rw [hr] at h
          dsimp only at h
          rw [ih _ r hcr hur h]
          show s1.mPathFindThread - 1 = _
          rw [hs1]
        | missingNode =>
          rw [hr] at h
          dsimp only at h
          split at h
          · rw [ih _ r hcr hur h]
            show s1.mPathFindThread - 1 = _
            rw [hs1]
          · rw [ih _ r hcr hur h]
            show s1.mPathFindThread - 1 = _
            rw [hs1]

theorem updatePaths_decrements (env : Env) (turns : List PathTurn) (s : LedgerMaster)
    (r : Outcome Unit)
    (hc : ∀ t ∈ turns, t.shouldCancel = false)
    (hu : ∀ t ∈ turns, t.updateAll ≠ .threw)
    (h : updatePaths env turns s = some r) :
    r.state.mPathFindThread = s.mPathFindThread - 1 := by
  unfold updatePaths at h
  split at h
  · cases h
    rfl
  · exact updatePaths_loop_decrements env turns s r hc hu h

end pathJobs

/-- Claim C30, failing input. From the initial state `newPFWork` schedules one
`updatePaths` job and sets the counter to 1; the job finds itself cancelled at
its first loop test and returns: no job is left, the counter is still 1. After
a second job ends the same way the counter is 2 with no job left, and a further
`newPFWork` schedules nothing. -/
theorem updatePaths_cancel_keeps_counter :
    (pathRun (LedgerMaster.init, 0)
        [.newPFWork baseEnv, .updatePaths baseEnv [cancelledTurn]]).map
      (fun c => (c.1.mPathFindThread, c.2)) = some (1, 0) ∧
    (pathRun (LedgerMaster.init, 0)
        [.newPFWork baseEnv, .updatePaths baseEnv [cancelledTurn],
         .newPFWork baseEnv, .updatePaths baseEnv [cancelledTurn],
         .newPFWork baseEnv]).map
      (fun c => (c.1.mPathFindThread, c.2, pathJobs c.1.events)) = some (2, 0, 2) := by
  decide

/-- The two conditions under which `checkAccept` is shown idempotent on the
valid ledger hold in every state the publishing operations produce from the
initial state: the valid sequence is the sequence of the ledger in the valid
pointer, and it is not zero, since `setValidLedger` is only reached with a
sequence above the current valid sequence. -/
theorem reachable_valid_coherent (s : LedgerMaster) (l : Ledger) (hr : Reachable s)
    (hv : s.mValidLedger = some l) :
    s.mValidLedgerSeq = l.info.seq ∧ l.info.seq ≠ 0 := by
  have hseq : s.mValidLedgerSeq = l.info.seq := (reachable_pointerInv s hr).2 l hv
  have hpos : 1 ≤ s.mValidLedgerSeq := reachable_validPos s hr l hv
  exact ⟨hseq, by omega⟩

end ripple
